import Mathlib

/-! # gloo mesh: ObjMesh derivation and export

A shallow embedding of `src/modules/gloo_mesh/obj-mesh.cpp` (namespace `gloo`):
`Clear`, `GetNumFaces`, `TriangulateQuads`, `ComputeFaceNormals`,
`ComputeVertexNormals` and `ExportToMeshGroup`, followed by the properties
proved about them.

Conventions of the embedding.

* Scalars (`float` in the source) are the elements of an arbitrary field `F`;
  the square root used by `glm::length` and `glm::normalize` is passed as an
  explicit function `sqrt : F → F`.  Instantiating `F := ℝ`, `sqrt := Real.sqrt`
  gives exact real arithmetic; `F := ℚ` gives an executable instance.
* `std::vector` is `List`.  An element access `v[k]` with `k` outside
  `0 ≤ k < v.size()` is undefined behaviour in the source; the embedding makes
  every procedure that performs such accesses return `Option`, with `none`
  standing for "an out-of-range element access happened".
* A corner record (`std::vector<int>` holding `v`, `vt`, `vn`) is the triple
  `Corner`; the indices are `int` in the source and `Int` here.
* Loop counters are natural numbers: containers are taken to be shorter than
  `2^31`, so the `int` counters of the source never wrap.
* Division is the field's, with `x / 0 = 0`; a statement whose content depends
  on a non-zero denominator carries that as a hypothesis.
-/

namespace gloo

/-! ## Vectors (`glm::vec3`, `glm::vec2`) -/

/-- Three scalars, as in `glm::vec3`. -/
structure Vec3 (F : Type) where
  x : F
  y : F
  z : F
deriving DecidableEq, Repr

/-- Two scalars, as in `glm::vec2`. -/
structure Vec2 (F : Type) where
  x : F
  y : F
deriving DecidableEq, Repr

namespace Vec3

variable {F : Type} [Field F]

/-- The vector `glm::vec3(0.0f)`. -/
def zero : Vec3 F := ⟨0, 0, 0⟩

/-- Componentwise sum (`operator+`, `operator+=`). -/
def add (a b : Vec3 F) : Vec3 F := ⟨a.x + b.x, a.y + b.y, a.z + b.z⟩

/-- Componentwise difference (`operator-`). -/
def sub (a b : Vec3 F) : Vec3 F := ⟨a.x - b.x, a.y - b.y, a.z - b.z⟩

/-- Vector times scalar (`operator*(vec3, float)`). -/
def scale (a : Vec3 F) (s : F) : Vec3 F := ⟨a.x * s, a.y * s, a.z * s⟩

/-- Inner product (`glm::dot`). -/
def dot (a b : Vec3 F) : F := a.x * b.x + a.y * b.y + a.z * b.z

/-- Cross product (`glm::cross`). -/
def cross (a b : Vec3 F) : Vec3 F :=
  ⟨a.y * b.z - b.y * a.z, a.z * b.x - b.z * a.x, a.x * b.y - b.x * a.y⟩

/-- Euclidean length (`glm::length`): the square root of `dot a a`. -/
def length (sqrt : F → F) (a : Vec3 F) : F := sqrt (dot a a)

/-- Unit vector (`glm::normalize`): `a * inversesqrt(dot a a)`. -/
def normalize (sqrt : F → F) (a : Vec3 F) : Vec3 F := scale a (sqrt (dot a a))⁻¹

end Vec3

/-! ## Data model (`Face`, `ObjGroup`, `ObjMesh`) -/

/-- Modelled from the spec: the corner record of a face (declared in
`obj-mesh.h`, which is not among the sources) is the triple of indices
`(positionIndex, uvIndex, normalIndex)`, read in the code as entries `[0]`,
`[1]`, `[2]` of the corner vector; an absent uv or normal index is a sentinel
value such as `-1`. -/
structure Corner where
  pos : Int
  uv : Int
  nor : Int
deriving DecidableEq, Repr

/-- Modelled from the spec: the class `Face` (declared in `obj-mesh.h`, which
is not among the sources) is an ordered sequence of corner records
(`VertexList()`, `operator[]`) owning a cached face normal (`GetNormal()`,
`SetNormal()`). -/
structure Face (F : Type) where
  VertexList : List Corner
  mNormal : Vec3 F
deriving DecidableEq, Repr

/-- Modelled from the spec: a group (`ObjGroup`, declared in `obj-mesh.h`,
which is not among the sources) is a name plus an ordered sequence of faces. -/
structure ObjGroup (F : Type) where
  mName : String
  mFaces : List (Face F)
deriving DecidableEq, Repr

/-- Modelled from the spec: the data members of `ObjMesh` (declared in
`obj-mesh.h`, which is not among the sources) are the three attribute arrays
and the ordered sequence of groups. -/
structure ObjMesh (F : Type) where
  mVertices : List (Vec3 F)
  mNormals : List (Vec3 F)
  mUVs : List (Vec2 F)
  mGroups : List (ObjGroup F)
deriving DecidableEq, Repr

variable {F : Type}

/-- Element access `v[k]` with an `int` index: defined only for
`0 ≤ k < v.size()` (a negative `int` converts to a `size_t` beyond any size). -/
def index {α : Type} (v : List α) (k : Int) : Option α :=
  if 0 ≤ k then v[k.toNat]? else none

/-- `face.SetNormal(n)`. -/
def Face.SetNormal (face : Face F) (n : Vec3 F) : Face F :=
  { face with mNormal := n }

/-- `ObjMesh::GetNumFaces`: the sum of the groups' face counts. -/
def ObjMesh.GetNumFaces (m : ObjMesh F) : Nat :=
  m.mGroups.foldl (fun count group => count + group.mFaces.length) 0

/-- `ObjMesh::Clear`: the three attribute arrays are cleared and every group's
face list is cleared; the groups themselves stay. -/
def Clear (m : ObjMesh F) : ObjMesh F :=
  { mVertices := []
    mNormals := []
    mUVs := []
    mGroups := m.mGroups.map (fun group => { group with mFaces := [] }) }

/-! ## `ObjMesh::TriangulateQuads` -/

/-- Body of the inner loop of `TriangulateQuads` at counter `i`: a face with
exactly four corners loses its last corner in place and a new face made of the
corners 0, 2, 3 is pushed at the back.  `fresh` is the cached normal a newly
constructed `Face` carries (the `Face` constructor is not among the sources,
so its value is a parameter). -/
def triangulateStep (fresh : Vec3 F) (faces : List (Face F)) (i : Nat) : List (Face F) :=
  match faces[i]? with
  | none => faces
  | some face =>
    match face.VertexList with
    | [vtx0, vtx1, vtx2, vtx3] =>
      (faces.set i { face with VertexList := [vtx0, vtx1, vtx2] })
        ++ [{ VertexList := [vtx0, vtx2, vtx3], mNormal := fresh }]
    | _ => faces

/-- The inner loop of `TriangulateQuads` over one group: the counter runs over
the original number of faces. -/
def triangulateGroup (fresh : Vec3 F) (group : ObjGroup F) : ObjGroup F :=
  let originalNumFaces := group.mFaces.length
  { group with
    mFaces := (List.range originalNumFaces).foldl (triangulateStep fresh) group.mFaces }

/-- `ObjMesh::TriangulateQuads`. -/
def TriangulateQuads (fresh : Vec3 F) (m : ObjMesh F) : ObjMesh F :=
  { m with mGroups := m.mGroups.map (triangulateGroup fresh) }

/-- The face a quad is reduced to in place: corners 0, 1, 2 (other faces are
unchanged). -/
def keepTriangle (face : Face F) : Face F :=
  match face.VertexList with
  | [vtx0, vtx1, vtx2, _] => { face with VertexList := [vtx0, vtx1, vtx2] }
  | _ => face

/-- The faces appended for a face: the triangle of corners 0, 2, 3 for a quad,
nothing otherwise. -/
def splitTriangle (fresh : Vec3 F) (face : Face F) : List (Face F) :=
  match face.VertexList with
  | [vtx0, _, vtx2, vtx3] => [{ VertexList := [vtx0, vtx2, vtx3], mNormal := fresh }]
  | _ => []

/-- The face list the specification describes for one group. -/
def triangulatedFaces (fresh : Vec3 F) (faces : List (Face F)) : List (Face F) :=
  faces.map keepTriangle ++ faces.flatMap (splitTriangle fresh)

/-! ## `ObjMesh::ComputeFaceNormals` -/

/-- Body of the loops of `ComputeFaceNormals` for one face: a face with exactly
three corners gets the cross product of its edge vectors `v1 - v0`, `v2 - v0`
(normalized on request) as cached normal; any other face is left alone. -/
def faceNormalStep [Field F] (sqrt : F → F) (normalize : Bool) (mVertices : List (Vec3 F))
    (face : Face F) : Option (Face F) :=
  if face.VertexList.length = 3 then do
    let vtx0 ← face.VertexList[0]?
    let vtx1 ← face.VertexList[1]?
    let vtx2 ← face.VertexList[2]?
    let v0 ← index mVertices vtx0.pos
    let v1 ← index mVertices vtx1.pos
    let v2 ← index mVertices vtx2.pos
    let n := Vec3.cross (v1.sub v0) (v2.sub v0)
    let n := if normalize then Vec3.normalize sqrt n else n
    pure (face.SetNormal n)
  else
    pure face

/-- `ObjMesh::ComputeFaceNormals`: every face of every group, in order. -/
def ComputeFaceNormals [Field F] (sqrt : F → F) (normalize : Bool) (m : ObjMesh F) :
    Option (ObjMesh F) := do
  let groups ← m.mGroups.mapM (fun group => do
    let faces ← group.mFaces.mapM (faceNormalStep sqrt normalize m.mVertices)
    pure { group with mFaces := faces })
  pure { m with mGroups := groups }

/-! ## `ObjMesh::ComputeVertexNormals` -/

/-- A `Face*` into the face storage of the mesh: the place (group, face) of the
face pointed to.  No face list is resized while such pointers are alive. -/
abbrev FacePtr := Nat × Nat

/-- Reading through a `Face*`. -/
def deref (groups : List (ObjGroup F)) (p : FacePtr) : Option (Face F) := do
  let group ← groups[p.1]?
  group.mFaces[p.2]?

/-- Writing through a `Face*`. -/
def store (groups : List (ObjGroup F)) (p : FacePtr) (face : Face F) : List (ObjGroup F) :=
  groups.modify (fun group => { group with mFaces := group.mFaces.set p.2 face }) p.1

/-- The statement `mVertexFaces[k].push_back(p)`. -/
def pushAdjacent (mVertexFaces : List (List FacePtr)) (k : Int) (p : FacePtr) :
    Option (List (List FacePtr)) := do
  let entry ← index mVertexFaces k
  pure (mVertexFaces.set k.toNat (entry ++ [p]))

/-- First loop nest of `ComputeVertexNormals`: the adjacency list, one entry
per face corner, filed under the corner's position index. -/
def buildVertexFaces (m : ObjMesh F) : Option (List (List FacePtr)) :=
  m.mGroups.enum.foldlM
    (fun mVertexFaces gi =>
      gi.2.mFaces.enum.foldlM
        (fun mVertexFaces fi =>
          fi.2.VertexList.foldlM
            (fun mVertexFaces corner => pushAdjacent mVertexFaces corner.pos (gi.1, fi.1))
            mVertexFaces)
        mVertexFaces)
    (List.replicate m.mVertices.length [])

/-- Innermost loop of the last part of `ComputeVertexNormals`: every corner of
the face whose position index is `i` gets normal index `i`. -/
def retarget (i : Nat) (face : Face F) : Face F :=
  { face with
    VertexList := face.VertexList.map
      (fun corner => if corner.pos = (i : Int) then { corner with nor := (i : Int) } else corner) }

/-- Body of the vertex loop of `ComputeVertexNormals`; `ia` pairs the counter
`i` with `mVertexFaces[i]`: total weight, weighted sum, optional normalization,
`push_back` on the normals, and the re-pointing of the corners of the adjacent
faces. -/
def vertexNormalStep [Field F] (sqrt : F → F) (normalize : Bool) (m : ObjMesh F)
    (ia : Nat × List FacePtr) : Option (ObjMesh F) := do
  let total_weight ← ia.2.foldlM
    (fun total_weight p => do
      let face ← deref m.mGroups p
      pure (total_weight + Vec3.length sqrt face.mNormal))
    (0 : F)
  let n ← ia.2.foldlM
    (fun n p => do
      let face ← deref m.mGroups p
      let weight := Vec3.length sqrt face.mNormal
      pure (Vec3.add n (Vec3.scale face.mNormal (weight / total_weight))))
    (Vec3.zero : Vec3 F)
  let n := if normalize then Vec3.normalize sqrt n else n
  let mNormals := m.mNormals ++ [n]
  let groups ← ia.2.foldlM
    (fun groups p => do
      let face ← deref groups p
      pure (store groups p (retarget ia.1 face)))
    m.mGroups
  pure { m with mNormals := mNormals, mGroups := groups }

/-- `ObjMesh::ComputeVertexNormals`. -/
def ComputeVertexNormals [Field F] (sqrt : F → F) (normalize : Bool) (m : ObjMesh F) :
    Option (ObjMesh F) := do
  let mVertexFaces ← buildVertexFaces m
  let m ← ComputeFaceNormals sqrt false m
  mVertexFaces.enum.foldlM (vertexNormalStep sqrt normalize) m

/-- The divisions the body of the vertex loop performs, as the list of their
divisors: the statement `n += normal * (weight/total_weight)` divides once per
entry of `mVertexFaces[i]`, each time by the total weight.  (The trace covers
the loop body proper, not the optional `glm::normalize`.) -/
def vertexNormalDivisors [Field F] (sqrt : F → F) (m : ObjMesh F)
    (ia : Nat × List FacePtr) : Option (List F) := do
  let total_weight ← ia.2.foldlM
    (fun total_weight p => do
      let face ← deref m.mGroups p
      pure (total_weight + Vec3.length sqrt face.mNormal))
    (0 : F)
  ia.2.foldlM
    (fun divisors p => do
      let _ ← deref m.mGroups p
      pure (divisors ++ [total_weight]))
    []

/-- `ObjMesh::ComputeVertexNormals` run for its divisions: the same statements,
recording for every vertex counter the divisors of that iteration. -/
def ComputeVertexNormalsDivisors [Field F] (sqrt : F → F) (normalize : Bool) (m : ObjMesh F) :
    Option (List (List F)) := do
  let mVertexFaces ← buildVertexFaces m
  let m ← ComputeFaceNormals sqrt false m
  let r ← mVertexFaces.enum.foldlM
    (fun (acc : ObjMesh F × List (List F)) ia => do
      let divisors ← vertexNormalDivisors sqrt acc.1 ia
      let m ← vertexNormalStep sqrt normalize acc.1 ia
      pure (m, acc.2 ++ [divisors]))
    (m, [])
  pure r.2

/-! ## `ObjMesh::ExportToMeshGroup` -/

/-- Modelled from the spec: `MeshGroup<Batch>` is not among the sources; the
record keeps what `ExportToMeshGroup` hands to it, namely the constructor
arguments (vertex and element capacity), the attribute sizes given to
`SetVertexAttribList` and the buffers given to `Load`. -/
structure MeshGroup (F : Type) where
  numVertices : Nat
  numElements : Nat
  vertexAttribList : List Nat
  bufferList : List (List F)
deriving DecidableEq, Repr

/-- The three auxiliary buffers filled by the export loop. -/
structure GroupBuffers (F : Type) where
  groupPositions : List F
  groupNormals : List F
  groupUVs : List F
deriving DecidableEq, Repr

/-- Conversion of an `int` to `size_t` (64 bits), as the comparison
`groupIndex > mGroups.size()` does. -/
def toSizeT (k : Int) : Nat := (k % 2 ^ 64).toNat

/-- Modelled from the spec: `GetNumFacesOnGroup` is declared in the header
`obj-mesh.h`, which is not among the sources; it is the face count of the
indexed group. -/
def GetNumFacesOnGroup (m : ObjMesh F) (groupIndex : Int) : Option Nat := do
  let group ← index m.mGroups groupIndex
  pure group.mFaces.length

/-- Body of the inner export loop for corner `vtx` of `face`. -/
def exportCorner (smoothShading hasUVs : Bool) (m : ObjMesh F) (face : Face F)
    (bufs : GroupBuffers F) (vtx : Nat) : Option (GroupBuffers F) := do
  let corner ← face.VertexList[vtx]?
  let pos_index := corner.pos
  let uv_index := corner.uv
  let nor_index := corner.nor
  let v ← index m.mVertices pos_index
  let groupPositions := bufs.groupPositions ++ [v.x, v.y, v.z]
  let groupNormals ←
    if smoothShading then do
      let vn ← index m.mNormals nor_index
      pure (bufs.groupNormals ++ [vn.x, vn.y, vn.z])
    else
      let n := face.mNormal
      pure (bufs.groupNormals ++ [n.x, n.y, n.z])
  let groupUVs ←
    if hasUVs then do
      let vt ← index m.mUVs uv_index
      pure (bufs.groupUVs ++ [vt.x, vt.y])
    else
      pure bufs.groupUVs
  pure { groupPositions := groupPositions, groupNormals := groupNormals, groupUVs := groupUVs }

/-- The export loop: every face of the group, corners 0, 1, 2. -/
def exportFaces (smoothShading hasUVs : Bool) (m : ObjMesh F) (faces : List (Face F)) :
    Option (GroupBuffers F) :=
  faces.foldlM
    (fun bufs face => [0, 1, 2].foldlM (exportCorner smoothShading hasUVs m face) bufs)
    { groupPositions := [], groupNormals := [], groupUVs := [] }

/-- `ObjMesh::ExportToMeshGroup`.  The result pairs the mesh as the call
leaves it with the returned pointer (`none` is `nullptr`); the outer `none`
is an out-of-range element access.  `Load` is the upload of
`MeshGroup<Batch>`, which is not among the sources.  The reference `objGroup`
is bound before the derivation and read after it, hence the two look-ups. -/
def ExportToMeshGroup [Field F] (Load : MeshGroup F → Bool) (sqrt : F → F) (m : ObjMesh F)
    (groupIndex : Int) (smoothShading : Bool) : Option (ObjMesh F × Option (MeshGroup F)) :=
  if groupIndex < 0 ∧ toSizeT groupIndex > m.mGroups.length then
    some (m, none)
  else do
    let _ ← index m.mGroups groupIndex
    let hasUVs := decide (m.mUVs.length > 0)
    let hasNormals := decide (m.mNormals.length > 0)
    let m ←
      (if !hasNormals && smoothShading then
        ComputeVertexNormals sqrt true m
      else if !smoothShading then
        ComputeFaceNormals sqrt true m
      else
        pure m)
    let objGroup ← index m.mGroups groupIndex
    let numFaces ← GetNumFacesOnGroup m groupIndex
    let numVertices := 3 * numFaces
    let numElements := numVertices
    let bufs ← exportFaces smoothShading hasUVs m objGroup.mFaces
    let vertexAttribList := [3, 3] ++ (if hasUVs then [2] else [])
    let bufferList :=
      [bufs.groupPositions, bufs.groupNormals] ++ (if hasUVs then [bufs.groupUVs] else [])
    let meshGroup : MeshGroup F :=
      { numVertices := numVertices, numElements := numElements,
        vertexAttribList := vertexAttribList, bufferList := bufferList }
    if !Load meshGroup then
      pure (m, none)
    else
      pure (m, some meshGroup)

/-! ## Specification-level notions used by the statements -/

/-- Every corner of every face of every group has a position index inside the
positions array. -/
def PosInBounds (m : ObjMesh F) : Prop :=
  ∀ group ∈ m.mGroups, ∀ face ∈ group.mFaces, ∀ corner ∈ face.VertexList,
    0 ≤ corner.pos ∧ corner.pos < (m.mVertices.length : Int)

/-- The position a corner refers to (the zero vector when the index is out of
range; the statements only use it for indices in range). -/
def vertexAt [Field F] (mVertices : List (Vec3 F)) (k : Int) : Vec3 F :=
  (index mVertices k).getD Vec3.zero

/-- The cross product `cross(v1 - v0, v2 - v0)` of a face with corners
`(v0, v1, v2)`, as the specification words it. -/
def crossNormal [Field F] (mVertices : List (Vec3 F)) (face : Face F) : Vec3 F :=
  match face.VertexList with
  | [vtx0, vtx1, vtx2] =>
    Vec3.cross ((vertexAt mVertices vtx1.pos).sub (vertexAt mVertices vtx0.pos))
      ((vertexAt mVertices vtx2.pos).sub (vertexAt mVertices vtx0.pos))
  | _ => Vec3.zero

/-- The face as the specification says `ComputeFaceNormals` leaves it. -/
def withFaceNormal [Field F] (sqrt : F → F) (normalize : Bool) (mVertices : List (Vec3 F))
    (face : Face F) : Face F :=
  if face.VertexList.length = 3 then
    { face with
      mNormal := if normalize then Vec3.normalize sqrt (crossNormal mVertices face)
                 else crossNormal mVertices face }
  else face

/-- Applying a function to every face of every group. -/
def mapFaces (f : Face F → Face F) (groups : List (ObjGroup F)) : List (ObjGroup F) :=
  groups.map (fun group => { group with mFaces := group.mFaces.map f })

/-- The pointers the adjacency construction files under vertex `v`: one per
face corner whose position index is `v`, in the order groups, faces and
corners are traversed. -/
def adjacentPtrs (groups : List (ObjGroup F)) (v : Nat) : List FacePtr :=
  groups.enum.flatMap (fun gi =>
    gi.2.mFaces.enum.flatMap (fun fi =>
      (fi.2.VertexList.filter (fun corner => decide (corner.pos = (v : Int)))).map
        (fun _ => (gi.1, fi.1))))

/-- The faces adjacent to vertex `v`: each face once per corner that uses `v`,
in traversal order. -/
def adjacentFaces (groups : List (ObjGroup F)) (v : Nat) : List (Face F) :=
  groups.flatMap (fun group =>
    group.mFaces.flatMap (fun face =>
      (face.VertexList.filter (fun corner => decide (corner.pos = (v : Int)))).map
        (fun _ => face)))

/-- The sum `Σ_j n_j * (|n_j| / Σ_k |n_k|)` the vertex loop accumulates over a
list of face normals. -/
def weightedAverage [Field F] (sqrt : F → F) (normals : List (Vec3 F)) : Vec3 F :=
  let total_weight := normals.foldl (fun t n => t + Vec3.length sqrt n) 0
  normals.foldl (fun acc n => Vec3.add acc (Vec3.scale n (Vec3.length sqrt n / total_weight)))
    Vec3.zero

/-- The normal appended for vertex `v`, given the groups as `ComputeFaceNormals`
leaves them. -/
def vertexNormal [Field F] (sqrt : F → F) (normalize : Bool) (groups : List (ObjGroup F))
    (v : Nat) : Vec3 F :=
  let n := weightedAverage sqrt ((adjacentFaces groups v).map Face.mNormal)
  if normalize then Vec3.normalize sqrt n else n

/-- The total weight of vertex `v`: the sum of the lengths of the cached
normals of its adjacent faces. -/
def totalWeight [Field F] (sqrt : F → F) (groups : List (ObjGroup F)) (v : Nat) : F :=
  ((adjacentFaces groups v).map (fun face => Vec3.length sqrt face.mNormal)).sum

/-- The divisors of the iteration for vertex `v`: the total weight, once per
adjacent face. -/
def vertexDivisors [Field F] (sqrt : F → F) (groups : List (ObjGroup F)) (v : Nat) : List F :=
  List.replicate (adjacentFaces groups v).length (totalWeight sqrt groups v)

/-- Every corner whose position index lies in `[0, k)` points at the normal
index equal to its position index. -/
def retargetBelow (k : Nat) (face : Face F) : Face F :=
  { face with
    VertexList := face.VertexList.map (fun corner =>
      if 0 ≤ corner.pos ∧ corner.pos < (k : Int) then { corner with nor := corner.pos }
      else corner) }

/-- Every corner points at the normal index equal to its position index. -/
def pointAtOwnVertex (face : Face F) : Face F :=
  { face with VertexList := face.VertexList.map (fun corner => { corner with nor := corner.pos }) }

/-- The layout of the face storage: per group its name and face count. -/
def shape (groups : List (ObjGroup F)) : List (String × Nat) :=
  groups.map (fun group => (group.mName, group.mFaces.length))

/-- Every face of every group has exactly three corners. -/
def Triangulated (m : ObjMesh F) : Prop :=
  ∀ group ∈ m.mGroups, ∀ face ∈ group.mFaces, face.VertexList.length = 3

/-- Sum of a list of vectors. -/
def vsum [Field F] (vs : List (Vec3 F)) : Vec3 F := vs.foldl Vec3.add Vec3.zero

/-- The quotient `(Σ_j n_j) / (Σ_j |n_j|)` of the specification text. -/
def plainQuotient [Field F] (sqrt : F → F) (normals : List (Vec3 F)) : Vec3 F :=
  Vec3.scale (vsum normals) ((normals.map (Vec3.length sqrt)).sum)⁻¹

/-- The quotient `(Σ_j |n_j| n_j) / (Σ_j |n_j|)`. -/
def magnitudeWeightedQuotient [Field F] (sqrt : F → F) (normals : List (Vec3 F)) : Vec3 F :=
  Vec3.scale (vsum (normals.map (fun n => Vec3.scale n (Vec3.length sqrt n))))
    ((normals.map (Vec3.length sqrt)).sum)⁻¹

/-- The texture coordinate a corner refers to (zero when the index is out of
range; the statements only use it for indices in range). -/
def uvAt [Field F] (mUVs : List (Vec2 F)) (k : Int) : Vec2 F :=
  (index mUVs k).getD ⟨0, 0⟩

/-- The three scalars a corner contributes to the position buffer. -/
def cornerPositions [Field F] (m : ObjMesh F) (corner : Corner) : List F :=
  [(vertexAt m.mVertices corner.pos).x, (vertexAt m.mVertices corner.pos).y,
    (vertexAt m.mVertices corner.pos).z]

/-- The three scalars a corner contributes to the normal buffer. -/
def cornerNormals [Field F] (smoothShading : Bool) (m : ObjMesh F) (face : Face F)
    (corner : Corner) : List F :=
  if smoothShading then
    [(vertexAt m.mNormals corner.nor).x, (vertexAt m.mNormals corner.nor).y,
      (vertexAt m.mNormals corner.nor).z]
  else [face.mNormal.x, face.mNormal.y, face.mNormal.z]

/-- The two scalars a corner contributes to the UV buffer. -/
def cornerUVs [Field F] (hasUVs : Bool) (m : ObjMesh F) (corner : Corner) : List F :=
  if hasUVs then [(uvAt m.mUVs corner.uv).x, (uvAt m.mUVs corner.uv).y] else []

/-- The buffers the specification describes: per face, the contributions of
its corners 0, 1, 2, in order. -/
def flatBuffers [Field F] (smoothShading hasUVs : Bool) (m : ObjMesh F)
    (faces : List (Face F)) : GroupBuffers F :=
  { groupPositions :=
      faces.flatMap (fun face => (face.VertexList.take 3).flatMap (cornerPositions m))
    groupNormals :=
      faces.flatMap (fun face =>
        (face.VertexList.take 3).flatMap (cornerNormals smoothShading m face))
    groupUVs :=
      faces.flatMap (fun face => (face.VertexList.take 3).flatMap (cornerUVs hasUVs m)) }

/-- The `MeshGroup` the specification describes for a group's faces. -/
def flatMeshGroup [Field F] (smoothShading hasUVs : Bool) (m : ObjMesh F)
    (faces : List (Face F)) : MeshGroup F :=
  { numVertices := 3 * faces.length
    numElements := 3 * faces.length
    vertexAttribList := [3, 3] ++ (if hasUVs then [2] else [])
    bufferList :=
      [(flatBuffers smoothShading hasUVs m faces).groupPositions,
        (flatBuffers smoothShading hasUVs m faces).groupNormals]
        ++ (if hasUVs then [(flatBuffers smoothShading hasUVs m faces).groupUVs] else []) }

/-- The accesses the export loop makes for one corner are in range. -/
def CornerReady (smoothShading hasUVs : Bool) (m : ObjMesh F) (corner : Corner) : Prop :=
  (0 ≤ corner.pos ∧ corner.pos < (m.mVertices.length : Int))
    ∧ (smoothShading = true → 0 ≤ corner.nor ∧ corner.nor < (m.mNormals.length : Int))
    ∧ (hasUVs = true → 0 ≤ corner.uv ∧ corner.uv < (m.mUVs.length : Int))

/-- The accesses the export loop makes for one face are in range: corners 0, 1,
2 exist and are ready. -/
def FaceReady (smoothShading hasUVs : Bool) (m : ObjMesh F) (face : Face F) : Prop :=
  3 ≤ face.VertexList.length
    ∧ ∀ corner ∈ face.VertexList.take 3, CornerReady smoothShading hasUVs m corner

/-- The mesh state after the derivation the specification describes for an
export: vertex normals when smooth shading is asked for and no normal exists,
face normals when flat shading is asked for, nothing otherwise. -/
def derivedMesh [Field F] (sqrt : F → F) (m : ObjMesh F) (smoothShading : Bool) :
    Option (ObjMesh F) :=
  match smoothShading, m.mNormals with
  | true, [] => ComputeVertexNormals sqrt true m
  | false, _ => ComputeFaceNormals sqrt true m
  | true, _ :: _ => some m

/-- The corner as the derivation of an export leaves it: pointing at its own
vertex's normal after vertex-normal computation, unchanged otherwise. -/
def derivedCorner (m : ObjMesh F) (smoothShading : Bool) (corner : Corner) : Corner :=
  match smoothShading, m.mNormals with
  | true, [] => { corner with nor := corner.pos }
  | _, _ => corner

/-- The cached normal of a face after the derivation of an export. -/
def derivedFaceNormal [Field F] (sqrt : F → F) (m : ObjMesh F) (smoothShading : Bool)
    (face : Face F) : Vec3 F :=
  match smoothShading, m.mNormals with
  | true, [] => (withFaceNormal sqrt false m.mVertices face).mNormal
  | false, _ => (withFaceNormal sqrt true m.mVertices face).mNormal
  | true, _ :: _ => face.mNormal

/-- The face as the derivation of an export leaves it. -/
def derivedFace [Field F] (sqrt : F → F) (m : ObjMesh F) (smoothShading : Bool)
    (face : Face F) : Face F :=
  { VertexList := face.VertexList.map (derivedCorner m smoothShading)
    mNormal := derivedFaceNormal sqrt m smoothShading face }

/-- The normals array after the derivation of an export. -/
def derivedNormals [Field F] (sqrt : F → F) (m : ObjMesh F) (smoothShading : Bool) :
    List (Vec3 F) :=
  match smoothShading, m.mNormals with
  | true, [] =>
    (List.range m.mVertices.length).map
      (vertexNormal sqrt true (mapFaces (withFaceNormal sqrt false m.mVertices) m.mGroups))
  | _, _ => m.mNormals

/-- The mesh after the derivation of an export, in closed form. -/
def derivedState [Field F] (sqrt : F → F) (m : ObjMesh F) (smoothShading : Bool) : ObjMesh F :=
  { m with
    mNormals := derivedNormals sqrt m smoothShading
    mGroups := mapFaces (derivedFace sqrt m smoothShading) m.mGroups }

/-- What the export needs of the mesh it is given: position indices in range
everywhere, and, in the exported group, at least three corners per face, normal
indices in range when smooth shading reads existing normals, and uv indices in
range when the mesh has UVs. -/
def ExportReady (m : ObjMesh F) (group : ObjGroup F) (smoothShading : Bool) : Prop :=
  PosInBounds m
    ∧ ∀ face ∈ group.mFaces, 3 ≤ face.VertexList.length
        ∧ ∀ corner ∈ face.VertexList,
            (smoothShading = true → m.mNormals ≠ [] →
              0 ≤ corner.nor ∧ corner.nor < (m.mNormals.length : Int))
            ∧ (m.mUVs ≠ [] → 0 ≤ corner.uv ∧ corner.uv < (m.mUVs.length : Int))

/-- A corner without its normal index (set to 0). -/
def forgetCorner (corner : Corner) : Corner := { corner with nor := 0 }

/-- A face without the normal indices of its corners. -/
def forgetIndices (face : Face F) : Face F :=
  { face with VertexList := face.VertexList.map forgetCorner }

/-- A face without the normal indices of its corners and, when it has exactly
three corners, without its cached normal (set to zero). -/
def forgetFace [Field F] (face : Face F) : Face F :=
  { VertexList := face.VertexList.map forgetCorner
    mNormal := if face.VertexList.length = 3 then Vec3.zero else face.mNormal }

/-- A mesh without its normals array, without the normal indices of its
corners and without the cached normals of its triangular faces.  Positions,
uvs, groups, position and uv indices, and the cached normals of the other
faces are kept. -/
def forgetNormals [Field F] (m : ObjMesh F) : ObjMesh F :=
  { m with mNormals := [], mGroups := mapFaces forgetFace m.mGroups }

/-- Two meshes agree on positions, uvs, groups and every corner's position and
uv index, and may differ in the normals array, in the corners' normal indices
and in the cached normals of triangular faces. -/
def FlatAgree [Field F] (m1 m2 : ObjMesh F) : Prop :=
  forgetNormals m1 = forgetNormals m2

/-- An arbitrary change of what `FlatAgree` leaves free: a new normals array
`N`, new normal indices `ν` for the corners, new cached normals `η` for the
faces with exactly three corners. -/
def rewriteNormals [Field F] (N : List (Vec3 F)) (ν : Corner → Int) (η : Face F → Vec3 F)
    (m : ObjMesh F) : ObjMesh F :=
  { m with
    mNormals := N
    mGroups := mapFaces
      (fun face =>
        { VertexList := face.VertexList.map (fun corner => { corner with nor := ν corner })
          mNormal := if face.VertexList.length = 3 then η face else face.mNormal })
      m.mGroups }

/-- The pointer `ExportToMeshGroup` returns for given buffers: the group when
`Load` succeeds, `nullptr` otherwise. -/
def delivered (Load : MeshGroup F → Bool) (hasUVs : Bool) (numFaces : Nat)
    (bufs : GroupBuffers F) : Option (MeshGroup F) :=
  if Load { numVertices := 3 * numFaces, numElements := 3 * numFaces,
            vertexAttribList := [3, 3] ++ (if hasUVs then [2] else []),
            bufferList := [bufs.groupPositions, bufs.groupNormals]
              ++ (if hasUVs then [bufs.groupUVs] else []) }
  then some { numVertices := 3 * numFaces, numElements := 3 * numFaces,
              vertexAttribList := [3, 3] ++ (if hasUVs then [2] else []),
              bufferList := [bufs.groupPositions, bufs.groupNormals]
                ++ (if hasUVs then [bufs.groupUVs] else []) }
  else none

/-- A triangle with corner positions 0, 1, 2 over three points of the plane
`z = 0`; its cross-product normal is `(0, 0, 2)`, of length 2. -/
def sampleTriangle (F : Type) [Field F] : ObjMesh F :=
  { mVertices := [⟨0, 0, 0⟩, ⟨2, 0, 0⟩, ⟨0, 1, 0⟩]
    mNormals := []
    mUVs := []
    mGroups := [⟨"g", [⟨[⟨0, -1, -1⟩, ⟨1, -1, -1⟩, ⟨2, -1, -1⟩], Vec3.zero⟩]⟩] }

/-- The sample triangle in a mesh that holds one texture coordinate which the
corners do not use (uv index `-1`). -/
def sampleWithUV (F : Type) [Field F] : ObjMesh F :=
  { sampleTriangle F with mUVs := [⟨0, 0⟩] }

/-- A textured triangle: three positions, three texture coordinates, corners
using uv indices 0, 1, 2. -/
def sampleTextured (F : Type) [Field F] : ObjMesh F :=
  { mVertices := [⟨0, 0, 0⟩, ⟨2, 0, 0⟩, ⟨0, 1, 0⟩]
    mNormals := []
    mUVs := [⟨0, 0⟩, ⟨1, 0⟩, ⟨0, 1⟩]
    mGroups := [⟨"t", [⟨[⟨0, 0, -1⟩, ⟨1, 1, -1⟩, ⟨2, 2, -1⟩], Vec3.zero⟩]⟩] }

/-- The unit square of the plane `y = 0` as a single quad face with position
indices 0, 1, 2, 3, in a mesh without normals and texture coordinates. -/
def sampleQuad (F : Type) [Field F] : ObjMesh F :=
  { mVertices := [⟨0, 0, 0⟩, ⟨0, 0, 1⟩, ⟨1, 0, 1⟩, ⟨1, 0, 0⟩]
    mNormals := []
    mUVs := []
    mGroups := [⟨"q", [⟨[⟨0, -1, -1⟩, ⟨1, -1, -1⟩, ⟨2, -1, -1⟩, ⟨3, -1, -1⟩], Vec3.zero⟩]⟩] }

/-- The unit square after `TriangulateQuads`: the triangles `(0,1,2)` and
`(0,2,3)`, the second carrying the normal of a newly constructed face. -/
def sampleQuadSplit (F : Type) [Field F] (fresh : Vec3 F) : ObjMesh F :=
  { mVertices := [⟨0, 0, 0⟩, ⟨0, 0, 1⟩, ⟨1, 0, 1⟩, ⟨1, 0, 0⟩]
    mNormals := []
    mUVs := []
    mGroups := [⟨"q", [⟨[⟨0, -1, -1⟩, ⟨1, -1, -1⟩, ⟨2, -1, -1⟩], Vec3.zero⟩,
      ⟨[⟨0, -1, -1⟩, ⟨2, -1, -1⟩, ⟨3, -1, -1⟩], fresh⟩]⟩] }

/-- A degenerate triangle: its three corners lie on one line, so its
cross-product normal is the zero vector. -/
def sampleDegenerate (F : Type) [Field F] : ObjMesh F :=
  { mVertices := [⟨0, 0, 0⟩, ⟨1, 0, 0⟩, ⟨2, 0, 0⟩]
    mNormals := []
    mUVs := []
    mGroups := [⟨"d", [⟨[⟨0, -1, -1⟩, ⟨1, -1, -1⟩, ⟨2, -1, -1⟩], Vec3.zero⟩]⟩] }

/-- The sample triangle in a mesh with a fourth position that no corner
references. -/
def sampleIsolated (F : Type) [Field F] : ObjMesh F :=
  { sampleTriangle F with mVertices := [⟨0, 0, 0⟩, ⟨2, 0, 0⟩, ⟨0, 1, 0⟩, ⟨5, 5, 5⟩] }

/-- The sample triangle in a mesh that already holds one normal. -/
def sampleWithNormal (F : Type) [Field F] : ObjMesh F :=
  { sampleTriangle F with mNormals := [⟨9, 9, 9⟩] }

end gloo

namespace gloo
variable {F : Type}

theorem triangulateStep_at (fresh : Vec3 F) (A B D : List (Face F)) (face : Face F) :
    triangulateStep fresh (A ++ face :: D ++ B) A.length
      = A ++ keepTriangle face :: D ++ B ++ splitTriangle fresh face := by
  unfold triangulateStep
  have h : (A ++ face :: D ++ B)[A.length]? = some face := by
    rw [List.append_assoc, List.getElem?_append_right (Nat.le_refl _)]
    simp
  rw [h]
  simp only [keepTriangle, splitTriangle]
  split <;> simp_all [List.append_assoc, List.set_append]

theorem triangulate_upto (fresh : Vec3 F) (faces : List (Face F)) :
    ∀ k, k ≤ faces.length →
      (List.range k).foldl (triangulateStep fresh) faces
        = (faces.take k).map keepTriangle ++ faces.drop k
            ++ (faces.take k).flatMap (splitTriangle fresh) := by
  intro k
  induction k with
  | zero => intro _; simp
  | succ k ih =>
    intro hk
    have hk' : k < faces.length := hk
    rw [List.range_succ, List.foldl_append, ih (Nat.le_of_lt hk')]
    simp only [List.foldl_cons, List.foldl_nil]
    have hd : faces.drop k = faces[k] :: faces.drop (k + 1) := by
      simp
    have hlen : ((faces.take k).map keepTriangle).length = k := by
      simp [Nat.min_eq_left (Nat.le_of_lt hk')]
    rw [hd]
    have := triangulateStep_at fresh ((faces.take k).map keepTriangle)
      ((faces.take k).flatMap (splitTriangle fresh)) (faces.drop (k + 1)) faces[k]
    rw [hlen] at this
    have ht : faces.take (k + 1) = faces.take k ++ [faces[k]] := by
      rw [List.take_succ, List.getElem?_eq_getElem hk']
      rfl
    rw [this, ht]
    simp only [List.map_append, List.flatMap_append, List.map_cons, List.map_nil,
      List.flatMap_cons, List.flatMap_nil, List.append_assoc, List.append_nil,
      List.cons_append, List.nil_append]

theorem triangulate_loop (fresh : Vec3 F) (faces : List (Face F)) :
    (List.range faces.length).foldl (triangulateStep fresh) faces
      = triangulatedFaces fresh faces := by
  rw [triangulate_upto fresh faces faces.length (Nat.le_refl _)]
  simp [triangulatedFaces]

end gloo

namespace gloo
variable {F : Type}

theorem keepTriangle_of_not_quad (face : Face F) (h : face.VertexList.length ≠ 4) :
    keepTriangle face = face := by
  unfold keepTriangle
  split
  · rename_i heq
    rw [heq] at h
    simp at h
  · rfl

theorem splitTriangle_of_not_quad (fresh : Vec3 F) (face : Face F)
    (h : face.VertexList.length ≠ 4) : splitTriangle fresh face = [] := by
  unfold splitTriangle
  split
  · rename_i heq
    rw [heq] at h
    simp at h
  · rfl

theorem splitTriangle_length (fresh : Vec3 F) (face : Face F) :
    (splitTriangle fresh face).length = if face.VertexList.length = 4 then 1 else 0 := by
  by_cases h : face.VertexList.length = 4
  · rw [if_pos h]
    unfold splitTriangle
    split
    · rfl
    · rename_i hne
      exfalso
      match hv : face.VertexList, h with
      | [a, b, c, d], _ => exact hne a b c d hv
  · rw [if_neg h, splitTriangle_of_not_quad fresh face h]
    rfl

theorem flatMap_splitTriangle_length (fresh : Vec3 F) (faces : List (Face F)) :
    (faces.flatMap (splitTriangle fresh)).length
      = faces.countP (fun face => decide (face.VertexList.length = 4)) := by
  induction faces with
  | nil => rfl
  | cons face rest ih =>
    rw [List.flatMap_cons, List.length_append, ih, splitTriangle_length, List.countP_cons]
    by_cases h : face.VertexList.length = 4 <;> simp [h, Nat.add_comm]

theorem triangulatedFaces_length (fresh : Vec3 F) (faces : List (Face F)) :
    (triangulatedFaces fresh faces).length
      = faces.length + faces.countP (fun face => decide (face.VertexList.length = 4)) := by
  rw [triangulatedFaces, List.length_append, List.length_map, flatMap_splitTriangle_length]

theorem TriangulateQuads_eq (fresh : Vec3 F) (m : ObjMesh F) :
    TriangulateQuads fresh m
      = { m with
          mGroups := m.mGroups.map
            (fun group => { group with mFaces := triangulatedFaces fresh group.mFaces }) } := by
  simp [TriangulateQuads, triangulateGroup, triangulate_loop]

theorem triangulatedFaces_kept (fresh : Vec3 F) (faces : List (Face F)) (i : Nat)
    (face : Face F) (h : faces[i]? = some face) :
    (triangulatedFaces fresh faces)[i]? = some (keepTriangle face) := by
  have hi : i < faces.length := by
    rcases Nat.lt_or_ge i faces.length with hlt | hge
    · exact hlt
    · rw [List.getElem?_eq_none hge] at h
      cases h
  unfold triangulatedFaces
  rw [List.getElem?_append_left (by simpa using hi)]
  simp [h]

theorem triangulatedFaces_split (fresh : Vec3 F) (faces : List (Face F)) (i : Nat)
    (c0 c1 c2 c3 : Corner) (n : Vec3 F)
    (h : faces[i]? = some ⟨[c0, c1, c2, c3], n⟩) :
    (triangulatedFaces fresh faces)[faces.length
        + (faces.take i).countP (fun face => decide (face.VertexList.length = 4))]?
      = some ⟨[c0, c2, c3], fresh⟩ := by
  have hi : i < faces.length := by
    rcases Nat.lt_or_ge i faces.length with hlt | hge
    · exact hlt
    · rw [List.getElem?_eq_none hge] at h
      cases h
  have hget : faces[i] = ⟨[c0, c1, c2, c3], n⟩ := by
    rw [List.getElem?_eq_getElem hi] at h
    exact Option.some.inj h
  have hsplit : faces = faces.take i ++ (⟨[c0, c1, c2, c3], n⟩ :: faces.drop (i + 1)) := by
    rw [← hget]
    simp
  unfold triangulatedFaces
  rw [List.getElem?_append_right (by simp)]
  have hidx : faces.length
      + (faces.take i).countP (fun face => decide (face.VertexList.length = 4))
      - (faces.map keepTriangle).length
      = ((faces.take i).flatMap (splitTriangle fresh)).length := by
    rw [flatMap_splitTriangle_length]
    simp
  rw [hidx]
  have hflat : faces.flatMap (splitTriangle fresh)
      = (faces.take i).flatMap (splitTriangle fresh)
        ++ ([⟨[c0, c2, c3], fresh⟩] ++ (faces.drop (i + 1)).flatMap (splitTriangle fresh)) := by
    conv_lhs => rw [hsplit]
    rw [List.flatMap_append, List.flatMap_cons]
    rfl
  rw [hflat, List.getElem?_append_right (Nat.le_refl _)]
  simp

/-- C3: `TriangulateQuads` turns every group's face list `L` into the faces of
`L` in order, each quad `(c0,c1,c2,c3)` reduced in place to `(c0,c1,c2)` and
every other face untouched, followed by one new face `(c0,c2,c3)` per quad in
the order the quads occur; the face count grows by the number of quads. -/
theorem TriangulateQuads_faces (fresh : Vec3 F) (m : ObjMesh F) :
    TriangulateQuads fresh m
        = { m with
            mGroups := m.mGroups.map
              (fun group => { group with
                mFaces := group.mFaces.map keepTriangle
                  ++ group.mFaces.flatMap (splitTriangle fresh) }) }
      ∧ (∀ (c0 c1 c2 c3 : Corner) (n : Vec3 F),
          keepTriangle (⟨[c0, c1, c2, c3], n⟩ : Face F) = ⟨[c0, c1, c2], n⟩
            ∧ splitTriangle fresh ⟨[c0, c1, c2, c3], n⟩ = [⟨[c0, c2, c3], fresh⟩])
      ∧ (∀ face : Face F, face.VertexList.length ≠ 4 →
          keepTriangle face = face ∧ splitTriangle fresh face = [])
      ∧ (∀ group ∈ m.mGroups,
          (group.mFaces.map keepTriangle
              ++ group.mFaces.flatMap (splitTriangle fresh)).length
            = group.mFaces.length
              + group.mFaces.countP (fun face => decide (face.VertexList.length = 4))) := by
  refine ⟨TriangulateQuads_eq fresh m, ?_, ?_, ?_⟩
  · intro c0 c1 c2 c3 n
    exact ⟨rfl, rfl⟩
  · intro face h
    exact ⟨keepTriangle_of_not_quad face h, splitTriangle_of_not_quad fresh face h⟩
  · intro group _
    exact triangulatedFaces_length fresh group.mFaces

/-- C4: a quad `(c0,c1,c2,c3)` at place `i` of a group yields exactly two
faces, the triangle `(c0,c1,c2)` at place `i` and the triangle `(c0,c2,c3)`
appended behind the original faces; both have three corners, together they use
exactly the quad's four position indices, and both hold the corner records
`c0` and `c2` unchanged. -/
theorem TriangulateQuads_quad (fresh : Vec3 F) (m : ObjMesh F) (g i : Nat)
    (group : ObjGroup F) (c0 c1 c2 c3 : Corner) (n : Vec3 F)
    (hg : m.mGroups[g]? = some group)
    (hf : group.mFaces[i]? = some ⟨[c0, c1, c2, c3], n⟩) :
    ∃ group' t1 t2,
      (TriangulateQuads fresh m).mGroups[g]? = some group'
      ∧ group'.mFaces[i]? = some t1
      ∧ group'.mFaces[group.mFaces.length
          + (group.mFaces.take i).countP
              (fun face => decide (face.VertexList.length = 4))]? = some t2
      ∧ [keepTriangle (⟨[c0, c1, c2, c3], n⟩ : Face F)]
          ++ splitTriangle fresh ⟨[c0, c1, c2, c3], n⟩ = [t1, t2]
      ∧ t1.VertexList = [c0, c1, c2] ∧ t2.VertexList = [c0, c2, c3]
      ∧ t1.VertexList.length = 3 ∧ t2.VertexList.length = 3
      ∧ (∀ p : Int, p ∈ (t1.VertexList ++ t2.VertexList).map Corner.pos
          ↔ p ∈ [c0.pos, c1.pos, c2.pos, c3.pos])
      ∧ c0 ∈ t1.VertexList ∧ c2 ∈ t1.VertexList
      ∧ c0 ∈ t2.VertexList ∧ c2 ∈ t2.VertexList := by
  refine ⟨{ group with mFaces := triangulatedFaces fresh group.mFaces },
    ⟨[c0, c1, c2], n⟩, ⟨[c0, c2, c3], fresh⟩, ?_, ?_, ?_, rfl, rfl, rfl, rfl, rfl, ?_,
    ?_, ?_, ?_, ?_⟩
  · rw [TriangulateQuads_eq]
    simp [hg]
  · exact triangulatedFaces_kept fresh group.mFaces i _ hf
  · exact triangulatedFaces_split fresh group.mFaces i c0 c1 c2 c3 n hf
  · intro p
    simp only [List.map_append, List.map_cons, List.map_nil, List.mem_append, List.mem_cons,
      List.mem_nil_iff, or_false]
    tauto
  all_goals simp

/-- Witness for C4: the single quad `(0,1,2,3)` of a one-group mesh. -/
theorem TriangulateQuads_quad_witness :
    ∃ group' t1 t2,
      (TriangulateQuads (Vec3.zero : Vec3 ℚ)
          ⟨[], [], [], [⟨"g", [⟨[⟨0, 0, 0⟩, ⟨1, 0, 0⟩, ⟨2, 0, 0⟩, ⟨3, 0, 0⟩], Vec3.zero⟩]⟩]⟩).mGroups[0]?
        = some group'
      ∧ group'.mFaces[0]? = some t1
      ∧ group'.mFaces[1]? = some t2
      ∧ t1.VertexList = [⟨0, 0, 0⟩, ⟨1, 0, 0⟩, ⟨2, 0, 0⟩]
      ∧ t2.VertexList = [⟨0, 0, 0⟩, ⟨2, 0, 0⟩, ⟨3, 0, 0⟩] := by
  obtain ⟨group', t1, t2, h1, h2, h3, _, h5, h6, _⟩ :=
    TriangulateQuads_quad (Vec3.zero : Vec3 ℚ)
      ⟨[], [], [], [⟨"g", [⟨[⟨0, 0, 0⟩, ⟨1, 0, 0⟩, ⟨2, 0, 0⟩, ⟨3, 0, 0⟩], Vec3.zero⟩]⟩]⟩
      0 0 ⟨"g", [⟨[⟨0, 0, 0⟩, ⟨1, 0, 0⟩, ⟨2, 0, 0⟩, ⟨3, 0, 0⟩], Vec3.zero⟩]⟩
      ⟨0, 0, 0⟩ ⟨1, 0, 0⟩ ⟨2, 0, 0⟩ ⟨3, 0, 0⟩ Vec3.zero rfl rfl
  exact ⟨group', t1, t2, h1, h2, h3, h5, h6⟩

end gloo

namespace gloo
variable {F : Type}

/-! ### `ComputeFaceNormals` -/

theorem mapM_eq_some_map {α β : Type} (f : α → Option β) (g : α → β) (l : List α)
    (h : ∀ a ∈ l, f a = some (g a)) : l.mapM f = some (l.map g) := by
  induction l with
  | nil => rfl
  | cons a rest ih =>
    rw [List.mapM_cons, h a (List.mem_cons_self a rest),
      ih (fun b hb => h b (List.mem_cons_of_mem a hb))]
    rfl

theorem index_eq_some_of_bounds {α : Type} (v : List α) (k : Int) (h0 : 0 ≤ k)
    (h1 : k < (v.length : Int)) : ∃ a, index v k = some a ∧ v[k.toNat]? = some a := by
  have hlt : k.toNat < v.length := by omega
  refine ⟨v[k.toNat], ?_, List.getElem?_eq_getElem hlt⟩
  simp [index, h0, List.getElem?_eq_getElem hlt]

theorem vertexAt_of_index [Field F] (mVertices : List (Vec3 F)) (k : Int) (p : Vec3 F)
    (h : index mVertices k = some p) : vertexAt mVertices k = p := by
  simp [vertexAt, h]

theorem faceNormalStep_eq [Field F] (sqrt : F → F) (normalize : Bool)
    (mVertices : List (Vec3 F)) (face : Face F)
    (h : ∀ corner ∈ face.VertexList, 0 ≤ corner.pos ∧ corner.pos < (mVertices.length : Int)) :
    faceNormalStep sqrt normalize mVertices face
      = some (withFaceNormal sqrt normalize mVertices face) := by
  unfold faceNormalStep withFaceNormal
  by_cases h3 : face.VertexList.length = 3
  · rw [if_pos h3, if_pos h3]
    match hv : face.VertexList, h3 with
    | [a, b, c], _ =>
      rw [hv] at h
      obtain ⟨pa, hpa, _⟩ := index_eq_some_of_bounds mVertices a.pos (h a (by simp)).1
        (h a (by simp)).2
      obtain ⟨pb, hpb, _⟩ := index_eq_some_of_bounds mVertices b.pos (h b (by simp)).1
        (h b (by simp)).2
      obtain ⟨pc, hpc, _⟩ := index_eq_some_of_bounds mVertices c.pos (h c (by simp)).1
        (h c (by simp)).2
      simp [hpa, hpb, hpc, crossNormal, hv, vertexAt, Face.SetNormal]
  · rw [if_neg h3, if_neg h3]
    rfl

theorem ComputeFaceNormals_eq [Field F] (sqrt : F → F) (normalize : Bool) (m : ObjMesh F)
    (h : PosInBounds m) :
    ComputeFaceNormals sqrt normalize m
      = some { m with
          mGroups := m.mGroups.map (fun group =>
            { group with
              mFaces := group.mFaces.map (withFaceNormal sqrt normalize m.mVertices) }) } := by
  unfold ComputeFaceNormals
  rw [mapM_eq_some_map _
    (fun group : ObjGroup F => { group with
      mFaces := group.mFaces.map (withFaceNormal sqrt normalize m.mVertices) })]
  · rfl
  · intro group hgroup
    rw [mapM_eq_some_map _ (withFaceNormal sqrt normalize m.mVertices)]
    · rfl
    · intro face hface
      exact faceNormalStep_eq sqrt normalize m.mVertices face (h group hgroup face hface)

/-- C5: on a mesh whose position indices are in range, `ComputeFaceNormals(false)`
returns; it keeps the arrays, the groups' shapes and every corner list, gives
every face with exactly three corners `(v0,v1,v2)` the cached normal
`cross(positions[v1]-positions[v0], positions[v2]-positions[v0])`, and leaves
the cached normal of every other face as it was. -/
theorem ComputeFaceNormals_false_spec [Field F] (sqrt : F → F) (m : ObjMesh F)
    (h : PosInBounds m) :
    ∃ m', ComputeFaceNormals sqrt false m = some m'
      ∧ m'.mVertices = m.mVertices ∧ m'.mNormals = m.mNormals ∧ m'.mUVs = m.mUVs
      ∧ m'.mGroups.length = m.mGroups.length
      ∧ ∀ (g i : Nat) (group : ObjGroup F) (face : Face F),
          m.mGroups[g]? = some group → group.mFaces[i]? = some face →
          ∃ group' face', m'.mGroups[g]? = some group'
            ∧ group'.mFaces.length = group.mFaces.length
            ∧ group'.mFaces[i]? = some face'
            ∧ face'.VertexList = face.VertexList
            ∧ (∀ c0 c1 c2 : Corner, face.VertexList = [c0, c1, c2] →
                ∃ p0 p1 p2, index m.mVertices c0.pos = some p0
                  ∧ index m.mVertices c1.pos = some p1
                  ∧ index m.mVertices c2.pos = some p2
                  ∧ face'.mNormal = Vec3.cross (p1.sub p0) (p2.sub p0))
            ∧ (face.VertexList.length ≠ 3 → face'.mNormal = face.mNormal) := by
  refine ⟨_, ComputeFaceNormals_eq sqrt false m h, rfl, rfl, rfl, by simp, ?_⟩
  intro g i group face hg hf
  refine ⟨{ group with mFaces := group.mFaces.map (withFaceNormal sqrt false m.mVertices) },
    withFaceNormal sqrt false m.mVertices face, by simp [hg], by simp, by simp [hf], ?_, ?_, ?_⟩
  · unfold withFaceNormal
    split <;> rfl
  · intro c0 c1 c2 hv
    have hgm : group ∈ m.mGroups := List.getElem?_mem hg
    have hfm : face ∈ group.mFaces := List.getElem?_mem hf
    have hb := h group hgm face hfm
    rw [hv] at hb
    obtain ⟨p0, hp0, _⟩ := index_eq_some_of_bounds m.mVertices c0.pos (hb c0 (by simp)).1
      (hb c0 (by simp)).2
    obtain ⟨p1, hp1, _⟩ := index_eq_some_of_bounds m.mVertices c1.pos (hb c1 (by simp)).1
      (hb c1 (by simp)).2
    obtain ⟨p2, hp2, _⟩ := index_eq_some_of_bounds m.mVertices c2.pos (hb c2 (by simp)).1
      (hb c2 (by simp)).2
    refine ⟨p0, p1, p2, hp0, hp1, hp2, ?_⟩
    simp [withFaceNormal, hv, crossNormal, vertexAt, hp0, hp1, hp2]
  · intro hne
    simp [withFaceNormal, hne]

/-- Witness for C5: the sample triangle gets the normal `(0, 0, 2)`. -/
theorem ComputeFaceNormals_false_spec_witness :
    PosInBounds (sampleTriangle ℚ)
      ∧ ∃ m', ComputeFaceNormals (fun x : ℚ => x) false (sampleTriangle ℚ) = some m'
          ∧ m'.mGroups.length = (sampleTriangle ℚ).mGroups.length :=
  ⟨by unfold PosInBounds sampleTriangle; decide,
   by
    obtain ⟨m', h1, _, _, _, h5, _⟩ :=
      ComputeFaceNormals_false_spec (fun x : ℚ => x) (sampleTriangle ℚ)
        (by unfold PosInBounds sampleTriangle; decide)
    exact ⟨m', h1, h5⟩⟩

end gloo

namespace gloo
variable {F : Type}

/-! ### The adjacency list of `ComputeVertexNormals` -/

theorem index_range_map {α : Type} (n : Nat) (A : Nat → α) (k : Int) (h0 : 0 ≤ k)
    (h1 : k < (n : Int)) : index ((List.range n).map A) k = some (A k.toNat) := by
  have hlt : k.toNat < n := by omega
  simp [index, h0, List.getElem?_range hlt]

theorem set_range_map {α : Type} (n : Nat) (A : Nat → α) (j : Nat) (a : α) :
    ((List.range n).map A).set j a = (List.range n).map (fun v => if v = j then a else A v) := by
  apply List.ext_getElem?
  intro i
  rw [List.getElem?_set, List.getElem?_map, List.getElem?_map]
  by_cases hi : i < n
  · rw [List.getElem?_range hi]
    by_cases hji : j = i
    · subst hji
      simp [hi]
    · have hij : ¬ i = j := fun h => hji h.symm
      simp [hji, hij]
  · have hnone : (List.range n)[i]? = none := by
      apply List.getElem?_eq_none
      simpa using hi
    rw [hnone]
    by_cases hji : j = i
    · subst hji
      simp [hi]
    · simp [hji]

theorem pushAdjacent_range_map (n : Nat) (A : Nat → List FacePtr) (k : Int) (p : FacePtr)
    (h0 : 0 ≤ k) (h1 : k < (n : Int)) :
    pushAdjacent ((List.range n).map A) k p
      = some ((List.range n).map
          (fun v => A v ++ (if (v : Int) = k then [p] else []))) := by
  unfold pushAdjacent
  rw [index_range_map n A k h0 h1]
  simp only [Option.bind_eq_bind, Option.some_bind, Option.pure_def]
  rw [set_range_map]
  congr 1
  apply List.map_congr_left
  intro v _
  by_cases hv : v = k.toNat
  · have : (v : Int) = k := by omega
    rw [if_pos hv, if_pos this, hv]
  · have : ¬ (v : Int) = k := by omega
    rw [if_neg hv, if_neg this, List.append_nil]

theorem corners_fold (n : Nat) (p : FacePtr) (corners : List Corner) :
    ∀ (A : Nat → List FacePtr),
      (∀ corner ∈ corners, 0 ≤ corner.pos ∧ corner.pos < (n : Int)) →
      corners.foldlM (fun acc corner => pushAdjacent acc corner.pos p) ((List.range n).map A)
        = some ((List.range n).map (fun v =>
            A v ++ (corners.filter (fun corner => decide (corner.pos = (v : Int)))).map
              (fun _ => p))) := by
  induction corners with
  | nil =>
    intro A _
    simp
  | cons c rest ih =>
    intro A h
    rw [List.foldlM_cons, pushAdjacent_range_map n A c.pos p (h c (by simp)).1 (h c (by simp)).2]
    simp only [Option.bind_eq_bind, Option.some_bind]
    rw [ih _ (fun corner hc => h corner (List.mem_cons_of_mem c hc))]
    congr 1
    apply List.map_congr_left
    intro v _
    by_cases hv : (v : Int) = c.pos
    · have hv' : c.pos = (v : Int) := hv.symm
      simp [hv, List.filter_cons]
    · have hv' : ¬ c.pos = (v : Int) := fun h => hv h.symm
      simp [hv, hv', List.filter_cons]

theorem faces_fold (n g : Nat) (faces : List (Nat × Face F)) :
    ∀ (A : Nat → List FacePtr),
      (∀ fi ∈ faces, ∀ corner ∈ fi.2.VertexList, 0 ≤ corner.pos ∧ corner.pos < (n : Int)) →
      faces.foldlM
          (fun acc fi =>
            fi.2.VertexList.foldlM (fun acc corner => pushAdjacent acc corner.pos (g, fi.1)) acc)
          ((List.range n).map A)
        = some ((List.range n).map (fun v =>
            A v ++ faces.flatMap (fun fi =>
              (fi.2.VertexList.filter (fun corner => decide (corner.pos = (v : Int)))).map
                (fun _ => (g, fi.1))))) := by
  induction faces with
  | nil =>
    intro A _
    simp
  | cons fi rest ih =>
    intro A h
    rw [List.foldlM_cons, corners_fold n (g, fi.1) fi.2.VertexList A (h fi (by simp))]
    simp only [Option.bind_eq_bind, Option.some_bind]
    rw [ih _ (fun fj hj => h fj (List.mem_cons_of_mem fi hj))]
    simp [List.flatMap_cons, List.append_assoc]

theorem groups_fold (n : Nat) (groups : List (Nat × ObjGroup F)) :
    ∀ (A : Nat → List FacePtr),
      (∀ gi ∈ groups, ∀ face ∈ gi.2.mFaces, ∀ corner ∈ face.VertexList,
          0 ≤ corner.pos ∧ corner.pos < (n : Int)) →
      groups.foldlM
          (fun acc gi =>
            gi.2.mFaces.enum.foldlM
              (fun acc fi =>
                fi.2.VertexList.foldlM
                  (fun acc corner => pushAdjacent acc corner.pos (gi.1, fi.1)) acc)
              acc)
          ((List.range n).map A)
        = some ((List.range n).map (fun v =>
            A v ++ groups.flatMap (fun gi =>
              gi.2.mFaces.enum.flatMap (fun fi =>
                (fi.2.VertexList.filter (fun corner => decide (corner.pos = (v : Int)))).map
                  (fun _ => (gi.1, fi.1)))))) := by
  induction groups with
  | nil =>
    intro A _
    simp
  | cons gi rest ih =>
    intro A h
    have hfaces : ∀ fi ∈ gi.2.mFaces.enum, ∀ corner ∈ fi.2.VertexList,
        0 ≤ corner.pos ∧ corner.pos < (n : Int) := by
      intro fi hfi corner hc
      have hmem : fi.2 ∈ gi.2.mFaces := by
        have : (fi.1, fi.2) ∈ gi.2.mFaces.enum := hfi
        exact List.getElem?_mem (List.mk_mem_enum_iff_getElem?.mp this)
      exact h gi (by simp) fi.2 hmem corner hc
    rw [List.foldlM_cons, faces_fold n gi.1 gi.2.mFaces.enum A hfaces]
    simp only [Option.bind_eq_bind, Option.some_bind]
    rw [ih _ (fun gj hj => h gj (List.mem_cons_of_mem gi hj))]
    simp [List.flatMap_cons, List.append_assoc]

theorem buildVertexFaces_eq (m : ObjMesh F) (h : PosInBounds m) :
    buildVertexFaces m
      = some ((List.range m.mVertices.length).map (adjacentPtrs m.mGroups)) := by
  unfold buildVertexFaces
  have hinit : List.replicate m.mVertices.length ([] : List FacePtr)
      = (List.range m.mVertices.length).map (fun _ => []) := by
    apply List.ext_getElem?
    intro i
    rw [List.getElem?_replicate, List.getElem?_map]
    by_cases hi : i < m.mVertices.length
    · simp [hi, List.getElem?_range hi]
    · have hnone : (List.range m.mVertices.length)[i]? = none := by
        apply List.getElem?_eq_none
        simpa using hi
      simp [hi, hnone]
  have hgroups : ∀ gi ∈ m.mGroups.enum, ∀ face ∈ gi.2.mFaces, ∀ corner ∈ face.VertexList,
      0 ≤ corner.pos ∧ corner.pos < (m.mVertices.length : Int) := by
    intro gi hgi
    have hmem : gi.2 ∈ m.mGroups := by
      have : (gi.1, gi.2) ∈ m.mGroups.enum := hgi
      exact List.getElem?_mem (List.mk_mem_enum_iff_getElem?.mp this)
    exact h gi.2 hmem
  rw [hinit, groups_fold m.mVertices.length m.mGroups.enum (fun _ => []) hgroups]
  simp [adjacentPtrs]

end gloo

namespace gloo
variable {F : Type}

/-! ### Reading and writing through face pointers -/

theorem deref_mapFaces (f : Face F → Face F) (groups : List (ObjGroup F)) (q : FacePtr) :
    deref (mapFaces f groups) q = (deref groups q).map f := by
  unfold deref mapFaces
  rw [List.getElem?_map]
  cases groups[q.1]? with
  | none => rfl
  | some group => simp

theorem shape_mapFaces (f : Face F → Face F) (groups : List (ObjGroup F)) :
    shape (mapFaces f groups) = shape groups := by
  simp [shape, mapFaces, Function.comp_def]

theorem shape_store (groups : List (ObjGroup F)) (p : FacePtr) (face : Face F) :
    shape (store groups p face) = shape groups := by
  unfold shape store
  apply List.ext_getElem?
  intro g
  rw [List.getElem?_map, List.getElem?_map, List.getElem?_modify]
  cases groups[g]? with
  | none => rfl
  | some group =>
    by_cases h : p.1 = g <;> simp [h]

theorem deref_store (groups : List (ObjGroup F)) (p q : FacePtr) (face : Face F) :
    deref (store groups p face) q
      = if q = p then (deref groups p).map (fun _ => face) else deref groups q := by
  unfold deref store
  rw [List.getElem?_modify]
  by_cases hqp : q = p
  · subst hqp
    rw [if_pos rfl]
    cases hg : groups[q.1]? with
    | none => rfl
    | some group =>
      simp only [Option.map_eq_map, Option.map_some', if_true, Option.bind_eq_bind,
        Option.some_bind]
      rw [List.getElem?_set]
      by_cases hf : q.2 < group.mFaces.length
      · simp [hf, List.getElem?_eq_getElem hf]
      · have hnone : group.mFaces[q.2]? = none := by
          apply List.getElem?_eq_none
          omega
        simp [hf, hnone]
  · rw [if_neg hqp]
    cases hg : groups[q.1]? with
    | none => rfl
    | some group =>
      simp only [Option.map_eq_map, Option.map_some', Option.bind_eq_bind, Option.some_bind]
      by_cases h1 : p.1 = q.1
      · rw [if_pos h1]
        have h2 : ¬ p.2 = q.2 := by
          intro h2
          apply hqp
          exact (Prod.ext h1 h2).symm
        simp only [List.getElem?_set, if_neg h2]
      · rw [if_neg h1]

theorem groups_ext (G G' : List (ObjGroup F)) (hs : shape G = shape G')
    (hd : ∀ q, deref G q = deref G' q) : G = G' := by
  apply List.ext_getElem?
  intro g
  have hsg : (shape G)[g]? = (shape G')[g]? := by rw [hs]
  unfold shape at hsg
  rw [List.getElem?_map, List.getElem?_map] at hsg
  cases ha : G[g]? with
  | none =>
    cases hb : G'[g]? with
    | none => rfl
    | some b =>
      rw [ha, hb] at hsg
      cases hsg
  | some a =>
    cases hb : G'[g]? with
    | none =>
      rw [ha, hb] at hsg
      cases hsg
    | some b =>
      rw [ha, hb] at hsg
      simp only [Option.map_some', Option.some.injEq, Prod.mk.injEq] at hsg
      have hfaces : a.mFaces = b.mFaces := by
        apply List.ext_getElem?
        intro f
        have := hd (g, f)
        unfold deref at this
        simpa [ha, hb] using this
      congr 1
      cases a
      cases b
      simp only [ObjGroup.mk.injEq]
      exact ⟨hsg.1, hfaces⟩

/-! ### The re-pointing loop of `ComputeVertexNormals` -/

theorem retarget_retarget (k : Nat) (face : Face F) :
    retarget k (retarget k face) = retarget k face := by
  unfold retarget
  simp only [List.map_map]
  congr 1
  apply List.map_congr_left
  intro c _
  simp only [Function.comp]
  by_cases h : c.pos = (k : Int) <;> simp [h]

theorem retarget_of_no_corner (k : Nat) (face : Face F)
    (h : ∀ corner ∈ face.VertexList, corner.pos ≠ (k : Int)) : retarget k face = face := by
  unfold retarget
  have : face.VertexList.map
      (fun corner => if corner.pos = (k : Int) then { corner with nor := (k : Int) } else corner)
      = face.VertexList := by
    conv_rhs => rw [← List.map_id face.VertexList]
    apply List.map_congr_left
    intro c hc
    simp [h c hc]
  rw [this]

theorem retarget_fold (k : Nat) (ps : List FacePtr) :
    ∀ G : List (ObjGroup F), (∀ p ∈ ps, ∃ face, deref G p = some face) →
      ∃ G', ps.foldlM
            (fun groups p => do
              let face ← deref groups p
              pure (store groups p (retarget k face)))
            G = some G'
        ∧ shape G' = shape G
        ∧ ∀ q, deref G' q
            = (deref G q).map (fun face => if q ∈ ps then retarget k face else face) := by
  induction ps with
  | nil =>
    intro G _
    refine ⟨G, rfl, rfl, ?_⟩
    intro q
    cases deref G q <;> simp
  | cons p rest ih =>
    intro G hvalid
    obtain ⟨face, hface⟩ := hvalid p (by simp)
    have hvalid' : ∀ p' ∈ rest, ∃ face', deref (store G p (retarget k face)) p' = some face' := by
      intro p' hp'
      obtain ⟨face', hface'⟩ := hvalid p' (List.mem_cons_of_mem p hp')
      rw [deref_store]
      by_cases hpp : p' = p
      · rw [if_pos hpp, hface]
        exact ⟨_, rfl⟩
      · rw [if_neg hpp]
        exact ⟨face', hface'⟩
    obtain ⟨G', hfold, hshape, hderef⟩ := ih (store G p (retarget k face)) hvalid'
    refine ⟨G', ?_, ?_, ?_⟩
    · rw [List.foldlM_cons, hface]
      exact hfold
    · rw [hshape, shape_store]
    · intro q
      rw [hderef q, deref_store]
      by_cases hqp : q = p
      · subst hqp
        rw [if_pos rfl, hface]
        by_cases hq : q ∈ rest <;> simp [hq, retarget_retarget]
      · rw [if_neg hqp]
        cases deref G q with
        | none => rfl
        | some fq =>
          by_cases hq : q ∈ rest <;> simp [hq, hqp]

end gloo

namespace gloo
variable {F : Type}

/-! ### Adjacent pointers and adjacent faces -/

theorem deref_of_mem_enum (groups : List (ObjGroup F)) (gi : Nat × ObjGroup F)
    (fi : Nat × Face F) (hg : gi ∈ groups.enum) (hf : fi ∈ gi.2.mFaces.enum) :
    deref groups (gi.1, fi.1) = some fi.2 := by
  have hg' : groups[gi.1]? = some gi.2 := by
    have : (gi.1, gi.2) ∈ groups.enum := hg
    exact List.mk_mem_enum_iff_getElem?.mp this
  have hf' : gi.2.mFaces[fi.1]? = some fi.2 := by
    have : (fi.1, fi.2) ∈ gi.2.mFaces.enum := hf
    exact List.mk_mem_enum_iff_getElem?.mp this
  simp [deref, hg', hf']

theorem mem_adjacentPtrs_iff (groups : List (ObjGroup F)) (v : Nat) (p : FacePtr) :
    p ∈ adjacentPtrs groups v
      ↔ ∃ face, deref groups p = some face ∧ ∃ corner ∈ face.VertexList, corner.pos = (v : Int) := by
  unfold adjacentPtrs
  constructor
  · intro hp
    obtain ⟨gi, hgi, hp⟩ := List.mem_flatMap.mp hp
    obtain ⟨fi, hfi, hp⟩ := List.mem_flatMap.mp hp
    obtain ⟨c, hc, hpe⟩ := List.mem_map.mp hp
    obtain ⟨hcm, hcv⟩ := List.mem_filter.mp hc
    refine ⟨fi.2, ?_, c, hcm, by simpa using hcv⟩
    rw [← hpe]
    exact deref_of_mem_enum groups gi fi hgi hfi
  · rintro ⟨face, hface, c, hc, hcv⟩
    unfold deref at hface
    cases hg : groups[p.1]? with
    | none =>
      rw [hg] at hface
      cases hface
    | some group =>
      rw [hg] at hface
      simp only [Option.bind_eq_bind, Option.some_bind] at hface
      apply List.mem_flatMap.mpr
      refine ⟨(p.1, group), List.mk_mem_enum_iff_getElem?.mpr hg, ?_⟩
      apply List.mem_flatMap.mpr
      refine ⟨(p.2, face), List.mk_mem_enum_iff_getElem?.mpr hface, ?_⟩
      apply List.mem_map.mpr
      exact ⟨c, List.mem_filter.mpr ⟨hc, by simpa using hcv⟩, rfl⟩

theorem filter_pos_map_const {α : Type} (corners corners' : List Corner) (v : Nat) (a : α)
    (h : corners'.map Corner.pos = corners.map Corner.pos) :
    (corners'.filter (fun corner => decide (corner.pos = (v : Int)))).map (fun _ => a)
      = (corners.filter (fun corner => decide (corner.pos = (v : Int)))).map (fun _ => a) := by
  have key : ∀ cs : List Corner,
      (cs.filter (fun corner => decide (corner.pos = (v : Int)))).map (fun _ => a)
        = ((cs.map Corner.pos).filter (fun k => decide (k = (v : Int)))).map (fun _ => a) := by
    intro cs
    induction cs with
    | nil => rfl
    | cons c rest ih =>
      by_cases hc : c.pos = (v : Int)
      · simp [List.filter_cons, hc, ih]
      · simp [List.filter_cons, hc, ih]
  rw [key corners', key corners, h]

theorem adjacentPtrs_mapFaces (f : Face F → Face F) (groups : List (ObjGroup F)) (v : Nat)
    (hf : ∀ face, (f face).VertexList.map Corner.pos = face.VertexList.map Corner.pos) :
    adjacentPtrs (mapFaces f groups) v = adjacentPtrs groups v := by
  unfold adjacentPtrs mapFaces
  rw [List.enum_map, List.flatMap_map]
  apply List.flatMap_congr
  intro gi _
  simp only [Prod.map_fst, Prod.map_snd, id_eq]
  rw [List.enum_map, List.flatMap_map]
  apply List.flatMap_congr
  intro fi _
  simp only [Prod.map_fst, Prod.map_snd, id_eq]
  exact filter_pos_map_const _ _ v _ (hf fi.2)

theorem adjacentFaces_mapFaces (f : Face F → Face F) (groups : List (ObjGroup F)) (v : Nat)
    (hf : ∀ face, (f face).VertexList.map Corner.pos = face.VertexList.map Corner.pos) :
    adjacentFaces (mapFaces f groups) v = (adjacentFaces groups v).map f := by
  unfold adjacentFaces mapFaces
  rw [List.flatMap_map, List.map_flatMap]
  apply List.flatMap_congr
  intro group _
  simp only
  rw [List.flatMap_map, List.map_flatMap]
  apply List.flatMap_congr
  intro face _
  rw [filter_pos_map_const _ _ v _ (hf face), List.map_map]
  rfl

theorem enum_flatMap_snd {α β : Type} (l : List α) (g : α → List β) :
    l.enum.flatMap (fun x => g x.2) = l.flatMap g := by
  have h := List.flatMap_map Prod.snd g l.enum
  rw [List.enum_map_snd] at h
  exact h.symm

theorem adjacentPtrs_map_deref (groups : List (ObjGroup F)) (v : Nat) :
    (adjacentPtrs groups v).map (deref groups) = (adjacentFaces groups v).map some := by
  unfold adjacentPtrs adjacentFaces
  rw [List.map_flatMap, List.map_flatMap]
  have hstep : ∀ gi ∈ groups.enum,
      List.map (deref groups)
          (gi.2.mFaces.enum.flatMap (fun fi =>
            (fi.2.VertexList.filter (fun corner => decide (corner.pos = (v : Int)))).map
              (fun _ => (gi.1, fi.1))))
        = (fun group : ObjGroup F =>
            List.map some (group.mFaces.flatMap (fun face =>
              (face.VertexList.filter (fun corner => decide (corner.pos = (v : Int)))).map
                (fun _ => face)))) gi.2 := by
    intro gi hgi
    simp only
    rw [List.map_flatMap, List.map_flatMap]
    have hinner : ∀ fi ∈ gi.2.mFaces.enum,
        List.map (deref groups)
            ((fi.2.VertexList.filter (fun corner => decide (corner.pos = (v : Int)))).map
              (fun _ => (gi.1, fi.1)))
          = (fun face : Face F =>
              List.map some
                ((face.VertexList.filter (fun corner => decide (corner.pos = (v : Int)))).map
                  (fun _ => face))) fi.2 := by
      intro fi hfi
      simp only [List.map_map]
      apply List.map_congr_left
      intro c _
      simp only [Function.comp]
      exact deref_of_mem_enum groups gi fi hgi hfi
    rw [List.flatMap_congr hinner]
    exact enum_flatMap_snd gi.2.mFaces (fun face : Face F =>
      List.map some
        ((face.VertexList.filter (fun corner => decide (corner.pos = (v : Int)))).map
          (fun _ => face)))
  rw [List.flatMap_congr hstep]
  exact enum_flatMap_snd groups (fun group : ObjGroup F =>
    List.map some (group.mFaces.flatMap (fun face =>
      (face.VertexList.filter (fun corner => decide (corner.pos = (v : Int)))).map
        (fun _ => face))))

theorem foldlM_deref {β : Type} (d : FacePtr → Option (Face F)) (step : β → Face F → β)
    (ps : List FacePtr) :
    ∀ (faces : List (Face F)) (init : β), ps.map d = faces.map some →
      ps.foldlM (fun acc p => do
          let face ← d p
          pure (step acc face)) init
        = some (faces.foldl step init) := by
  induction ps with
  | nil =>
    intro faces init h
    cases faces with
    | nil => rfl
    | cons face rest => simp at h
  | cons p rest ih =>
    intro faces init h
    cases faces with
    | nil => simp at h
    | cons face frest =>
      simp only [List.map_cons, List.cons.injEq] at h
      rw [List.foldlM_cons, h.1]
      simp only [Option.bind_eq_bind, Option.some_bind, Option.pure_def, List.foldl_cons]
      exact ih frest (step init face) h.2

end gloo

namespace gloo
variable {F : Type}

/-! ### The vertex loop of `ComputeVertexNormals` -/

theorem retarget_loop_eq (k : Nat) (G : List (ObjGroup F)) :
    (adjacentPtrs G k).foldlM
        (fun groups p => do
          let face ← deref groups p
          pure (store groups p (retarget k face)))
        G
      = some (mapFaces (retarget k) G) := by
  have hvalid : ∀ p ∈ adjacentPtrs G k, ∃ face, deref G p = some face := by
    intro p hp
    obtain ⟨face, hface, _⟩ := (mem_adjacentPtrs_iff G k p).mp hp
    exact ⟨face, hface⟩
  obtain ⟨G', hfold, hshape, hderef⟩ := retarget_fold k (adjacentPtrs G k) G hvalid
  rw [hfold]
  congr 1
  apply groups_ext
  · rw [hshape, shape_mapFaces]
  · intro q
    rw [hderef q, deref_mapFaces]
    cases hq : deref G q with
    | none => rfl
    | some face =>
      simp only [Option.map_some']
      by_cases hmem : q ∈ adjacentPtrs G k
      · rw [if_pos hmem]
      · rw [if_neg hmem]
        congr 1
        symm
        apply retarget_of_no_corner
        intro corner hc hpos
        exact hmem ((mem_adjacentPtrs_iff G k q).mpr ⟨face, hq, corner, hc, hpos⟩)

theorem vertexNormalStep_eq [Field F] (sqrt : F → F) (normalize : Bool) (st : ObjMesh F)
    (k : Nat) :
    vertexNormalStep sqrt normalize st (k, adjacentPtrs st.mGroups k)
      = some { st with
          mNormals := st.mNormals ++ [vertexNormal sqrt normalize st.mGroups k]
          mGroups := mapFaces (retarget k) st.mGroups } := by
  have h1 := foldlM_deref (deref st.mGroups)
    (fun (t : F) face => t + Vec3.length sqrt face.mNormal)
    (adjacentPtrs st.mGroups k) (adjacentFaces st.mGroups k) 0
    (adjacentPtrs_map_deref st.mGroups k)
  have h2 := foldlM_deref (deref st.mGroups)
    (fun (n : Vec3 F) face => Vec3.add n (Vec3.scale face.mNormal
      (Vec3.length sqrt face.mNormal
        / List.foldl (fun (t : F) face => t + Vec3.length sqrt face.mNormal) 0
            (adjacentFaces st.mGroups k))))
    (adjacentPtrs st.mGroups k) (adjacentFaces st.mGroups k) Vec3.zero
    (adjacentPtrs_map_deref st.mGroups k)
  have h3 := retarget_loop_eq k st.mGroups
  unfold vertexNormalStep
  simp only [Option.bind_eq_bind] at h1 h2 h3 ⊢
  rw [h1]
  simp only [Option.some_bind]
  rw [h2]
  simp only [Option.some_bind]
  rw [h3]
  simp only [Option.some_bind, Option.pure_def, vertexNormal, weightedAverage, List.foldl_map]

theorem enum_range_map {α : Type} (n : Nat) (A : Nat → α) :
    ((List.range n).map A).enum = (List.range n).map (fun v => (v, A v)) := by
  apply List.ext_getElem?
  intro i
  rw [List.enum, List.getElem?_enumFrom, List.getElem?_map, List.getElem?_map]
  by_cases hi : i < n
  · simp [List.getElem?_range hi]
  · have hnone : (List.range n)[i]? = none := by
      apply List.getElem?_eq_none
      simpa using hi
    simp [hnone]

theorem retarget_retargetBelow (k : Nat) (face : Face F) :
    retarget k (retargetBelow k face) = retargetBelow (k + 1) face := by
  unfold retarget retargetBelow
  simp only [List.map_map]
  congr 1
  apply List.map_congr_left
  intro c _
  simp only [Function.comp]
  by_cases h1 : 0 ≤ c.pos ∧ c.pos < (k : Int)
  · have h2 : 0 ≤ c.pos ∧ c.pos < ((k + 1 : Nat) : Int) := by omega
    have h3 : ¬ c.pos = (k : Int) := by omega
    rw [if_pos h1, if_pos h2]
    simp [h3]
  · rw [if_neg h1]
    by_cases h3 : c.pos = (k : Int)
    · have h2 : 0 ≤ c.pos ∧ c.pos < ((k + 1 : Nat) : Int) := by omega
      rw [if_pos h3, if_pos h2, h3]
    · have h2 : ¬ (0 ≤ c.pos ∧ c.pos < ((k + 1 : Nat) : Int)) := by omega
      rw [if_neg h3, if_neg h2]

theorem retargetBelow_pos (k : Nat) (face : Face F) :
    (retargetBelow k face).VertexList.map Corner.pos = face.VertexList.map Corner.pos := by
  unfold retargetBelow
  simp only [List.map_map]
  apply List.map_congr_left
  intro c _
  simp only [Function.comp]
  split <;> rfl

theorem retargetBelow_zero (face : Face F) : retargetBelow 0 face = face := by
  unfold retargetBelow
  have : face.VertexList.map (fun corner =>
      if 0 ≤ corner.pos ∧ corner.pos < ((0 : Nat) : Int) then { corner with nor := corner.pos }
      else corner) = face.VertexList := by
    conv_rhs => rw [← List.map_id face.VertexList]
    apply List.map_congr_left
    intro c _
    have : ¬ (0 ≤ c.pos ∧ c.pos < ((0 : Nat) : Int)) := by omega
    simp [this]
  rw [this]

theorem mapFaces_mapFaces (f g : Face F → Face F) (groups : List (ObjGroup F)) :
    mapFaces f (mapFaces g groups) = mapFaces (fun face => f (g face)) groups := by
  simp [mapFaces, Function.comp_def]

theorem mapFaces_congr (f g : Face F → Face F) (groups : List (ObjGroup F))
    (h : ∀ group ∈ groups, ∀ face ∈ group.mFaces, f face = g face) :
    mapFaces f groups = mapFaces g groups := by
  unfold mapFaces
  apply List.map_congr_left
  intro group hgroup
  congr 1
  apply List.map_congr_left
  intro face hface
  exact h group hgroup face hface

theorem mapFaces_id (groups : List (ObjGroup F)) : mapFaces (fun face => face) groups = groups := by
  simp [mapFaces]

theorem vertex_loop_upto [Field F] (sqrt : F → F) (normalize : Bool) (m1 : ObjMesh F) :
    ∀ k : Nat,
      ((List.range k).map (fun v => (v, adjacentPtrs m1.mGroups v))).foldlM
          (vertexNormalStep sqrt normalize) m1
        = some { m1 with
            mNormals := m1.mNormals
              ++ (List.range k).map (vertexNormal sqrt normalize m1.mGroups)
            mGroups := mapFaces (retargetBelow k) m1.mGroups } := by
  intro k
  induction k with
  | zero =>
    have h0 : mapFaces (retargetBelow 0) m1.mGroups = m1.mGroups := by
      rw [mapFaces_congr (retargetBelow 0) (fun face => face) m1.mGroups
        (fun _ _ face _ => retargetBelow_zero face), mapFaces_id]
    simp [h0]
  | succ k ih =>
    rw [List.range_succ, List.map_append, List.foldlM_append, ih]
    simp only [List.map_cons, List.map_nil, List.foldlM_cons, List.foldlM_nil,
      Option.bind_eq_bind, Option.some_bind]
    have hptr : adjacentPtrs m1.mGroups k
        = adjacentPtrs (mapFaces (retargetBelow k) m1.mGroups) k :=
      (adjacentPtrs_mapFaces (retargetBelow k) m1.mGroups k (retargetBelow_pos k)).symm
    rw [hptr]
    have hstep := vertexNormalStep_eq sqrt normalize
      { m1 with
        mNormals := m1.mNormals ++ (List.range k).map (vertexNormal sqrt normalize m1.mGroups)
        mGroups := mapFaces (retargetBelow k) m1.mGroups } k
    simp only at hstep
    rw [hstep]
    simp only [Option.some_bind, Option.pure_def, Option.some.injEq]
    have hvn : vertexNormal sqrt normalize (mapFaces (retargetBelow k) m1.mGroups) k
        = vertexNormal sqrt normalize m1.mGroups k := by
      unfold vertexNormal
      rw [adjacentFaces_mapFaces (retargetBelow k) m1.mGroups k (retargetBelow_pos k),
        List.map_map]
      rfl
    have hmf : mapFaces (fun face => retarget k (retargetBelow k face)) m1.mGroups
        = mapFaces (retargetBelow (k + 1)) m1.mGroups :=
      mapFaces_congr _ _ _ (fun _ _ face _ => retarget_retargetBelow k face)
    rw [hvn, mapFaces_mapFaces, hmf]
    simp [List.append_assoc]

end gloo

namespace gloo
variable {F : Type}

/-! ### `ComputeVertexNormals` in closed form -/

theorem withFaceNormal_VertexList [Field F] (sqrt : F → F) (normalize : Bool)
    (mVertices : List (Vec3 F)) (face : Face F) :
    (withFaceNormal sqrt normalize mVertices face).VertexList = face.VertexList := by
  unfold withFaceNormal
  split <;> rfl

theorem retargetBelow_of_bounds (n : Nat) (face : Face F)
    (h : ∀ corner ∈ face.VertexList, 0 ≤ corner.pos ∧ corner.pos < (n : Int)) :
    retargetBelow n face = pointAtOwnVertex face := by
  unfold retargetBelow pointAtOwnVertex
  congr 1
  apply List.map_congr_left
  intro c hc
  rw [if_pos (h c hc)]

theorem mem_mapFaces (f : Face F → Face F) (groups : List (ObjGroup F)) (group : ObjGroup F)
    (face : Face F) (hg : group ∈ mapFaces f groups) (hf : face ∈ group.mFaces) :
    ∃ group0 ∈ groups, ∃ face0 ∈ group0.mFaces, face = f face0 := by
  unfold mapFaces at hg
  obtain ⟨group0, hg0, rfl⟩ := List.mem_map.mp hg
  obtain ⟨face0, hf0, rfl⟩ := List.mem_map.mp hf
  exact ⟨group0, hg0, face0, hf0, rfl⟩

theorem ComputeVertexNormals_eq [Field F] (sqrt : F → F) (normalize : Bool) (m : ObjMesh F)
    (h : PosInBounds m) :
    ComputeVertexNormals sqrt normalize m
      = some { m with
          mNormals := m.mNormals
            ++ (List.range m.mVertices.length).map
                (vertexNormal sqrt normalize
                  (mapFaces (withFaceNormal sqrt false m.mVertices) m.mGroups))
          mGroups := mapFaces pointAtOwnVertex
            (mapFaces (withFaceNormal sqrt false m.mVertices) m.mGroups) } := by
  unfold ComputeVertexNormals
  rw [buildVertexFaces_eq m h, ComputeFaceNormals_eq sqrt false m h]
  simp only [Option.bind_eq_bind, Option.some_bind]
  rw [enum_range_map]
  have hptr : (fun v => (v, adjacentPtrs m.mGroups v))
      = (fun v => (v, adjacentPtrs
          (mapFaces (withFaceNormal sqrt false m.mVertices) m.mGroups) v)) := by
    funext v
    rw [adjacentPtrs_mapFaces (withFaceNormal sqrt false m.mVertices) m.mGroups v
      (fun face => by rw [withFaceNormal_VertexList])]
  rw [hptr]
  have hloop := vertex_loop_upto sqrt normalize
    { m with mGroups := mapFaces (withFaceNormal sqrt false m.mVertices) m.mGroups }
    m.mVertices.length
  simp only at hloop
  have hm1 : ({ m with mGroups := m.mGroups.map (fun group =>
      { group with mFaces := group.mFaces.map (withFaceNormal sqrt false m.mVertices) }) }
        : ObjMesh F)
      = { m with mGroups := mapFaces (withFaceNormal sqrt false m.mVertices) m.mGroups } := rfl
  rw [hm1, hloop]
  congr 2
  apply mapFaces_congr
  intro group hgroup face hface
  obtain ⟨group0, hg0, face0, hf0, rfl⟩ := mem_mapFaces _ _ group face hgroup hface
  apply retargetBelow_of_bounds
  rw [withFaceNormal_VertexList]
  exact h group0 hg0 face0 hf0

end gloo

namespace gloo
variable {F : Type}

/-! ### The appended vertex normals -/

theorem total_weight_eq_sum [Field F] (sqrt : F → F) (normals : List (Vec3 F)) :
    ∀ t : F, normals.foldl (fun t n => t + Vec3.length sqrt n) t
      = t + (normals.map (Vec3.length sqrt)).sum := by
  induction normals with
  | nil => intro t; simp
  | cons n rest ih =>
    intro t
    rw [List.foldl_cons, ih, List.map_cons, List.sum_cons, add_assoc]

theorem weighted_fold [Field F] (sqrt : F → F) (c : F) (normals : List (Vec3 F)) :
    ∀ a : Vec3 F,
      normals.foldl (fun acc n => Vec3.add acc (Vec3.scale n (Vec3.length sqrt n / c)))
          (Vec3.scale a c⁻¹)
        = Vec3.scale
            ((normals.map (fun n => Vec3.scale n (Vec3.length sqrt n))).foldl Vec3.add a) c⁻¹ := by
  induction normals with
  | nil => intro a; rfl
  | cons n rest ih =>
    intro a
    rw [List.foldl_cons, List.map_cons, List.foldl_cons, ← ih]
    congr 1
    simp only [Vec3.add, Vec3.scale, Vec3.mk.injEq, div_eq_mul_inv]
    refine ⟨?_, ?_, ?_⟩ <;> ring

theorem weightedAverage_eq_quotient [Field F] (sqrt : F → F) (normals : List (Vec3 F)) :
    weightedAverage sqrt normals = magnitudeWeightedQuotient sqrt normals := by
  unfold weightedAverage magnitudeWeightedQuotient vsum
  simp only
  rw [total_weight_eq_sum sqrt normals 0, zero_add]
  have hz : (Vec3.zero : Vec3 F)
      = Vec3.scale Vec3.zero ((normals.map (Vec3.length sqrt)).sum)⁻¹ := by
    simp [Vec3.zero, Vec3.scale]
  conv_lhs => rw [hz]
  exact weighted_fold sqrt _ normals Vec3.zero

theorem mem_adjacentFaces (groups : List (ObjGroup F)) (v : Nat) (face : Face F)
    (h : face ∈ adjacentFaces groups v) : ∃ group ∈ groups, face ∈ group.mFaces := by
  unfold adjacentFaces at h
  obtain ⟨group, hgroup, h⟩ := List.mem_flatMap.mp h
  obtain ⟨face0, hface0, h⟩ := List.mem_flatMap.mp h
  obtain ⟨_, _, rfl⟩ := List.mem_map.mp h
  exact ⟨group, hgroup, hface0⟩

theorem adjacent_normals_of_triangulated [Field F] (sqrt : F → F) (m : ObjMesh F) (v : Nat)
    (ht : Triangulated m) :
    (adjacentFaces (mapFaces (withFaceNormal sqrt false m.mVertices) m.mGroups) v).map
        Face.mNormal
      = (adjacentFaces m.mGroups v).map (crossNormal m.mVertices) := by
  rw [adjacentFaces_mapFaces _ _ v (fun face => by rw [withFaceNormal_VertexList]),
    List.map_map]
  apply List.map_congr_left
  intro face hface
  obtain ⟨group, hgroup, hmem⟩ := mem_adjacentFaces m.mGroups v face hface
  simp [withFaceNormal, ht group hgroup face hmem]

theorem appended_normal [Field F] (sqrt : F → F) (normalize : Bool) (m : ObjMesh F)
    (h : PosInBounds m) (v : Nat) (hv : v < m.mVertices.length) :
    ∃ m', ComputeVertexNormals sqrt normalize m = some m'
      ∧ m'.mNormals[m.mNormals.length + v]?
          = some (vertexNormal sqrt normalize
              (mapFaces (withFaceNormal sqrt false m.mVertices) m.mGroups) v) := by
  refine ⟨_, ComputeVertexNormals_eq sqrt normalize m h, ?_⟩
  simp only
  rw [List.getElem?_append_right (Nat.le_add_right _ _), Nat.add_sub_cancel_left,
    List.getElem?_map, List.getElem?_range hv]
  rfl

theorem appended_normal_triangulated [Field F] (sqrt : F → F) (m : ObjMesh F) (i : Nat)
    (h : PosInBounds m) (ht : Triangulated m) (hi : i < m.mVertices.length) :
    ∃ m', ComputeVertexNormals sqrt false m = some m'
      ∧ m'.mNormals[m.mNormals.length + i]?
          = some (magnitudeWeightedQuotient sqrt
              ((adjacentFaces m.mGroups i).map (crossNormal m.mVertices))) := by
  obtain ⟨m', hm', hget⟩ := appended_normal sqrt false m h i hi
  refine ⟨m', hm', ?_⟩
  rw [hget]
  unfold vertexNormal
  simp only [Bool.false_eq_true, if_false]
  rw [adjacent_normals_of_triangulated sqrt m i ht, weightedAverage_eq_quotient]

theorem quotient_as_loop [Field F] (sqrt : F → F) (normals : List (Vec3 F)) :
    magnitudeWeightedQuotient sqrt normals
      = normals.foldl
          (fun acc n => Vec3.add acc (Vec3.scale n
            (Vec3.length sqrt n / (normals.map (Vec3.length sqrt)).sum)))
          Vec3.zero := by
  rw [← weightedAverage_eq_quotient]
  unfold weightedAverage
  simp only
  rw [total_weight_eq_sum sqrt _ 0, zero_add]

/-- C6 (as amended): on a triangulated mesh with position indices in range, for
a vertex `i` whose adjacent faces have non-zero total weight,
`ComputeVertexNormals(false)` appends, at place `old normals count + i`, the
vector `Σ_j n_j * (|n_j| / Σ_k |n_k|)`, that is `(Σ_j |n_j| n_j) / (Σ_k |n_k|)`,
where the `n_j` are the un-normalized cross-product normals of the faces
adjacent to `i` (once per corner using `i`); such a vertex has an adjacent
face. -/
theorem ComputeVertexNormals_false_weighted [Field F] (sqrt : F → F) (m : ObjMesh F) (i : Nat)
    (h : PosInBounds m) (ht : Triangulated m) (hi : i < m.mVertices.length)
    (hw : (((adjacentFaces m.mGroups i).map (crossNormal m.mVertices)).map
      (Vec3.length sqrt)).sum ≠ 0) :
    adjacentFaces m.mGroups i ≠ []
      ∧ ∃ m', ComputeVertexNormals sqrt false m = some m'
        ∧ m'.mNormals[m.mNormals.length + i]?
            = some (magnitudeWeightedQuotient sqrt
                ((adjacentFaces m.mGroups i).map (crossNormal m.mVertices)))
        ∧ magnitudeWeightedQuotient sqrt
              ((adjacentFaces m.mGroups i).map (crossNormal m.mVertices))
            = ((adjacentFaces m.mGroups i).map (crossNormal m.mVertices)).foldl
                (fun acc n => Vec3.add acc (Vec3.scale n
                  (Vec3.length sqrt n
                    / (((adjacentFaces m.mGroups i).map (crossNormal m.mVertices)).map
                        (Vec3.length sqrt)).sum)))
                Vec3.zero := by
  refine ⟨?_, ?_⟩
  · intro hnil
    apply hw
    rw [hnil]
    rfl
  · obtain ⟨m', hm', hget⟩ := appended_normal_triangulated sqrt m i h ht hi
    exact ⟨m', hm', hget, quotient_as_loop sqrt _⟩

end gloo

namespace gloo
variable {F : Type}

theorem sampleTriangle_bounds (F : Type) [Field F] : PosInBounds (sampleTriangle F) := by
  simp [PosInBounds, sampleTriangle]

theorem sampleTriangle_triangulated (F : Type) [Field F] : Triangulated (sampleTriangle F) := by
  simp [Triangulated, sampleTriangle]

theorem sampleTriangle_adjacent (F : Type) [Field F] (v : Nat) (hv : v < 3) :
    adjacentFaces (sampleTriangle F).mGroups v
      = [⟨[⟨0, -1, -1⟩, ⟨1, -1, -1⟩, ⟨2, -1, -1⟩], Vec3.zero⟩] := by
  have h : v = 0 ∨ v = 1 ∨ v = 2 := by omega
  rcases h with h | h | h <;> subst h <;> simp [adjacentFaces, sampleTriangle, List.filter_cons]

theorem sampleTriangle_cross (F : Type) [Field F] :
    crossNormal (sampleTriangle F).mVertices
        (⟨[⟨0, -1, -1⟩, ⟨1, -1, -1⟩, ⟨2, -1, -1⟩], Vec3.zero⟩ : Face F)
      = ⟨0, 0, 2⟩ := by
  simp [crossNormal, vertexAt, index, sampleTriangle, Vec3.cross, Vec3.sub]

theorem length_002 : Vec3.length Real.sqrt (⟨0, 0, 2⟩ : Vec3 ℝ) = 2 := by
  unfold Vec3.length Vec3.dot
  have h : (0 : ℝ) * 0 + 0 * 0 + 2 * 2 = 2 ^ 2 := by norm_num
  simp only [h]
  exact Real.sqrt_sq (by norm_num)

end gloo

namespace gloo
variable {F : Type}

theorem sampleTriangle_normals (v : Nat) (hv : v < 3) :
    (adjacentFaces (sampleTriangle ℝ).mGroups v).map (crossNormal (sampleTriangle ℝ).mVertices)
      = [⟨0, 0, 2⟩] := by
  rw [sampleTriangle_adjacent ℝ v hv, List.map_cons, List.map_nil, sampleTriangle_cross]

theorem sampleTriangle_weight :
    (((adjacentFaces (sampleTriangle ℝ).mGroups 0).map
        (crossNormal (sampleTriangle ℝ).mVertices)).map (Vec3.length Real.sqrt)).sum = 2 := by
  rw [sampleTriangle_normals 0 (by decide)]
  simp [length_002]

/-- Witness for C6 (as amended): vertex 0 of the sample triangle over the reals,
with total weight 2. -/
theorem ComputeVertexNormals_false_weighted_witness :
    ∃ m', ComputeVertexNormals Real.sqrt false (sampleTriangle ℝ) = some m'
      ∧ m'.mNormals[(sampleTriangle ℝ).mNormals.length + 0]?
          = some (magnitudeWeightedQuotient Real.sqrt
              ((adjacentFaces (sampleTriangle ℝ).mGroups 0).map
                (crossNormal (sampleTriangle ℝ).mVertices))) := by
  have hw : (((adjacentFaces (sampleTriangle ℝ).mGroups 0).map
      (crossNormal (sampleTriangle ℝ).mVertices)).map (Vec3.length Real.sqrt)).sum ≠ 0 := by
    rw [sampleTriangle_weight]
    norm_num
  obtain ⟨_, m', h1, h2, _⟩ :=
    ComputeVertexNormals_false_weighted Real.sqrt (sampleTriangle ℝ) 0
      (sampleTriangle_bounds ℝ) (sampleTriangle_triangulated ℝ) (by decide) hw
  exact ⟨m', h1, h2⟩

/-- Counterexample to C6 as stated: for the sample triangle, whose only face
normal is `(0, 0, 2)` of length 2, vertex 0 has one adjacent face and total
weight 2, the code appends `(0, 0, 2)`, whereas the plain quotient
`(Σ n_j) / (Σ |n_j|)` is `(0, 0, 1)`. -/
theorem ComputeVertexNormals_plain_quotient_fails :
    PosInBounds (sampleTriangle ℝ) ∧ Triangulated (sampleTriangle ℝ)
      ∧ adjacentFaces (sampleTriangle ℝ).mGroups 0 ≠ []
      ∧ (((adjacentFaces (sampleTriangle ℝ).mGroups 0).map
            (crossNormal (sampleTriangle ℝ).mVertices)).map (Vec3.length Real.sqrt)).sum ≠ 0
      ∧ ∃ m', ComputeVertexNormals Real.sqrt false (sampleTriangle ℝ) = some m'
          ∧ m'.mNormals[(sampleTriangle ℝ).mNormals.length + 0]? = some ⟨0, 0, 2⟩
          ∧ plainQuotient Real.sqrt
                ((adjacentFaces (sampleTriangle ℝ).mGroups 0).map
                  (crossNormal (sampleTriangle ℝ).mVertices))
              = ⟨0, 0, 1⟩
          ∧ m'.mNormals[(sampleTriangle ℝ).mNormals.length + 0]?
              ≠ some (plainQuotient Real.sqrt
                  ((adjacentFaces (sampleTriangle ℝ).mGroups 0).map
                    (crossNormal (sampleTriangle ℝ).mVertices))) := by
  have hplain : plainQuotient Real.sqrt
      ((adjacentFaces (sampleTriangle ℝ).mGroups 0).map
        (crossNormal (sampleTriangle ℝ).mVertices)) = ⟨0, 0, 1⟩ := by
    rw [sampleTriangle_normals 0 (by decide)]
    simp [plainQuotient, vsum, Vec3.add, Vec3.scale, Vec3.zero, length_002]
  refine ⟨sampleTriangle_bounds ℝ, sampleTriangle_triangulated ℝ, ?_, ?_, ?_⟩
  · rw [sampleTriangle_adjacent ℝ 0 (by decide)]
    simp
  · rw [sampleTriangle_weight]
    norm_num
  · obtain ⟨m', hm', hget⟩ := appended_normal_triangulated Real.sqrt (sampleTriangle ℝ) 0
      (sampleTriangle_bounds ℝ) (sampleTriangle_triangulated ℝ) (by decide)
    have hval : magnitudeWeightedQuotient Real.sqrt
        ((adjacentFaces (sampleTriangle ℝ).mGroups 0).map
          (crossNormal (sampleTriangle ℝ).mVertices)) = ⟨0, 0, 2⟩ := by
      rw [sampleTriangle_normals 0 (by decide)]
      simp [magnitudeWeightedQuotient, vsum, Vec3.add, Vec3.scale, Vec3.zero, length_002]
    rw [hval] at hget
    refine ⟨m', hm', hget, hplain, ?_⟩
    rw [hget, hplain]
    intro hcontra
    have hz := congrArg (fun o : Option (Vec3 ℝ) => o.map Vec3.z) hcontra
    simp at hz

/-! ### The corner normal indices after `ComputeVertexNormals` -/

theorem corners_after_vertex_normals [Field F] (sqrt : F → F) (m : ObjMesh F)
    (h : PosInBounds m) (group : ObjGroup F) (face : Face F) (corner : Corner)
    (hg : group ∈ mapFaces pointAtOwnVertex
            (mapFaces (withFaceNormal sqrt false m.mVertices) m.mGroups))
    (hf : face ∈ group.mFaces) (hc : corner ∈ face.VertexList) :
    corner.nor = corner.pos ∧ 0 ≤ corner.pos ∧ corner.pos < (m.mVertices.length : Int) := by
  obtain ⟨group1, hg1, face1, hf1, rfl⟩ := mem_mapFaces _ _ group face hg hf
  obtain ⟨group0, hg0, face0, hf0, rfl⟩ := mem_mapFaces _ _ group1 face1 hg1 hf1
  unfold pointAtOwnVertex at hc
  simp only [withFaceNormal_VertexList] at hc
  obtain ⟨c0, hc0, rfl⟩ := List.mem_map.mp hc
  exact ⟨rfl, h group0 hg0 face0 hf0 c0 hc0⟩

theorem vertex_normals_indices [Field F] (sqrt : F → F) (normalize : Bool) (m : ObjMesh F)
    (h : PosInBounds m) :
    ∃ m', ComputeVertexNormals sqrt normalize m = some m'
      ∧ m'.mNormals.length = m.mNormals.length + m.mVertices.length
      ∧ m'.mNormals.take m.mNormals.length = m.mNormals
      ∧ shape m'.mGroups = shape m.mGroups
      ∧ (∀ group ∈ m'.mGroups, ∀ face ∈ group.mFaces, ∀ corner ∈ face.VertexList,
          corner.nor = corner.pos ∧ 0 ≤ corner.pos
            ∧ corner.pos < (m.mVertices.length : Int))
      ∧ (∀ group ∈ m'.mGroups, ∀ face ∈ group.mFaces, ∀ corner ∈ face.VertexList,
          index m'.mNormals ((m.mNormals.length : Int) + corner.pos)
            = (m'.mNormals.drop m.mNormals.length)[corner.pos.toNat]?
          ∧ ∃ n, index m'.mNormals ((m.mNormals.length : Int) + corner.pos) = some n) := by
  refine ⟨_, ComputeVertexNormals_eq sqrt normalize m h, ?_, ?_, ?_, ?_, ?_⟩
  · simp
  · simp
  · simp only
    rw [shape_mapFaces, shape_mapFaces]
  · intro group hg face hf corner hc
    exact corners_after_vertex_normals sqrt m h group face corner hg hf hc
  · intro group hg face hf corner hc
    obtain ⟨_, h0, h1⟩ := corners_after_vertex_normals sqrt m h group face corner hg hf hc
    have hnn : (0 : Int) ≤ (m.mNormals.length : Int) + corner.pos := by omega
    have htn : ((m.mNormals.length : Int) + corner.pos).toNat
        = m.mNormals.length + corner.pos.toNat := by omega
    have hlt : corner.pos.toNat < m.mVertices.length := by omega
    have hidx : ∀ l : List (Vec3 F), index l ((m.mNormals.length : Int) + corner.pos)
        = l[m.mNormals.length + corner.pos.toNat]? := by
      intro l
      unfold index
      rw [if_pos hnn, htn]
    refine ⟨?_, ?_⟩
    · rw [hidx, List.getElem?_drop]
    · rw [hidx, List.getElem?_append_right (Nat.le_add_right _ _), Nat.add_sub_cancel_left,
        List.getElem?_map, List.getElem?_range hlt]
      exact ⟨_, rfl⟩

end gloo

namespace gloo
variable {F : Type}

/-! ### The export loop -/

theorem exportCorner_eq [Field F] (smoothShading hasUVs : Bool) (m : ObjMesh F) (face : Face F)
    (bufs : GroupBuffers F) (vtx : Nat) (corner : Corner)
    (hc : face.VertexList[vtx]? = some corner)
    (hr : CornerReady smoothShading hasUVs m corner) :
    exportCorner smoothShading hasUVs m face bufs vtx
      = some { groupPositions := bufs.groupPositions ++ cornerPositions m corner
               groupNormals := bufs.groupNormals ++ cornerNormals smoothShading m face corner
               groupUVs := bufs.groupUVs ++ cornerUVs hasUVs m corner } := by
  obtain ⟨hp, hn, hu⟩ := hr
  obtain ⟨v, hv, _⟩ := index_eq_some_of_bounds m.mVertices corner.pos hp.1 hp.2
  unfold exportCorner
  rw [hc]
  simp only [Option.bind_eq_bind, Option.some_bind, hv]
  cases smoothShading with
  | true =>
    obtain ⟨vn, hvn, _⟩ := index_eq_some_of_bounds m.mNormals corner.nor (hn rfl).1 (hn rfl).2
    cases hasUVs with
    | true =>
      obtain ⟨vt, hvt, _⟩ := index_eq_some_of_bounds m.mUVs corner.uv (hu rfl).1 (hu rfl).2
      simp [hvn, hvt, cornerPositions, cornerNormals, cornerUVs, vertexAt, uvAt, hv]
    | false =>
      simp [hvn, cornerPositions, cornerNormals, cornerUVs, vertexAt, hv]
  | false =>
    cases hasUVs with
    | true =>
      obtain ⟨vt, hvt, _⟩ := index_eq_some_of_bounds m.mUVs corner.uv (hu rfl).1 (hu rfl).2
      simp [hvt, cornerPositions, cornerNormals, cornerUVs, vertexAt, uvAt, hv]
    | false =>
      simp [cornerPositions, cornerNormals, cornerUVs, vertexAt, hv]

theorem exportFace_eq [Field F] (smoothShading hasUVs : Bool) (m : ObjMesh F) (face : Face F)
    (bufs : GroupBuffers F) (hr : FaceReady smoothShading hasUVs m face) :
    [0, 1, 2].foldlM (exportCorner smoothShading hasUVs m face) bufs
      = some { groupPositions := bufs.groupPositions
                 ++ (face.VertexList.take 3).flatMap (cornerPositions m)
               groupNormals := bufs.groupNormals
                 ++ (face.VertexList.take 3).flatMap (cornerNormals smoothShading m face)
               groupUVs := bufs.groupUVs
                 ++ (face.VertexList.take 3).flatMap (cornerUVs hasUVs m) } := by
  obtain ⟨hlen, hready⟩ := hr
  match hv : face.VertexList, hlen with
  | c0 :: c1 :: c2 :: rest, _ =>
    rw [hv] at hready
    have h0 : face.VertexList[0]? = some c0 := by rw [hv]; simp
    have h1 : face.VertexList[1]? = some c1 := by rw [hv]; simp
    have h2 : face.VertexList[2]? = some c2 := by rw [hv]; simp
    simp only [List.foldlM_cons, List.foldlM_nil]
    rw [exportCorner_eq smoothShading hasUVs m face bufs 0 c0 h0 (hready c0 (by simp))]
    simp only [Option.bind_eq_bind, Option.some_bind]
    rw [exportCorner_eq smoothShading hasUVs m face _ 1 c1 h1 (hready c1 (by simp))]
    simp only [Option.some_bind]
    rw [exportCorner_eq smoothShading hasUVs m face _ 2 c2 h2 (hready c2 (by simp))]
    simp [List.take, List.flatMap_cons, List.append_assoc]

theorem exportFaces_fold [Field F] (smoothShading hasUVs : Bool) (m : ObjMesh F)
    (faces : List (Face F)) :
    ∀ bufs : GroupBuffers F, (∀ face ∈ faces, FaceReady smoothShading hasUVs m face) →
      faces.foldlM
          (fun bufs face => [0, 1, 2].foldlM (exportCorner smoothShading hasUVs m face) bufs)
          bufs
        = some { groupPositions := bufs.groupPositions
                   ++ (flatBuffers smoothShading hasUVs m faces).groupPositions
                 groupNormals := bufs.groupNormals
                   ++ (flatBuffers smoothShading hasUVs m faces).groupNormals
                 groupUVs := bufs.groupUVs
                   ++ (flatBuffers smoothShading hasUVs m faces).groupUVs } := by
  induction faces with
  | nil =>
    intro bufs _
    simp [flatBuffers]
  | cons face rest ih =>
    intro bufs h
    rw [List.foldlM_cons, exportFace_eq smoothShading hasUVs m face bufs (h face (by simp))]
    simp only [Option.bind_eq_bind, Option.some_bind]
    rw [ih _ (fun f hf => h f (List.mem_cons_of_mem face hf))]
    simp [flatBuffers, List.flatMap_cons, List.append_assoc]

theorem exportFaces_eq [Field F] (smoothShading hasUVs : Bool) (m : ObjMesh F)
    (faces : List (Face F)) (h : ∀ face ∈ faces, FaceReady smoothShading hasUVs m face) :
    exportFaces smoothShading hasUVs m faces
      = some (flatBuffers smoothShading hasUVs m faces) := by
  unfold exportFaces
  rw [exportFaces_fold smoothShading hasUVs m faces _ h]
  simp

end gloo

namespace gloo
variable {F : Type}

/-! ### The derivation step of the export -/

theorem derive_eq_derivedMesh [Field F] (sqrt : F → F) (m : ObjMesh F) (smoothShading : Bool) :
    (if (!decide (m.mNormals.length > 0) && smoothShading) = true then
        ComputeVertexNormals sqrt true m
      else if (!smoothShading) = true then ComputeFaceNormals sqrt true m
      else pure m)
      = derivedMesh sqrt m smoothShading := by
  unfold derivedMesh
  cases smoothShading <;> cases hN : m.mNormals <;> simp

theorem mapFaces_pointAtOwnVertex_withFaceNormal [Field F] (sqrt : F → F) (m : ObjMesh F)
    (hN : m.mNormals = []) :
    mapFaces pointAtOwnVertex (mapFaces (withFaceNormal sqrt false m.mVertices) m.mGroups)
      = mapFaces (derivedFace sqrt m true) m.mGroups := by
  rw [mapFaces_mapFaces]
  apply mapFaces_congr
  intro group _ face _
  unfold derivedFace derivedFaceNormal derivedCorner pointAtOwnVertex
  rw [hN]
  simp only [withFaceNormal_VertexList]

theorem derivedMesh_eq [Field F] (sqrt : F → F) (m : ObjMesh F) (smoothShading : Bool)
    (h : PosInBounds m) :
    derivedMesh sqrt m smoothShading = some (derivedState sqrt m smoothShading) := by
  unfold derivedMesh derivedState
  cases smoothShading with
  | true =>
    cases hN : m.mNormals with
    | nil =>
      simp only
      rw [ComputeVertexNormals_eq sqrt true m h,
        mapFaces_pointAtOwnVertex_withFaceNormal sqrt m hN]
      simp [derivedNormals, hN]
    | cons n rest =>
      simp only [derivedNormals]
      have hg : mapFaces (derivedFace sqrt m true) m.mGroups = m.mGroups := by
        rw [mapFaces_congr (derivedFace sqrt m true) (fun face => face) m.mGroups, mapFaces_id]
        intro group _ face _
        unfold derivedFace derivedFaceNormal derivedCorner
        rw [hN]
        simp
      rw [hg]
      congr 1
      cases m
      simp_all
  | false =>
    simp only [derivedNormals]
    rw [ComputeFaceNormals_eq sqrt true m h]
    congr 2
    apply mapFaces_congr
    intro group _ face _
    unfold derivedFace derivedFaceNormal derivedCorner
    simp only [List.map_id']
    unfold withFaceNormal
    split <;> rfl

theorem index_mapFaces (f : Face F → Face F) (groups : List (ObjGroup F)) (g : Int) :
    index (mapFaces f groups) g
      = (index groups g).map (fun group => { group with mFaces := group.mFaces.map f }) := by
  unfold index mapFaces
  split
  · rw [List.getElem?_map]
  · rfl

theorem index_nonneg {α : Type} (v : List α) (k : Int) (a : α) (h : index v k = some a) :
    0 ≤ k ∧ k < (v.length : Int) := by
  unfold index at h
  split at h
  · rename_i h0
    refine ⟨h0, ?_⟩
    have hlt : k.toNat < v.length := by
      rcases Nat.lt_or_ge k.toNat v.length with hlt | hge
      · exact hlt
      · rw [List.getElem?_eq_none hge] at h
        cases h
    omega
  · cases h

/-! ### `ExportToMeshGroup` in closed form -/

theorem export_of_derived [Field F] (Load : MeshGroup F → Bool) (sqrt : F → F) (m : ObjMesh F)
    (g : Int) (smoothShading : Bool) (group : ObjGroup F) (m' : ObjMesh F)
    (group' : ObjGroup F)
    (hgrp : index m.mGroups g = some group)
    (hder : derivedMesh sqrt m smoothShading = some m')
    (hgrp' : index m'.mGroups g = some group')
    (hready : ∀ face ∈ group'.mFaces,
      FaceReady smoothShading (decide (m.mUVs.length > 0)) m' face) :
    ExportToMeshGroup Load sqrt m g smoothShading
      = some (m',
          if Load (flatMeshGroup smoothShading (decide (m.mUVs.length > 0)) m' group'.mFaces)
          then some (flatMeshGroup smoothShading (decide (m.mUVs.length > 0)) m' group'.mFaces)
          else none) := by
  have hg0 : ¬ (g < 0 ∧ toSizeT g > m.mGroups.length) := by
    intro hcontra
    have := (index_nonneg m.mGroups g group hgrp).1
    omega
  unfold ExportToMeshGroup
  rw [if_neg hg0, hgrp]
  simp only []
  rw [derive_eq_derivedMesh, hder]
  simp only [Option.bind_eq_bind, Option.some_bind]
  rw [hgrp']
  simp only [Option.some_bind, GetNumFacesOnGroup, hgrp', Option.bind_eq_bind, Option.pure_def]
  rw [exportFaces_eq smoothShading _ m' group'.mFaces hready]
  simp only [Option.some_bind, flatMeshGroup]
  cases Load _ <;> simp

end gloo

namespace gloo
variable {F : Type}

/-! ### Indexing into the flattened buffers -/

theorem flatMap_blocks_length {α β : Type} (w : Nat) (f : α → List β) (l : List α)
    (h : ∀ a ∈ l, (f a).length = w) : (l.flatMap f).length = w * l.length := by
  induction l with
  | nil => simp
  | cons a rest ih =>
    rw [List.flatMap_cons, List.length_append, h a (by simp),
      ih (fun b hb => h b (List.mem_cons_of_mem a hb)), List.length_cons, Nat.mul_succ,
      Nat.add_comm]

theorem flatMap_blocks_get {α β : Type} (w : Nat) (f : α → List β) (l : List α)
    (h : ∀ a ∈ l, (f a).length = w) :
    ∀ (i j : Nat) (a : α), l[i]? = some a → j < w →
      (l.flatMap f)[w * i + j]? = (f a)[j]? := by
  induction l with
  | nil =>
    intro i j a hi _
    simp at hi
  | cons b rest ih =>
    intro i j a hi hj
    have hb : (f b).length = w := h b (by simp)
    cases i with
    | zero =>
      simp only [List.getElem?_cons_zero, Option.some.injEq] at hi
      subst hi
      rw [List.flatMap_cons, Nat.mul_zero, Nat.zero_add,
        List.getElem?_append_left (by rw [hb]; exact hj)]
    | succ i =>
      simp only [List.getElem?_cons_succ] at hi
      rw [List.flatMap_cons, List.getElem?_append_right (by rw [hb, Nat.mul_succ]; omega)]
      have hidx : w * (i + 1) + j - (f b).length = w * i + j := by
        rw [hb, Nat.mul_succ]
        omega
      rw [hidx]
      exact ih (fun c hc => h c (List.mem_cons_of_mem b hc)) i j a hi hj

theorem take_three_length (corners : List Corner) (h : 3 ≤ corners.length) :
    (corners.take 3).length = 3 := by
  rw [List.length_take]
  omega

theorem take_three_get (corners : List Corner) (c : Nat) (hc : c < 3) :
    (corners.take 3)[c]? = corners[c]? := by
  rw [List.getElem?_take]
  simp [hc]

theorem flat_length (w : Nat) (block : Face F → Corner → List F)
    (hw : ∀ face corner, (block face corner).length = w) (faces : List (Face F))
    (hfaces : ∀ face ∈ faces, 3 ≤ face.VertexList.length) :
    (faces.flatMap (fun face => (face.VertexList.take 3).flatMap (block face))).length
      = 3 * w * faces.length := by
  apply flatMap_blocks_length
  intro face hface
  rw [flatMap_blocks_length w (block face) _ (fun corner _ => hw face corner),
    take_three_length _ (hfaces face hface), Nat.mul_comm]

theorem flat_get (w : Nat) (block : Face F → Corner → List F)
    (hw : ∀ face corner, (block face corner).length = w) (faces : List (Face F))
    (hfaces : ∀ face ∈ faces, 3 ≤ face.VertexList.length)
    (i c k : Nat) (face : Face F) (corner : Corner)
    (hi : faces[i]? = some face) (hc : face.VertexList[c]? = some corner) (hc3 : c < 3)
    (hk : k < w) :
    (faces.flatMap (fun face => (face.VertexList.take 3).flatMap (block face)))[
        3 * w * i + w * c + k]?
      = (block face corner)[k]? := by
  have hblock : ∀ f ∈ faces, ((f.VertexList.take 3).flatMap (block f)).length = 3 * w := by
    intro f hf
    rw [flatMap_blocks_length w (block f) _ (fun corner _ => hw f corner),
      take_three_length _ (hfaces f hf), Nat.mul_comm]
  have hlt : w * c + k < 3 * w := by
    have : w * c + w ≤ 3 * w := by
      calc w * c + w = w * (c + 1) := by rw [Nat.mul_succ]
        _ ≤ w * 3 := Nat.mul_le_mul_left w hc3
        _ = 3 * w := Nat.mul_comm w 3
    omega
  rw [Nat.add_assoc,
    flatMap_blocks_get (3 * w) (fun f => (f.VertexList.take 3).flatMap (block f)) faces hblock
      i (w * c + k) face hi hlt]
  have hcorner : (face.VertexList.take 3)[c]? = some corner := by
    rw [take_three_get _ c hc3, hc]
  exact flatMap_blocks_get w (block face) _ (fun corner _ => hw face corner) c k corner
    hcorner hk

theorem flat_get_three (block : Face F → Corner → List F)
    (hw : ∀ face corner, (block face corner).length = 3) (faces : List (Face F))
    (hfaces : ∀ face ∈ faces, 3 ≤ face.VertexList.length)
    (i c k : Nat) (face : Face F) (corner : Corner)
    (hi : faces[i]? = some face) (hc : face.VertexList[c]? = some corner) (hc3 : c < 3)
    (hk : k < 3) :
    (faces.flatMap (fun face => (face.VertexList.take 3).flatMap (block face)))[
        9 * i + 3 * c + k]?
      = (block face corner)[k]? := by
  have h := flat_get 3 block hw faces hfaces i c k face corner hi hc hc3 hk
  have e : 3 * 3 * i = 9 * i := by omega
  rw [e] at h
  exact h

theorem flat_get_two (block : Face F → Corner → List F)
    (hw : ∀ face corner, (block face corner).length = 2) (faces : List (Face F))
    (hfaces : ∀ face ∈ faces, 3 ≤ face.VertexList.length)
    (i c k : Nat) (face : Face F) (corner : Corner)
    (hi : faces[i]? = some face) (hc : face.VertexList[c]? = some corner) (hc3 : c < 3)
    (hk : k < 2) :
    (faces.flatMap (fun face => (face.VertexList.take 3).flatMap (block face)))[
        6 * i + 2 * c + k]?
      = (block face corner)[k]? := by
  have h := flat_get 2 block hw faces hfaces i c k face corner hi hc hc3 hk
  have e : 3 * 2 * i = 6 * i := by omega
  rw [e] at h
  exact h

end gloo

namespace gloo
variable {F : Type}

/-! ### The export of a ready mesh -/

theorem derivedCorner_pos (m : ObjMesh F) (smoothShading : Bool) (corner : Corner) :
    (derivedCorner m smoothShading corner).pos = corner.pos := by
  unfold derivedCorner
  split <;> rfl

theorem derivedCorner_uv (m : ObjMesh F) (smoothShading : Bool) (corner : Corner) :
    (derivedCorner m smoothShading corner).uv = corner.uv := by
  unfold derivedCorner
  split <;> rfl

theorem derivedCorner_nor_ready [Field F] (sqrt : F → F) (m : ObjMesh F) (corner : Corner)
    (hp : 0 ≤ corner.pos ∧ corner.pos < (m.mVertices.length : Int))
    (hn : m.mNormals ≠ [] → 0 ≤ corner.nor ∧ corner.nor < (m.mNormals.length : Int)) :
    0 ≤ (derivedCorner m true corner).nor
      ∧ (derivedCorner m true corner).nor < ((derivedNormals sqrt m true).length : Int) := by
  unfold derivedCorner derivedNormals
  cases hN : m.mNormals with
  | nil => simpa using hp
  | cons n rest =>
    have := hn (by rw [hN]; simp)
    rw [hN] at this
    simpa using this

theorem derivedState_ready [Field F] (sqrt : F → F) (m : ObjMesh F) (group : ObjGroup F)
    (smoothShading : Bool) (hmem : group ∈ m.mGroups)
    (hr : ExportReady m group smoothShading) :
    ∀ face ∈ group.mFaces.map (derivedFace sqrt m smoothShading),
      FaceReady smoothShading (decide (m.mUVs.length > 0))
        (derivedState sqrt m smoothShading) face := by
  intro face hface
  obtain ⟨face0, hface0, rfl⟩ := List.mem_map.mp hface
  obtain ⟨hpos, hgroup⟩ := hr
  obtain ⟨hlen, hcorners⟩ := hgroup face0 hface0
  refine ⟨by simpa [derivedFace] using hlen, ?_⟩
  intro corner hcorner
  have hcm : corner ∈ (derivedFace sqrt m smoothShading face0).VertexList :=
    List.mem_of_mem_take hcorner
  obtain ⟨c0, hc0, rfl⟩ := List.mem_map.mp hcm
  have hp := hpos group hmem face0 hface0 c0 hc0
  obtain ⟨hn, hu⟩ := hcorners c0 hc0
  refine ⟨?_, ?_, ?_⟩
  · rw [derivedCorner_pos]
    exact hp
  · intro hs
    subst hs
    exact derivedCorner_nor_ready sqrt m c0 hp (hn rfl)
  · intro huv
    rw [derivedCorner_uv]
    have hne : m.mUVs ≠ [] := by
      intro hnil
      rw [hnil] at huv
      simp at huv
    exact hu hne

theorem export_ready [Field F] (Load : MeshGroup F → Bool) (sqrt : F → F) (m : ObjMesh F)
    (g : Int) (smoothShading : Bool) (group : ObjGroup F)
    (hgrp : index m.mGroups g = some group) (hr : ExportReady m group smoothShading) :
    ExportToMeshGroup Load sqrt m g smoothShading
      = some (derivedState sqrt m smoothShading,
          if Load (flatMeshGroup smoothShading (decide (m.mUVs.length > 0))
              (derivedState sqrt m smoothShading)
              (group.mFaces.map (derivedFace sqrt m smoothShading)))
          then some (flatMeshGroup smoothShading (decide (m.mUVs.length > 0))
              (derivedState sqrt m smoothShading)
              (group.mFaces.map (derivedFace sqrt m smoothShading)))
          else none) := by
  have hmem : group ∈ m.mGroups := by
    unfold index at hgrp
    split at hgrp
    · exact List.getElem?_mem hgrp
    · cases hgrp
  have hgrp' : index (derivedState sqrt m smoothShading).mGroups g
      = some { group with mFaces := group.mFaces.map (derivedFace sqrt m smoothShading) } := by
    unfold derivedState
    simp only
    rw [index_mapFaces, hgrp]
    rfl
  exact export_of_derived Load sqrt m g smoothShading group _ _ hgrp
    (derivedMesh_eq sqrt m smoothShading hr.1) hgrp'
    (derivedState_ready sqrt m group smoothShading hmem hr)

theorem derivedFace_get [Field F] (sqrt : F → F) (m : ObjMesh F) (smoothShading : Bool)
    (faces : List (Face F)) (i c : Nat) (face : Face F) (corner : Corner)
    (hi : faces[i]? = some face) (hc : face.VertexList[c]? = some corner) :
    (faces.map (derivedFace sqrt m smoothShading))[i]?
        = some (derivedFace sqrt m smoothShading face)
      ∧ (derivedFace sqrt m smoothShading face).VertexList[c]?
        = some (derivedCorner m smoothShading corner) := by
  refine ⟨by simp [hi], ?_⟩
  unfold derivedFace
  simp [hc]

theorem derivedFaces_three [Field F] (sqrt : F → F) (m : ObjMesh F) (smoothShading : Bool)
    (faces : List (Face F)) (h : ∀ face ∈ faces, 3 ≤ face.VertexList.length) :
    ∀ face ∈ faces.map (derivedFace sqrt m smoothShading), 3 ≤ face.VertexList.length := by
  intro face hface
  obtain ⟨face0, hface0, rfl⟩ := List.mem_map.mp hface
  simpa [derivedFace] using h face0 hface0

theorem hasUVs_true (m : ObjMesh F) (h : m.mUVs ≠ []) : decide (m.mUVs.length > 0) = true := by
  cases hU : m.mUVs with
  | nil => exact absurd hU h
  | cons t rest => simp

theorem hasUVs_false (m : ObjMesh F) (h : m.mUVs = []) : decide (m.mUVs.length > 0) = false := by
  rw [h]
  simp

end gloo

namespace gloo
variable {F : Type}

/-! ### The group-index guard of `ExportToMeshGroup` -/

theorem export_negative_index [Field F] (Load : MeshGroup F → Bool) (sqrt : F → F)
    (m : ObjMesh F) (g : Int) (smoothShading : Bool)
    (hneg : g < 0) (hint : -(2 : Int) ^ 31 ≤ g) (hsize : m.mGroups.length < 2 ^ 63) :
    ExportToMeshGroup Load sqrt m g smoothShading = some (m, none) := by
  unfold ExportToMeshGroup
  have hconv : toSizeT g > m.mGroups.length := by
    unfold toSizeT
    have h1 : g % 2 ^ 64 = g + 2 ^ 64 := by
      rw [Int.emod_eq_add_self_emod]
      exact Int.emod_eq_of_lt (by omega) (by omega)
    rw [h1]
    omega
  rw [if_pos ⟨hneg, hconv⟩]

theorem export_index_past_end [Field F] (Load : MeshGroup F → Bool) (sqrt : F → F)
    (m : ObjMesh F) (g : Int) (smoothShading : Bool) (h : (m.mGroups.length : Int) ≤ g) :
    ExportToMeshGroup Load sqrt m g smoothShading = none := by
  unfold ExportToMeshGroup
  have hguard : ¬ (g < 0 ∧ toSizeT g > m.mGroups.length) := by
    intro hcontra
    omega
  have hidx : index m.mGroups g = none := by
    unfold index
    have h0 : 0 ≤ g := by omega
    rw [if_pos h0]
    apply List.getElem?_eq_none
    omega
  rw [if_neg hguard, hidx]
  rfl

/-- C1: evaluation of the code at a group index equal to the number of groups
(one group, index 1), for any shading flag: the guard
`groupIndex < 0 && groupIndex > size` does not fire, the call goes on to the
element access `mGroups[1]`, which is out of range, and the null result is not
returned. -/
theorem ExportToMeshGroup_index_at_size (Load : MeshGroup ℚ → Bool) (sqrt : ℚ → ℚ)
    (smoothShading : Bool) :
    ((sampleTriangle ℚ).mGroups.length : Int) ≤ 1
      ∧ ExportToMeshGroup Load sqrt (sampleTriangle ℚ) 1 smoothShading = none
      ∧ ExportToMeshGroup Load sqrt (sampleTriangle ℚ) 1 smoothShading
          ≠ some (sampleTriangle ℚ, none) := by
  have hlen : ((sampleTriangle ℚ).mGroups.length : Int) ≤ 1 := by
    simp [sampleTriangle]
  have hnone := export_index_past_end Load sqrt (sampleTriangle ℚ) 1 smoothShading hlen
  refine ⟨hlen, hnone, ?_⟩
  rw [hnone]
  simp

end gloo

namespace gloo
variable {F : Type}

/-! ### The position buffer -/

theorem cornerPositions_derived [Field F] (sqrt : F → F) (m : ObjMesh F) (smoothShading : Bool)
    (corner : Corner) (v : Vec3 F) (hv : index m.mVertices corner.pos = some v) :
    cornerPositions (derivedState sqrt m smoothShading) (derivedCorner m smoothShading corner)
      = [v.x, v.y, v.z] := by
  unfold cornerPositions
  rw [derivedCorner_pos]
  have : vertexAt (derivedState sqrt m smoothShading).mVertices corner.pos = v := by
    unfold derivedState
    exact vertexAt_of_index _ _ _ hv
  rw [this]

theorem mem_of_index {α : Type} (v : List α) (k : Int) (a : α) (h : index v k = some a) :
    a ∈ v := by
  unfold index at h
  split at h
  · exact List.getElem?_mem h
  · cases h

/-- C2 (as amended): for a valid group index whose group has `F` faces, each
with at least three corners, on a mesh with position indices in range and,
in that group, normal indices in range when smooth shading reads existing
normals and uv indices in range when the mesh has UVs,
`ExportToMeshGroup` hands `Load` a position buffer of exactly `9F` scalars
(`3F` vertices) in which the scalars at `9i+3c`, `9i+3c+1`, `9i+3c+2` are the
`x`, `y`, `z` of `positions[position index of corner c of face i]`. -/
theorem ExportToMeshGroup_positions [Field F] (Load : MeshGroup F → Bool) (sqrt : F → F)
    (m : ObjMesh F) (g : Int) (smoothShading : Bool) (group : ObjGroup F)
    (hgrp : index m.mGroups g = some group) (hr : ExportReady m group smoothShading) :
    ∃ m' mg P,
      ExportToMeshGroup Load sqrt m g smoothShading
          = some (m', if Load mg then some mg else none)
        ∧ mg.numVertices = 3 * group.mFaces.length
        ∧ mg.bufferList[0]? = some P
        ∧ P.length = 9 * group.mFaces.length
        ∧ ∀ (i c : Nat) (face : Face F) (corner : Corner),
            group.mFaces[i]? = some face → face.VertexList[c]? = some corner → c < 3 →
            ∃ v, index m.mVertices corner.pos = some v
              ∧ P[9 * i + 3 * c]? = some v.x
              ∧ P[9 * i + 3 * c + 1]? = some v.y
              ∧ P[9 * i + 3 * c + 2]? = some v.z := by
  have hthree := derivedFaces_three sqrt m smoothShading group.mFaces
    (fun face hface => (hr.2 face hface).1)
  refine ⟨_, _,
    (flatBuffers smoothShading (decide (m.mUVs.length > 0)) (derivedState sqrt m smoothShading)
      (group.mFaces.map (derivedFace sqrt m smoothShading))).groupPositions,
    export_ready Load sqrt m g smoothShading group hgrp hr, ?_, ?_, ?_, ?_⟩
  · simp [flatMeshGroup]
  · simp [flatMeshGroup]
  · unfold flatBuffers
    simp only
    rw [flat_length 3 (fun _ corner => cornerPositions (derivedState sqrt m smoothShading) corner)
      (fun _ _ => rfl) _ hthree]
    simp
  · intro i c face corner hi hc hc3
    have hmem : group ∈ m.mGroups := mem_of_index _ _ _ hgrp
    have hp := hr.1 group hmem face (List.getElem?_mem hi) corner (List.getElem?_mem hc)
    obtain ⟨v, hv, _⟩ := index_eq_some_of_bounds m.mVertices corner.pos hp.1 hp.2
    obtain ⟨hi', hc'⟩ := derivedFace_get sqrt m smoothShading group.mFaces i c face corner hi hc
    have hget : ∀ k, k < 3 →
        (flatBuffers smoothShading (decide (m.mUVs.length > 0))
            (derivedState sqrt m smoothShading)
            (group.mFaces.map (derivedFace sqrt m smoothShading))).groupPositions[
              9 * i + 3 * c + k]?
          = [v.x, v.y, v.z][k]? := by
      intro k hk
      unfold flatBuffers
      simp only
      have h := flat_get_three
        (fun _ corner => cornerPositions (derivedState sqrt m smoothShading) corner)
        (fun _ _ => rfl) _ hthree i c k _ _ hi' hc' hc3 hk
      beta_reduce at h
      rw [cornerPositions_derived sqrt m smoothShading corner v hv] at h
      exact h
    exact ⟨v, hv, hget 0 (by decide), hget 1 (by decide), hget 2 (by decide)⟩

theorem sampleTriangle_ready (F : Type) [Field F] (smoothShading : Bool) :
    ExportReady (sampleTriangle F)
      ⟨"g", [⟨[⟨0, -1, -1⟩, ⟨1, -1, -1⟩, ⟨2, -1, -1⟩], Vec3.zero⟩]⟩ smoothShading := by
  refine ⟨sampleTriangle_bounds F, ?_⟩
  simp [sampleTriangle]

theorem sampleTriangle_group (F : Type) [Field F] :
    index (sampleTriangle F).mGroups 0
      = some ⟨"g", [⟨[⟨0, -1, -1⟩, ⟨1, -1, -1⟩, ⟨2, -1, -1⟩], Vec3.zero⟩]⟩ := by
  simp [index, sampleTriangle]

/-- Witness for C2 (as amended): the sample triangle, smooth shading; the
position buffer has nine scalars. -/
theorem ExportToMeshGroup_positions_witness :
    ∃ m' mg P,
      ExportToMeshGroup (fun _ => true) (fun x : ℚ => x) (sampleTriangle ℚ) 0 true
          = some (m', if (fun _ => true) mg then some mg else none)
        ∧ mg.bufferList[0]? = some P ∧ P.length = 9 * 1 := by
  obtain ⟨m', mg, P, h1, _, h3, h4, _⟩ :=
    ExportToMeshGroup_positions (fun _ => true) (fun x : ℚ => x) (sampleTriangle ℚ) 0 true
      ⟨"g", [⟨[⟨0, -1, -1⟩, ⟨1, -1, -1⟩, ⟨2, -1, -1⟩], Vec3.zero⟩]⟩
      (sampleTriangle_group ℚ) (sampleTriangle_ready ℚ true)
  exact ⟨m', mg, P, h1, h3, h4⟩

theorem exportCorner_fault [Field F] (smoothShading hasUVs : Bool) (m : ObjMesh F)
    (face : Face F) (bufs : GroupBuffers F) (vtx : Nat) (corner : Corner)
    (hc : face.VertexList[vtx]? = some corner)
    (h : (smoothShading = true ∧ index m.mNormals corner.nor = none)
      ∨ (hasUVs = true ∧ index m.mUVs corner.uv = none)) :
    exportCorner smoothShading hasUVs m face bufs vtx = none := by
  unfold exportCorner
  rw [hc]
  simp only [Option.bind_eq_bind, Option.some_bind]
  cases hv : index m.mVertices corner.pos with
  | none => rfl
  | some v =>
    simp only [Option.some_bind]
    rcases h with ⟨hs, hn⟩ | ⟨hu, ht⟩
    · subst hs
      simp [hn]
    · subst hu
      cases smoothShading with
      | true =>
        cases hn : index m.mNormals corner.nor with
        | none => simp
        | some vn => simp [ht]
      | false => simp [ht]

theorem exportFaces_fault [Field F] (smoothShading hasUVs : Bool) (m : ObjMesh F)
    (face : Face F) (rest : List (Face F)) (corner : Corner)
    (hc : face.VertexList[0]? = some corner)
    (h : (smoothShading = true ∧ index m.mNormals corner.nor = none)
      ∨ (hasUVs = true ∧ index m.mUVs corner.uv = none)) :
    exportFaces smoothShading hasUVs m (face :: rest) = none := by
  unfold exportFaces
  rw [List.foldlM_cons, List.foldlM_cons,
    exportCorner_fault smoothShading hasUVs m face _ 0 corner hc h]
  rfl

theorem export_fault [Field F] (Load : MeshGroup F → Bool) (sqrt : F → F) (m : ObjMesh F)
    (g : Int) (smoothShading : Bool) (group : ObjGroup F) (face : Face F)
    (rest : List (Face F)) (corner : Corner)
    (hgrp : index m.mGroups g = some group) (hb : PosInBounds m)
    (hfaces : group.mFaces = face :: rest) (hc : face.VertexList[0]? = some corner)
    (h : (smoothShading = true ∧ m.mNormals ≠ [] ∧ index m.mNormals corner.nor = none)
      ∨ (m.mUVs ≠ [] ∧ index m.mUVs corner.uv = none)) :
    ExportToMeshGroup Load sqrt m g smoothShading = none := by
  have hg0 : ¬ (g < 0 ∧ toSizeT g > m.mGroups.length) := by
    intro hcontra
    have := (index_nonneg m.mGroups g group hgrp).1
    omega
  have hgrp' : index (derivedState sqrt m smoothShading).mGroups g
      = some { group with mFaces := group.mFaces.map (derivedFace sqrt m smoothShading) } := by
    unfold derivedState
    simp only
    rw [index_mapFaces, hgrp]
    rfl
  have hc' : (derivedFace sqrt m smoothShading face).VertexList[0]?
      = some (derivedCorner m smoothShading corner) := by
    unfold derivedFace
    simp [hc]
  have hfault : exportFaces smoothShading (decide (m.mUVs.length > 0))
      (derivedState sqrt m smoothShading)
      (derivedFace sqrt m smoothShading face :: rest.map (derivedFace sqrt m smoothShading))
      = none := by
    apply exportFaces_fault smoothShading _ _ _ _ _ hc'
    rcases h with ⟨hs, hN, hn⟩ | ⟨hU, hu⟩
    · left
      refine ⟨hs, ?_⟩
      subst hs
      cases hN' : m.mNormals with
      | nil => exact absurd hN' hN
      | cons n0 ns =>
        have e1 : derivedCorner m true corner = corner := by
          unfold derivedCorner
          rw [hN']
        have e2 : (derivedState sqrt m true).mNormals = m.mNormals := by
          unfold derivedState derivedNormals
          rw [hN']
        rw [e1, e2]
        exact hn
    · right
      refine ⟨hasUVs_true m hU, ?_⟩
      rw [derivedCorner_uv]
      exact hu
  unfold ExportToMeshGroup
  rw [if_neg hg0, hgrp]
  simp only []
  rw [derive_eq_derivedMesh, derivedMesh_eq sqrt m smoothShading hb]
  simp only [Option.bind_eq_bind, Option.some_bind]
  rw [hgrp']
  simp only [Option.some_bind, GetNumFacesOnGroup, hgrp', Option.bind_eq_bind, Option.pure_def,
    hfaces, List.map_cons, hfault, Option.none_bind]

/-- Counterexample to C2 as stated: the sample triangle in a mesh that holds
one normal, corners carrying the normal index `-1`.  The group index is valid,
the face has three corners and every position index is in range, yet a smooth
export reads `mNormals[-1]`: an out-of-range access, so no buffer is
delivered.  Likewise a flat export of the sample triangle in a mesh that holds
one texture coordinate, corners carrying the uv index `-1`, reads
`mUVs[-1]`. -/
theorem ExportToMeshGroup_positions_normal_index :
    PosInBounds (sampleWithNormal ℚ)
      ∧ (∃ group, index (sampleWithNormal ℚ).mGroups 0 = some group
          ∧ ∀ face ∈ group.mFaces, 3 ≤ face.VertexList.length)
      ∧ (∀ (Load : MeshGroup ℚ → Bool) (sqrt : ℚ → ℚ),
          ExportToMeshGroup Load sqrt (sampleWithNormal ℚ) 0 true = none)
      ∧ PosInBounds (sampleWithUV ℚ)
      ∧ (∃ group, index (sampleWithUV ℚ).mGroups 0 = some group
          ∧ ∀ face ∈ group.mFaces, 3 ≤ face.VertexList.length)
      ∧ ∀ (Load : MeshGroup ℚ → Bool) (sqrt : ℚ → ℚ),
          ExportToMeshGroup Load sqrt (sampleWithUV ℚ) 0 false = none := by
  have hbN : PosInBounds (sampleWithNormal ℚ) := by
    simp [PosInBounds, sampleWithNormal, sampleTriangle]
  have hbU : PosInBounds (sampleWithUV ℚ) := by
    simp [PosInBounds, sampleWithUV, sampleTriangle]
  have hgN : index (sampleWithNormal ℚ).mGroups 0
      = some ⟨"g", [⟨[⟨0, -1, -1⟩, ⟨1, -1, -1⟩, ⟨2, -1, -1⟩], Vec3.zero⟩]⟩ := by
    simp [index, sampleWithNormal, sampleTriangle]
  have hgU : index (sampleWithUV ℚ).mGroups 0
      = some ⟨"g", [⟨[⟨0, -1, -1⟩, ⟨1, -1, -1⟩, ⟨2, -1, -1⟩], Vec3.zero⟩]⟩ := by
    simp [index, sampleWithUV, sampleTriangle]
  refine ⟨hbN, ⟨_, hgN, by simp⟩, ?_, hbU, ⟨_, hgU, by simp⟩, ?_⟩
  · intro Load sqrt
    exact export_fault Load sqrt (sampleWithNormal ℚ) 0 true _ _ [] ⟨0, -1, -1⟩ hgN hbN rfl
      (by simp)
      (Or.inl ⟨rfl, by simp [sampleWithNormal], by simp [index]⟩)
  · intro Load sqrt
    exact export_fault Load sqrt (sampleWithUV ℚ) 0 false _ _ [] ⟨0, -1, -1⟩ hgU hbU rfl
      (by simp)
      (Or.inr ⟨by simp [sampleWithUV], by simp [index]⟩)

end gloo

namespace gloo
variable {F : Type}

/-! ### Corner normal indices against a non-empty normals array -/

/-- C7: evaluation of the code on the sample triangle in a mesh that already
holds one normal, for any square root and either flag: the call returns, the
old entry `(9, 9, 9)` stays at place 0 and the three normals of this call are
appended at places 1, 2, 3, but the corners are given the normal indices
0, 1, 2 (their position indices), not `1 + position index`; corner 0 thus
points at the old entry. -/
theorem ComputeVertexNormals_points_at_old_entries (sqrt : ℚ → ℚ) (normalize : Bool) :
    PosInBounds (sampleWithNormal ℚ)
      ∧ ∃ m', ComputeVertexNormals sqrt normalize (sampleWithNormal ℚ) = some m'
        ∧ m'.mNormals.length = 1 + 3
        ∧ m'.mNormals[0]? = some ⟨9, 9, 9⟩
        ∧ m'.mGroups.map (fun group => group.mFaces.map Face.VertexList)
            = [[[⟨0, -1, 0⟩, ⟨1, -1, 1⟩, ⟨2, -1, 2⟩]]]
        ∧ ∀ group ∈ m'.mGroups, ∀ face ∈ group.mFaces, ∀ corner ∈ face.VertexList,
            corner.nor = corner.pos
              ∧ corner.nor ≠ ((sampleWithNormal ℚ).mNormals.length : Int) + corner.pos := by
  have hb : PosInBounds (sampleWithNormal ℚ) := by
    simp [PosInBounds, sampleWithNormal, sampleTriangle]
  refine ⟨hb, _, ComputeVertexNormals_eq sqrt normalize (sampleWithNormal ℚ) hb, ?_, ?_, ?_, ?_⟩
  · simp [sampleWithNormal, sampleTriangle]
  · simp [sampleWithNormal, sampleTriangle]
  · simp [mapFaces, pointAtOwnVertex, withFaceNormal_VertexList, sampleWithNormal,
      sampleTriangle]
  · intro group hg face hf corner hc
    obtain ⟨h1, _, _⟩ := corners_after_vertex_normals sqrt (sampleWithNormal ℚ) hb group face
      corner hg hf hc
    refine ⟨h1, ?_⟩
    rw [h1]
    simp [sampleWithNormal, sampleTriangle]

/-! ### The derivation step selected by the export -/

theorem ite_pair_fst {α β : Type} (c : Prop) [Decidable c] (d d' : α) (a b r : β)
    (h : (if c then some (d, a) else some (d, b)) = some (d', r)) : d = d' := by
  split at h
  · simp only [Option.some.injEq, Prod.mk.injEq] at h
    exact h.1
  · simp only [Option.some.injEq, Prod.mk.injEq] at h
    exact h.1

theorem export_state [Field F] (Load : MeshGroup F → Bool) (sqrt : F → F) (m : ObjMesh F)
    (g : Int) (smoothShading : Bool) (group : ObjGroup F)
    (hgrp : index m.mGroups g = some group) (m' : ObjMesh F) (r : Option (MeshGroup F))
    (h : ExportToMeshGroup Load sqrt m g smoothShading = some (m', r)) :
    derivedMesh sqrt m smoothShading = some m' := by
  have hg0 : ¬ (g < 0 ∧ toSizeT g > m.mGroups.length) := by
    intro hcontra
    have := (index_nonneg m.mGroups g group hgrp).1
    omega
  unfold ExportToMeshGroup at h
  rw [if_neg hg0, hgrp] at h
  simp only [] at h
  rw [derive_eq_derivedMesh] at h
  cases hd : derivedMesh sqrt m smoothShading with
  | none =>
    rw [hd] at h
    simp at h
  | some d =>
    rw [hd] at h
    simp only [Option.bind_eq_bind, Option.some_bind, Option.bind_eq_some] at h
    obtain ⟨_, _, _, _, _, _, hres⟩ := h
    simp only [Option.pure_def] at hres
    exact congrArg some (ite_pair_fst _ _ _ _ _ _ hres)

/-- C8: for a valid group index, whenever `ExportToMeshGroup` returns, the mesh
it leaves is: the result of `ComputeVertexNormals(true)` when smooth shading is
asked for and the normals array is empty; the result of
`ComputeFaceNormals(true)` when flat shading is asked for, whatever the normals
array holds; the unchanged mesh when smooth shading is asked for and normals
exist.  And it does return, with that state, on every mesh that is ready for
the export. -/
theorem ExportToMeshGroup_derivation [Field F] (Load : MeshGroup F → Bool) (sqrt : F → F)
    (m : ObjMesh F) (g : Int) (smoothShading : Bool) (group : ObjGroup F)
    (hgrp : index m.mGroups g = some group) :
    (∀ (m' : ObjMesh F) (r : Option (MeshGroup F)),
        ExportToMeshGroup Load sqrt m g smoothShading = some (m', r) →
          (smoothShading = true → m.mNormals = [] →
              ComputeVertexNormals sqrt true m = some m')
            ∧ (smoothShading = false → ComputeFaceNormals sqrt true m = some m')
            ∧ (smoothShading = true → m.mNormals ≠ [] → m' = m))
      ∧ (ExportReady m group smoothShading →
          ∃ m' r, ExportToMeshGroup Load sqrt m g smoothShading = some (m', r)
            ∧ (smoothShading = true → m.mNormals = [] →
                ComputeVertexNormals sqrt true m = some m')
            ∧ (smoothShading = false → ComputeFaceNormals sqrt true m = some m')
            ∧ (smoothShading = true → m.mNormals ≠ [] → m' = m)) := by
  have hcases : ∀ m' : ObjMesh F, derivedMesh sqrt m smoothShading = some m' →
      (smoothShading = true → m.mNormals = [] → ComputeVertexNormals sqrt true m = some m')
        ∧ (smoothShading = false → ComputeFaceNormals sqrt true m = some m')
        ∧ (smoothShading = true → m.mNormals ≠ [] → m' = m) := by
    intro m' hd
    unfold derivedMesh at hd
    refine ⟨?_, ?_, ?_⟩
    · intro hs hN
      subst hs
      rw [hN] at hd
      exact hd
    · intro hs
      subst hs
      exact hd
    · intro hs hN
      subst hs
      cases hN' : m.mNormals with
      | nil => exact absurd hN' hN
      | cons n rest =>
        rw [hN'] at hd
        simp only [Option.some.injEq] at hd
        exact hd.symm
  refine ⟨?_, ?_⟩
  · intro m' r h
    exact hcases m' (export_state Load sqrt m g smoothShading group hgrp m' r h)
  · intro hr
    have h := export_ready Load sqrt m g smoothShading group hgrp hr
    exact ⟨_, _, h, hcases _ (export_state Load sqrt m g smoothShading group hgrp _ _ h)⟩

/-- Witness for C8: a flat export of the sample triangle leaves the mesh as
`ComputeFaceNormals(true)` does. -/
theorem ExportToMeshGroup_derivation_witness :
    ∃ m' r, ExportToMeshGroup (fun _ => true) (fun x : ℚ => x) (sampleTriangle ℚ) 0 false
        = some (m', r)
      ∧ ComputeFaceNormals (fun x : ℚ => x) true (sampleTriangle ℚ) = some m' := by
  obtain ⟨m', r, h1, _, h3, _⟩ :=
    (ExportToMeshGroup_derivation (fun _ => true) (fun x : ℚ => x) (sampleTriangle ℚ) 0 false
      ⟨"g", [⟨[⟨0, -1, -1⟩, ⟨1, -1, -1⟩, ⟨2, -1, -1⟩], Vec3.zero⟩]⟩
      (sampleTriangle_group ℚ)).2 (sampleTriangle_ready ℚ false)
  exact ⟨m', r, h1, h3 rfl⟩

end gloo

namespace gloo
variable {F : Type}

/-! ### The normal buffer -/

theorem getElem?_map_some {α β : Type} (f : α → β) (l : List α) (i : Nat) (b : β)
    (h : (l.map f)[i]? = some b) : ∃ a, l[i]? = some a ∧ f a = b := by
  rw [List.getElem?_map] at h
  cases ha : l[i]? with
  | none =>
    rw [ha] at h
    cases h
  | some a =>
    rw [ha] at h
    exact ⟨a, rfl, Option.some.inj h⟩

theorem derivedCorner_flat (m : ObjMesh F) (corner : Corner) :
    derivedCorner m false corner = corner := by
  unfold derivedCorner
  rfl

theorem derivedFace_flat [Field F] (sqrt : F → F) (m : ObjMesh F) (face : Face F)
    (c0 c1 c2 : Corner) (p0 p1 p2 : Vec3 F) (hv : face.VertexList = [c0, c1, c2])
    (h0 : index m.mVertices c0.pos = some p0) (h1 : index m.mVertices c1.pos = some p1)
    (h2 : index m.mVertices c2.pos = some p2) :
    (derivedFace sqrt m false face).VertexList = [c0, c1, c2]
      ∧ (derivedFace sqrt m false face).mNormal
          = Vec3.normalize sqrt (Vec3.cross (p1.sub p0) (p2.sub p0)) := by
  refine ⟨?_, ?_⟩
  · simp [derivedFace, hv, derivedCorner_flat]
  · simp [derivedFace, derivedFaceNormal, withFaceNormal, hv, crossNormal, vertexAt, h0, h1, h2]

theorem cornerNormals_length [Field F] (smoothShading : Bool) (m : ObjMesh F) (face : Face F)
    (corner : Corner) : (cornerNormals smoothShading m face corner).length = 3 := by
  unfold cornerNormals
  split <;> rfl

/-- C9: for a valid group index whose group has `F` triangular faces, on a mesh
ready for the export, `ExportToMeshGroup` hands `Load` a normal buffer of
exactly `9F` scalars; for face `i` and corner `c` of the group as the call
leaves it, the three scalars from offset `9i+3c` are, under smooth shading,
the vector `normals[normal index of the corner]`, and, under flat shading, the
cached normal of face `i`, which is the normalized cross product
`normalize(cross(p1 - p0, p2 - p0))` of the face's corner positions, the same
for all three corners. -/
theorem ExportToMeshGroup_normals [Field F] (Load : MeshGroup F → Bool) (sqrt : F → F)
    (m : ObjMesh F) (g : Int) (smoothShading : Bool) (group : ObjGroup F)
    (hgrp : index m.mGroups g = some group) (hr : ExportReady m group smoothShading)
    (htri : ∀ face ∈ group.mFaces, face.VertexList.length = 3) :
    ∃ m' mg N group',
      ExportToMeshGroup Load sqrt m g smoothShading
          = some (m', if Load mg then some mg else none)
        ∧ index m'.mGroups g = some group'
        ∧ group'.mFaces.length = group.mFaces.length
        ∧ mg.bufferList[1]? = some N
        ∧ N.length = 9 * group.mFaces.length
        ∧ ∀ (i c : Nat) (face : Face F) (corner : Corner),
            group'.mFaces[i]? = some face → face.VertexList[c]? = some corner → c < 3 →
            (smoothShading = true →
              ∃ n, index m'.mNormals corner.nor = some n
                ∧ N[9 * i + 3 * c]? = some n.x
                ∧ N[9 * i + 3 * c + 1]? = some n.y
                ∧ N[9 * i + 3 * c + 2]? = some n.z)
            ∧ (smoothShading = false →
              (∃ c0 c1 c2 p0 p1 p2, face.VertexList = [c0, c1, c2]
                ∧ index m.mVertices c0.pos = some p0
                ∧ index m.mVertices c1.pos = some p1
                ∧ index m.mVertices c2.pos = some p2
                ∧ face.mNormal = Vec3.normalize sqrt (Vec3.cross (p1.sub p0) (p2.sub p0)))
              ∧ N[9 * i + 3 * c]? = some face.mNormal.x
              ∧ N[9 * i + 3 * c + 1]? = some face.mNormal.y
              ∧ N[9 * i + 3 * c + 2]? = some face.mNormal.z) := by
  have hmem : group ∈ m.mGroups := mem_of_index _ _ _ hgrp
  have hthree := derivedFaces_three sqrt m smoothShading group.mFaces
    (fun face hface => (hr.2 face hface).1)
  have hready := derivedState_ready sqrt m group smoothShading hmem hr
  have hgrp' : index (derivedState sqrt m smoothShading).mGroups g
      = some { group with mFaces := group.mFaces.map (derivedFace sqrt m smoothShading) } := by
    unfold derivedState
    simp only
    rw [index_mapFaces, hgrp]
    rfl
  refine ⟨_, _,
    (flatBuffers smoothShading (decide (m.mUVs.length > 0)) (derivedState sqrt m smoothShading)
      (group.mFaces.map (derivedFace sqrt m smoothShading))).groupNormals,
    _, export_ready Load sqrt m g smoothShading group hgrp hr, hgrp', ?_, ?_, ?_, ?_⟩
  · simp
  · simp [flatMeshGroup]
  · unfold flatBuffers
    simp only
    rw [flat_length 3
      (fun face corner =>
        cornerNormals smoothShading (derivedState sqrt m smoothShading) face corner)
      (fun face corner => cornerNormals_length _ _ face corner) _ hthree]
    simp
  · intro i c face corner hi hc hc3
    simp only at hi
    have hfmem : face ∈ group.mFaces.map (derivedFace sqrt m smoothShading) :=
      List.getElem?_mem hi
    have hget : ∀ k, k < 3 →
        (flatBuffers smoothShading (decide (m.mUVs.length > 0))
            (derivedState sqrt m smoothShading)
            (group.mFaces.map (derivedFace sqrt m smoothShading))).groupNormals[
              9 * i + 3 * c + k]?
          = (cornerNormals smoothShading (derivedState sqrt m smoothShading) face corner)[k]? := by
      intro k hk
      unfold flatBuffers
      simp only
      exact flat_get_three
        (fun face corner =>
          cornerNormals smoothShading (derivedState sqrt m smoothShading) face corner)
        (fun face corner => cornerNormals_length _ _ face corner) _ hthree i c k face corner
        hi hc hc3 hk
    refine ⟨?_, ?_⟩
    · intro hs
      subst hs
      have hctake : corner ∈ face.VertexList.take 3 := by
        apply List.getElem?_mem
        rw [take_three_get _ c hc3]
        exact hc
      obtain ⟨_, hn, _⟩ := (hready face hfmem).2 corner hctake
      obtain ⟨n, hidx, _⟩ := index_eq_some_of_bounds
        (derivedState sqrt m true).mNormals corner.nor (hn rfl).1 (hn rfl).2
      have hcn : cornerNormals true (derivedState sqrt m true) face corner = [n.x, n.y, n.z] := by
        simp [cornerNormals, vertexAt, hidx]
      have h0 := hget 0 (by decide)
      have h1 := hget 1 (by decide)
      have h2 := hget 2 (by decide)
      rw [hcn] at h0 h1 h2
      exact ⟨n, hidx, h0, h1, h2⟩
    · intro hs
      subst hs
      obtain ⟨face0, hi0, hface0⟩ := getElem?_map_some _ _ i face hi
      have hf0mem : face0 ∈ group.mFaces := List.getElem?_mem hi0
      have hcn : cornerNormals false (derivedState sqrt m false) face corner
          = [face.mNormal.x, face.mNormal.y, face.mNormal.z] := by
        simp [cornerNormals]
      have h0 := hget 0 (by decide)
      have h1 := hget 1 (by decide)
      have h2 := hget 2 (by decide)
      rw [hcn] at h0 h1 h2
      refine ⟨?_, h0, h1, h2⟩
      · match hv : face0.VertexList, htri face0 hf0mem with
        | [c0, c1, c2], _ =>
          have hb := hr.1 group hmem face0 hf0mem
          rw [hv] at hb
          obtain ⟨p0, hp0, _⟩ := index_eq_some_of_bounds m.mVertices c0.pos
            (hb c0 (by simp)).1 (hb c0 (by simp)).2
          obtain ⟨p1, hp1, _⟩ := index_eq_some_of_bounds m.mVertices c1.pos
            (hb c1 (by simp)).1 (hb c1 (by simp)).2
          obtain ⟨p2, hp2, _⟩ := index_eq_some_of_bounds m.mVertices c2.pos
            (hb c2 (by simp)).1 (hb c2 (by simp)).2
          obtain ⟨hvl, hnorm⟩ := derivedFace_flat sqrt m face0 c0 c1 c2 p0 p1 p2 hv hp0 hp1 hp2
          rw [hface0] at hvl hnorm
          exact ⟨c0, c1, c2, p0, p1, p2, hvl, hp0, hp1, hp2, hnorm⟩

/-- Witness for C9: a flat export of the sample triangle; the normal buffer has
nine scalars. -/
theorem ExportToMeshGroup_normals_witness :
    ∃ m' mg N,
      ExportToMeshGroup (fun _ => true) (fun x : ℚ => x) (sampleTriangle ℚ) 0 false
          = some (m', if (fun _ => true) mg then some mg else none)
        ∧ mg.bufferList[1]? = some N ∧ N.length = 9 * 1 := by
  obtain ⟨m', mg, N, _, h1, _, _, h4, h5, _⟩ :=
    ExportToMeshGroup_normals (fun _ => true) (fun x : ℚ => x) (sampleTriangle ℚ) 0 false
      ⟨"g", [⟨[⟨0, -1, -1⟩, ⟨1, -1, -1⟩, ⟨2, -1, -1⟩], Vec3.zero⟩]⟩
      (sampleTriangle_group ℚ) (sampleTriangle_ready ℚ false) (by simp)
  exact ⟨m', mg, N, h1, h4, h5⟩

end gloo

namespace gloo
variable {F : Type}

/-! ### The UV buffer and the attribute sizes -/

theorem cornerUVs_length [Field F] (m : ObjMesh F) (corner : Corner) :
    (cornerUVs true m corner).length = 2 := by
  simp [cornerUVs]

theorem flat_uvs_empty [Field F] (smoothShading : Bool) (m : ObjMesh F)
    (faces : List (Face F)) : (flatBuffers smoothShading false m faces).groupUVs = [] := by
  unfold flatBuffers
  simp [cornerUVs]

/-- C10: for a valid group index whose group has `F` faces, on a mesh ready for
the export (every index the export evaluates is in range).  If the uv array is
non-empty, the attribute sizes handed over are `[3, 3, 2]` and the third buffer
has exactly `6F` scalars, holding `uvs[uv index of corner c of face i]` at
offsets `6i+2c`, `6i+2c+1`.  If the uv array is empty, the attribute sizes are
`[3, 3]`, only two buffers are handed over, the loop's UV buffer stays empty,
and the call returns whatever the uv indices are (readiness asks nothing of
them). -/
theorem ExportToMeshGroup_uvs [Field F] (Load : MeshGroup F → Bool) (sqrt : F → F)
    (m : ObjMesh F) (g : Int) (smoothShading : Bool) (group : ObjGroup F)
    (hgrp : index m.mGroups g = some group) (hr : ExportReady m group smoothShading) :
    ∃ m' mg group',
      ExportToMeshGroup Load sqrt m g smoothShading
          = some (m', if Load mg then some mg else none)
        ∧ m'.mUVs = m.mUVs
        ∧ index m'.mGroups g = some group'
        ∧ (m.mUVs ≠ [] →
            mg.vertexAttribList = [3, 3, 2] ∧ mg.bufferList.length = 3
              ∧ ∃ T, mg.bufferList[2]? = some T
                ∧ T.length = 6 * group.mFaces.length
                ∧ ∀ (i c : Nat) (face : Face F) (corner : Corner),
                    group.mFaces[i]? = some face → face.VertexList[c]? = some corner →
                    c < 3 →
                    ∃ t, index m.mUVs corner.uv = some t
                      ∧ T[6 * i + 2 * c]? = some t.x
                      ∧ T[6 * i + 2 * c + 1]? = some t.y)
        ∧ (m.mUVs = [] →
            mg.vertexAttribList = [3, 3] ∧ mg.bufferList.length = 2
              ∧ ∃ bufs, exportFaces smoothShading false m' group'.mFaces = some bufs
                ∧ bufs.groupUVs = []) := by
  have hmem : group ∈ m.mGroups := mem_of_index _ _ _ hgrp
  have hthree := derivedFaces_three sqrt m smoothShading group.mFaces
    (fun face hface => (hr.2 face hface).1)
  have hready := derivedState_ready sqrt m group smoothShading hmem hr
  have hgrp' : index (derivedState sqrt m smoothShading).mGroups g
      = some { group with mFaces := group.mFaces.map (derivedFace sqrt m smoothShading) } := by
    unfold derivedState
    simp only
    rw [index_mapFaces, hgrp]
    rfl
  refine ⟨_, _, _, export_ready Load sqrt m g smoothShading group hgrp hr, rfl, hgrp', ?_, ?_⟩
  · intro hU
    have hdec := hasUVs_true m hU
    rw [hdec]
    refine ⟨by simp [flatMeshGroup], by simp [flatMeshGroup],
      (flatBuffers smoothShading true (derivedState sqrt m smoothShading)
        (group.mFaces.map (derivedFace sqrt m smoothShading))).groupUVs,
      by simp [flatMeshGroup], ?_, ?_⟩
    · unfold flatBuffers
      simp only
      rw [flat_length 2
        (fun _ corner => cornerUVs true (derivedState sqrt m smoothShading) corner)
        (fun _ corner => cornerUVs_length _ corner) _ hthree]
      simp
    · intro i c face corner hi hc hc3
      obtain ⟨hi', hc'⟩ := derivedFace_get sqrt m smoothShading group.mFaces i c face corner
        hi hc
      obtain ⟨_, hu⟩ := (hr.2 face (List.getElem?_mem hi)).2 corner (List.getElem?_mem hc)
      obtain ⟨t, ht, _⟩ := index_eq_some_of_bounds m.mUVs corner.uv (hu hU).1 (hu hU).2
      have hcu : cornerUVs true (derivedState sqrt m smoothShading)
          (derivedCorner m smoothShading corner) = [t.x, t.y] := by
        unfold cornerUVs
        rw [derivedCorner_uv]
        have : uvAt (derivedState sqrt m smoothShading).mUVs corner.uv = t := by
          unfold derivedState uvAt
          simp [ht]
        simp [this]
      have hget : ∀ k, k < 2 →
          (flatBuffers smoothShading true (derivedState sqrt m smoothShading)
              (group.mFaces.map (derivedFace sqrt m smoothShading))).groupUVs[
                6 * i + 2 * c + k]?
            = [t.x, t.y][k]? := by
        intro k hk
        unfold flatBuffers
        simp only
        have h := flat_get_two
          (fun _ corner => cornerUVs true (derivedState sqrt m smoothShading) corner)
          (fun _ corner => cornerUVs_length _ corner) _ hthree i c k _ _ hi' hc' hc3 hk
        beta_reduce at h
        rw [hcu] at h
        exact h
      exact ⟨t, ht, hget 0 (by decide), hget 1 (by decide)⟩
  · intro hU
    have hdec := hasUVs_false m hU
    rw [hdec] at hready ⊢
    refine ⟨by simp [flatMeshGroup], by simp [flatMeshGroup], _,
      exportFaces_eq smoothShading false (derivedState sqrt m smoothShading) _ hready, ?_⟩
    exact flat_uvs_empty smoothShading _ _

/-- Witness for C10: a flat export of the textured sample triangle declares
the attribute sizes `[3, 3, 2]`. -/
theorem ExportToMeshGroup_uvs_witness :
    ∃ m' mg,
      ExportToMeshGroup (fun _ => true) (fun x : ℚ => x) (sampleTextured ℚ) 0 false
          = some (m', if (fun _ => true) mg then some mg else none)
        ∧ mg.vertexAttribList = [3, 3, 2] ∧ mg.bufferList.length = 3 := by
  have hgrp : index (sampleTextured ℚ).mGroups 0
      = some ⟨"t", [⟨[⟨0, 0, -1⟩, ⟨1, 1, -1⟩, ⟨2, 2, -1⟩], Vec3.zero⟩]⟩ := by
    simp [index, sampleTextured]
  have hr : ExportReady (sampleTextured ℚ)
      ⟨"t", [⟨[⟨0, 0, -1⟩, ⟨1, 1, -1⟩, ⟨2, 2, -1⟩], Vec3.zero⟩]⟩ false := by
    refine ⟨by simp [PosInBounds, sampleTextured], ?_⟩
    simp [sampleTextured]
  obtain ⟨m', mg, _, h1, _, _, h4, _⟩ :=
    ExportToMeshGroup_uvs (fun _ => true) (fun x : ℚ => x) (sampleTextured ℚ) 0 false
      ⟨"t", [⟨[⟨0, 0, -1⟩, ⟨1, 1, -1⟩, ⟨2, 2, -1⟩], Vec3.zero⟩]⟩ hgrp hr
  have hU : (sampleTextured ℚ).mUVs ≠ [] := by simp [sampleTextured]
  exact ⟨m', mg, h1, (h4 hU).1, (h4 hU).2.1⟩

end gloo

namespace gloo
variable {F : Type}

/-! ### `Clear` and `GetNumFaces` -/

/-- C12: after `Clear()` the positions, normals and uvs arrays are empty and
every group's face list is empty, while the number of groups, their order and
their names are as before. -/
theorem Clear_spec (m : ObjMesh F) :
    (Clear m).mVertices = [] ∧ (Clear m).mNormals = [] ∧ (Clear m).mUVs = []
      ∧ (∀ group ∈ (Clear m).mGroups, group.mFaces = [])
      ∧ (Clear m).mGroups.length = m.mGroups.length
      ∧ (Clear m).mGroups.map ObjGroup.mName = m.mGroups.map ObjGroup.mName
      ∧ ∀ (g : Nat) (group : ObjGroup F), m.mGroups[g]? = some group →
          (Clear m).mGroups[g]? = some { mName := group.mName, mFaces := [] } := by
  refine ⟨rfl, rfl, rfl, ?_, ?_, ?_, ?_⟩
  · intro group hgroup
    unfold Clear at hgroup
    obtain ⟨group0, _, rfl⟩ := List.mem_map.mp hgroup
    rfl
  · simp [Clear]
  · simp [Clear, Function.comp_def]
  · intro g group hg
    simp [Clear, hg]

theorem GetNumFaces_fold (groups : List (ObjGroup F)) :
    ∀ count : Nat,
      groups.foldl (fun count group => count + group.mFaces.length) count
        = count + (groups.map (fun group => group.mFaces.length)).sum := by
  induction groups with
  | nil => intro count; simp
  | cons group rest ih =>
    intro count
    rw [List.foldl_cons, ih, List.map_cons, List.sum_cons, Nat.add_assoc]

/-- C13: `GetNumFaces()` is the sum over all groups of the length of the
group's face list; it is 0 for a mesh without groups and 0 right after
`Clear()`.  (The method is `const`: it is a function of the mesh that returns
only the count.) -/
theorem GetNumFaces_spec (m : ObjMesh F) :
    m.GetNumFaces = (m.mGroups.map (fun group => group.mFaces.length)).sum
      ∧ (m.mGroups = [] → m.GetNumFaces = 0)
      ∧ (Clear m).GetNumFaces = 0 := by
  have hsum : ∀ m : ObjMesh F,
      m.GetNumFaces = (m.mGroups.map (fun group => group.mFaces.length)).sum := by
    intro m
    unfold ObjMesh.GetNumFaces
    rw [GetNumFaces_fold, Nat.zero_add]
  refine ⟨hsum m, ?_, ?_⟩
  · intro hnil
    rw [hsum, hnil]
    rfl
  · rw [hsum]
    simp [Clear, Function.comp_def]

end gloo

namespace gloo
variable {F : Type}

/-! ### `TriangulateQuads` twice -/

theorem keepTriangle_not_quad (face : Face F) : (keepTriangle face).VertexList.length ≠ 4 := by
  by_cases h : face.VertexList.length = 4
  · match hv : face.VertexList, h with
    | [a, b, c, d], _ =>
      simp [keepTriangle, hv]
  · rw [keepTriangle_of_not_quad face h]
    exact h

theorem splitTriangle_not_quad (fresh : Vec3 F) (face t : Face F)
    (ht : t ∈ splitTriangle fresh face) : t.VertexList.length ≠ 4 := by
  by_cases h : face.VertexList.length = 4
  · match hv : face.VertexList, h with
    | [a, b, c, d], _ =>
      simp only [splitTriangle, hv, List.mem_singleton] at ht
      rw [ht]
      simp
  · rw [splitTriangle_of_not_quad fresh face h] at ht
    cases ht

theorem triangulatedFaces_no_quad (fresh : Vec3 F) (faces : List (Face F)) :
    ∀ face ∈ triangulatedFaces fresh faces, face.VertexList.length ≠ 4 := by
  intro face hface
  unfold triangulatedFaces at hface
  rcases List.mem_append.mp hface with h | h
  · obtain ⟨face0, _, rfl⟩ := List.mem_map.mp h
    exact keepTriangle_not_quad face0
  · obtain ⟨face0, _, hmem⟩ := List.mem_flatMap.mp h
    exact splitTriangle_not_quad fresh face0 face hmem

theorem triangulatedFaces_of_no_quad (fresh : Vec3 F) (faces : List (Face F))
    (h : ∀ face ∈ faces, face.VertexList.length ≠ 4) :
    triangulatedFaces fresh faces = faces := by
  unfold triangulatedFaces
  have hkeep : faces.map keepTriangle = faces := by
    conv_rhs => rw [← List.map_id faces]
    apply List.map_congr_left
    intro face hface
    exact keepTriangle_of_not_quad face (h face hface)
  have hsplit : faces.flatMap (splitTriangle fresh) = [] := by
    rw [List.flatMap_eq_nil_iff]
    intro face hface
    exact splitTriangle_of_not_quad fresh face (h face hface)
  rw [hkeep, hsplit, List.append_nil]

/-- C18: after one call of `TriangulateQuads` no face of any group has exactly
four corners, and a second call (whatever normal its new faces would carry)
returns the mesh exactly as the first call left it. -/
theorem TriangulateQuads_idempotent (fresh fresh2 : Vec3 F) (m : ObjMesh F) :
    (∀ group ∈ (TriangulateQuads fresh m).mGroups, ∀ face ∈ group.mFaces,
        face.VertexList.length ≠ 4)
      ∧ TriangulateQuads fresh2 (TriangulateQuads fresh m) = TriangulateQuads fresh m := by
  have hno : ∀ group ∈ (TriangulateQuads fresh m).mGroups, ∀ face ∈ group.mFaces,
      face.VertexList.length ≠ 4 := by
    intro group hgroup face hface
    rw [TriangulateQuads_eq] at hgroup
    obtain ⟨group0, _, rfl⟩ := List.mem_map.mp hgroup
    exact triangulatedFaces_no_quad fresh group0.mFaces face hface
  refine ⟨hno, ?_⟩
  rw [TriangulateQuads_eq fresh2 (TriangulateQuads fresh m)]
  have hgroups : (TriangulateQuads fresh m).mGroups.map
      (fun group => { group with mFaces := triangulatedFaces fresh2 group.mFaces })
      = (TriangulateQuads fresh m).mGroups := by
    conv_rhs => rw [← List.map_id (TriangulateQuads fresh m).mGroups]
    apply List.map_congr_left
    intro group hgroup
    rw [triangulatedFaces_of_no_quad fresh2 group.mFaces (hno group hgroup)]
    rfl
  rw [hgroups]

/-! ### Index bounds after `ComputeVertexNormals` -/

/-- C16: on a mesh whose position indices are all in range,
`ComputeVertexNormals` returns a mesh in which every corner's normal index (of
every face, whatever its corner count, in every group) is in range of the
normals array, the normals array has grown by exactly one entry per position,
the positions array is unchanged and every position index is still in
range. -/
theorem ComputeVertexNormals_index_bounds [Field F] (sqrt : F → F) (normalize : Bool)
    (m : ObjMesh F) (h : PosInBounds m) :
    ∃ m', ComputeVertexNormals sqrt normalize m = some m'
      ∧ m'.mNormals.length = m.mNormals.length + m.mVertices.length
      ∧ m'.mVertices = m.mVertices
      ∧ shape m'.mGroups = shape m.mGroups
      ∧ PosInBounds m'
      ∧ ∀ group ∈ m'.mGroups, ∀ face ∈ group.mFaces, ∀ corner ∈ face.VertexList,
          0 ≤ corner.nor ∧ corner.nor < (m'.mNormals.length : Int) := by
  obtain ⟨m', hm', hlen, _, hshape, hcorners, _⟩ := vertex_normals_indices sqrt normalize m h
  have hv : m'.mVertices = m.mVertices := by
    rw [ComputeVertexNormals_eq sqrt normalize m h] at hm'
    rw [← Option.some.inj hm']
  refine ⟨m', hm', hlen, hv, hshape, ?_, ?_⟩
  · intro group hgroup face hface corner hcorner
    rw [hv]
    exact (hcorners group hgroup face hface corner hcorner).2
  · intro group hgroup face hface corner hcorner
    obtain ⟨h1, h2, h3⟩ := hcorners group hgroup face hface corner hcorner
    rw [h1, hlen]
    refine ⟨h2, ?_⟩
    push_cast
    omega

/-- Witness for C16: the sample triangle in a mesh that already holds one
normal; the normals array grows from 1 to 4 entries. -/
theorem ComputeVertexNormals_index_bounds_witness :
    ∃ m', ComputeVertexNormals (fun x : ℚ => x) true (sampleWithNormal ℚ) = some m'
      ∧ m'.mNormals.length = (sampleWithNormal ℚ).mNormals.length
          + (sampleWithNormal ℚ).mVertices.length
      ∧ PosInBounds m' := by
  obtain ⟨m', h1, h2, _, _, h5, _⟩ :=
    ComputeVertexNormals_index_bounds (fun x : ℚ => x) true (sampleWithNormal ℚ)
      (by simp [PosInBounds, sampleWithNormal, sampleTriangle])
  exact ⟨m', h1, h2, h5⟩

end gloo

namespace gloo
variable {F : Type}

/-! ### `ComputeVertexNormals` is defined exactly on meshes with position indices in range -/

theorem pushAdjacent_some (adj adj' : List (List FacePtr)) (k : Int) (p : FacePtr)
    (h : pushAdjacent adj k p = some adj') :
    (0 ≤ k ∧ k < (adj.length : Int)) ∧ adj'.length = adj.length := by
  unfold pushAdjacent at h
  cases hidx : index adj k with
  | none =>
    rw [hidx] at h
    cases h
  | some entry =>
    rw [hidx] at h
    simp only [Option.bind_eq_bind, Option.some_bind, Option.pure_def, Option.some.injEq] at h
    refine ⟨index_nonneg adj k entry hidx, ?_⟩
    rw [← h, List.length_set]

theorem corners_fold_some (p : FacePtr) (corners : List Corner) :
    ∀ (adj adj' : List (List FacePtr)),
      corners.foldlM (fun acc corner => pushAdjacent acc corner.pos p) adj = some adj' →
      (∀ corner ∈ corners, 0 ≤ corner.pos ∧ corner.pos < (adj.length : Int))
        ∧ adj'.length = adj.length := by
  induction corners with
  | nil =>
    intro adj adj' h
    simp only [List.foldlM_nil, Option.pure_def, Option.some.injEq] at h
    subst h
    exact ⟨fun _ hc => absurd hc (List.not_mem_nil _), rfl⟩
  | cons c rest ih =>
    intro adj adj' h
    rw [List.foldlM_cons] at h
    cases hpush : pushAdjacent adj c.pos p with
    | none =>
      rw [hpush] at h
      cases h
    | some adj1 =>
      rw [hpush] at h
      simp only [Option.bind_eq_bind, Option.some_bind] at h
      obtain ⟨hc, hlen1⟩ := pushAdjacent_some adj adj1 c.pos p hpush
      obtain ⟨hrest, hlen⟩ := ih adj1 adj' h
      refine ⟨?_, by rw [hlen, hlen1]⟩
      intro corner hcorner
      rcases List.mem_cons.mp hcorner with rfl | hmem
      · exact hc
      · rw [← hlen1]
        exact hrest corner hmem

theorem faces_fold_some (g : Nat) (faces : List (Nat × Face F)) :
    ∀ (adj adj' : List (List FacePtr)),
      faces.foldlM
          (fun acc fi =>
            fi.2.VertexList.foldlM (fun acc corner => pushAdjacent acc corner.pos (g, fi.1)) acc)
          adj = some adj' →
      (∀ fi ∈ faces, ∀ corner ∈ fi.2.VertexList,
          0 ≤ corner.pos ∧ corner.pos < (adj.length : Int))
        ∧ adj'.length = adj.length := by
  induction faces with
  | nil =>
    intro adj adj' h
    simp only [List.foldlM_nil, Option.pure_def, Option.some.injEq] at h
    subst h
    exact ⟨fun _ hf => absurd hf (List.not_mem_nil _), rfl⟩
  | cons fi rest ih =>
    intro adj adj' h
    rw [List.foldlM_cons] at h
    cases hstep : fi.2.VertexList.foldlM
        (fun acc corner => pushAdjacent acc corner.pos (g, fi.1)) adj with
    | none =>
      rw [hstep] at h
      cases h
    | some adj1 =>
      rw [hstep] at h
      simp only [Option.bind_eq_bind, Option.some_bind] at h
      obtain ⟨hc, hlen1⟩ := corners_fold_some (g, fi.1) fi.2.VertexList adj adj1 hstep
      obtain ⟨hrest, hlen⟩ := ih adj1 adj' h
      refine ⟨?_, by rw [hlen, hlen1]⟩
      intro fj hfj
      rcases List.mem_cons.mp hfj with rfl | hmem
      · exact hc
      · rw [← hlen1]
        exact hrest fj hmem

theorem groups_fold_some (groups : List (Nat × ObjGroup F)) :
    ∀ (adj adj' : List (List FacePtr)),
      groups.foldlM
          (fun acc gi =>
            gi.2.mFaces.enum.foldlM
              (fun acc fi =>
                fi.2.VertexList.foldlM
                  (fun acc corner => pushAdjacent acc corner.pos (gi.1, fi.1)) acc)
              acc)
          adj = some adj' →
      (∀ gi ∈ groups, ∀ fi ∈ gi.2.mFaces.enum, ∀ corner ∈ fi.2.VertexList,
          0 ≤ corner.pos ∧ corner.pos < (adj.length : Int))
        ∧ adj'.length = adj.length := by
  induction groups with
  | nil =>
    intro adj adj' h
    simp only [List.foldlM_nil, Option.pure_def, Option.some.injEq] at h
    subst h
    exact ⟨fun _ hg => absurd hg (List.not_mem_nil _), rfl⟩
  | cons gi rest ih =>
    intro adj adj' h
    rw [List.foldlM_cons] at h
    cases hstep : gi.2.mFaces.enum.foldlM
        (fun acc fi =>
          fi.2.VertexList.foldlM
            (fun acc corner => pushAdjacent acc corner.pos (gi.1, fi.1)) acc)
        adj with
    | none =>
      rw [hstep] at h
      cases h
    | some adj1 =>
      rw [hstep] at h
      simp only [Option.bind_eq_bind, Option.some_bind] at h
      obtain ⟨hc, hlen1⟩ := faces_fold_some gi.1 gi.2.mFaces.enum adj adj1 hstep
      obtain ⟨hrest, hlen⟩ := ih adj1 adj' h
      refine ⟨?_, by rw [hlen, hlen1]⟩
      intro gj hgj
      rcases List.mem_cons.mp hgj with rfl | hmem
      · exact hc
      · rw [← hlen1]
        exact hrest gj hmem

theorem mem_enum_of_mem {α : Type} (l : List α) (a : α) (h : a ∈ l) :
    ∃ i, (i, a) ∈ l.enum := by
  obtain ⟨i, hi⟩ := List.mem_iff_getElem?.mp h
  exact ⟨i, List.mk_mem_enum_iff_getElem?.mpr hi⟩

theorem buildVertexFaces_some (m : ObjMesh F) (adj : List (List FacePtr))
    (h : buildVertexFaces m = some adj) : PosInBounds m := by
  unfold buildVertexFaces at h
  obtain ⟨hall, _⟩ := groups_fold_some m.mGroups.enum _ adj h
  intro group hgroup face hface corner hcorner
  obtain ⟨g, hg⟩ := mem_enum_of_mem m.mGroups group hgroup
  obtain ⟨f, hf⟩ := mem_enum_of_mem group.mFaces face hface
  have := hall (g, group) hg (f, face) hf corner hcorner
  simpa using this

theorem ComputeVertexNormals_some [Field F] (sqrt : F → F) (normalize : Bool)
    (m m' : ObjMesh F) (h : ComputeVertexNormals sqrt normalize m = some m') :
    PosInBounds m := by
  unfold ComputeVertexNormals at h
  cases hb : buildVertexFaces m with
  | none =>
    rw [hb] at h
    cases h
  | some adj => exact buildVertexFaces_some m adj hb

theorem ComputeVertexNormals_defined_iff [Field F] (sqrt : F → F) (normalize : Bool)
    (m : ObjMesh F) :
    (∃ m', ComputeVertexNormals sqrt normalize m = some m') ↔ PosInBounds m := by
  constructor
  · rintro ⟨m', h⟩
    exact ComputeVertexNormals_some sqrt normalize m m' h
  · intro h
    exact ⟨_, ComputeVertexNormals_eq sqrt normalize m h⟩

end gloo

namespace gloo
variable {F : Type}

/-! ### Scenario: the unit square, triangulated and exported with flat shading -/

theorem sampleQuad_triangulated (F : Type) [Field F] (fresh : Vec3 F) :
    TriangulateQuads fresh (sampleQuad F) = sampleQuadSplit F fresh := by
  rw [TriangulateQuads_eq]
  simp [sampleQuad, sampleQuadSplit, triangulatedFaces, keepTriangle, splitTriangle]

theorem sampleQuadSplit_group (F : Type) [Field F] (fresh : Vec3 F) :
    index (sampleQuadSplit F fresh).mGroups 0
      = some ⟨"q", [⟨[⟨0, -1, -1⟩, ⟨1, -1, -1⟩, ⟨2, -1, -1⟩], Vec3.zero⟩,
          ⟨[⟨0, -1, -1⟩, ⟨2, -1, -1⟩, ⟨3, -1, -1⟩], fresh⟩]⟩ := by
  simp [index, sampleQuadSplit]

theorem sampleQuadSplit_ready (F : Type) [Field F] (fresh : Vec3 F) :
    ExportReady (sampleQuadSplit F fresh)
      ⟨"q", [⟨[⟨0, -1, -1⟩, ⟨1, -1, -1⟩, ⟨2, -1, -1⟩], Vec3.zero⟩,
        ⟨[⟨0, -1, -1⟩, ⟨2, -1, -1⟩, ⟨3, -1, -1⟩], fresh⟩]⟩ false := by
  refine ⟨by simp [PosInBounds, sampleQuadSplit], ?_⟩
  simp [sampleQuadSplit]

theorem normalize_010 : Vec3.normalize Real.sqrt (⟨0, 1, 0⟩ : Vec3 ℝ) = ⟨0, 1, 0⟩ := by
  simp [Vec3.normalize, Vec3.dot, Vec3.scale]

theorem sampleQuadSplit_first (fresh : Vec3 ℝ) :
    derivedFace Real.sqrt (sampleQuadSplit ℝ fresh) false
        ⟨[⟨0, -1, -1⟩, ⟨1, -1, -1⟩, ⟨2, -1, -1⟩], Vec3.zero⟩
      = ⟨[⟨0, -1, -1⟩, ⟨1, -1, -1⟩, ⟨2, -1, -1⟩], ⟨0, 1, 0⟩⟩ := by
  have hc : crossNormal (sampleQuadSplit ℝ fresh).mVertices
      (⟨[⟨0, -1, -1⟩, ⟨1, -1, -1⟩, ⟨2, -1, -1⟩], Vec3.zero⟩ : Face ℝ) = ⟨0, 1, 0⟩ := by
    simp [crossNormal, vertexAt, index, sampleQuadSplit, Vec3.cross, Vec3.sub]
  simp [derivedFace, derivedFaceNormal, withFaceNormal, derivedCorner_flat, hc, normalize_010]

theorem sampleQuadSplit_second (fresh : Vec3 ℝ) :
    derivedFace Real.sqrt (sampleQuadSplit ℝ fresh) false
        ⟨[⟨0, -1, -1⟩, ⟨2, -1, -1⟩, ⟨3, -1, -1⟩], fresh⟩
      = ⟨[⟨0, -1, -1⟩, ⟨2, -1, -1⟩, ⟨3, -1, -1⟩], ⟨0, 1, 0⟩⟩ := by
  have hc : crossNormal (sampleQuadSplit ℝ fresh).mVertices
      (⟨[⟨0, -1, -1⟩, ⟨2, -1, -1⟩, ⟨3, -1, -1⟩], fresh⟩ : Face ℝ) = ⟨0, 1, 0⟩ := by
    simp [crossNormal, vertexAt, index, sampleQuadSplit, Vec3.cross, Vec3.sub]
  simp [derivedFace, derivedFaceNormal, withFaceNormal, derivedCorner_flat, hc, normalize_010]

/-- C11: the unit square of the plane `y = 0` given as one quad `{0,1,2,3}`:
`TriangulateQuads` leaves the two triangles `(0,1,2)` and `(0,2,3)`, and the
flat export of group 0 hands over 6 vertices, the 18 position scalars of the
corners `0,1,2,0,2,3`, and six normals all equal to `(0,1,0)` (over the reals,
whatever the upload answers and whatever normal a new face starts with). -/
theorem unit_square_flat_export (Load : MeshGroup ℝ → Bool) (fresh : Vec3 ℝ) :
    (TriangulateQuads fresh (sampleQuad ℝ)).mGroups.map
        (fun group => group.mFaces.map (fun face => face.VertexList.map Corner.pos))
      = [[[0, 1, 2], [0, 2, 3]]]
    ∧ ∃ m' mg,
        ExportToMeshGroup Load Real.sqrt (TriangulateQuads fresh (sampleQuad ℝ)) 0 false
            = some (m', if Load mg then some mg else none)
          ∧ mg.numVertices = 6
          ∧ mg.vertexAttribList = [3, 3]
          ∧ mg.bufferList
              = [[0, 0, 0, 0, 0, 1, 1, 0, 1, 0, 0, 0, 1, 0, 1, 1, 0, 0],
                 [0, 1, 0, 0, 1, 0, 0, 1, 0, 0, 1, 0, 0, 1, 0, 0, 1, 0]] := by
  rw [sampleQuad_triangulated]
  refine ⟨by simp [sampleQuadSplit], _, _,
    export_ready Load Real.sqrt (sampleQuadSplit ℝ fresh) 0 false _
      (sampleQuadSplit_group ℝ fresh) (sampleQuadSplit_ready ℝ fresh), ?_, ?_, ?_⟩
  · simp [flatMeshGroup]
  · simp [flatMeshGroup, sampleQuadSplit]
  · simp only [List.map_cons, List.map_nil, sampleQuadSplit_first, sampleQuadSplit_second]
    simp [flatMeshGroup, flatBuffers, cornerPositions, cornerNormals, cornerUVs, vertexAt,
      index, derivedState, sampleQuadSplit]

end gloo

namespace gloo
variable {F : Type}

/-! ### Magnitude of the face normal -/

theorem cross_dot_left [Field F] (a b : Vec3 F) : Vec3.dot (Vec3.cross a b) a = 0 := by
  simp only [Vec3.dot, Vec3.cross]
  ring

theorem cross_dot_right [Field F] (a b : Vec3 F) : Vec3.dot (Vec3.cross a b) b = 0 := by
  simp only [Vec3.dot, Vec3.cross]
  ring

theorem cross_dot_self [Field F] (a b : Vec3 F) :
    Vec3.dot (Vec3.cross a b) (Vec3.cross a b)
      = Vec3.dot a a * Vec3.dot b b - Vec3.dot a b ^ 2 := by
  simp only [Vec3.dot, Vec3.cross]
  ring

theorem dot_self_nonneg (v : Vec3 ℝ) : 0 ≤ Vec3.dot v v := by
  unfold Vec3.dot
  exact add_nonneg (add_nonneg (mul_self_nonneg _) (mul_self_nonneg _)) (mul_self_nonneg _)

theorem length_sq (v : Vec3 ℝ) : Vec3.length Real.sqrt v ^ 2 = Vec3.dot v v := by
  unfold Vec3.length
  exact Real.sq_sqrt (dot_self_nonneg v)

theorem dot_self_eq_zero (v : Vec3 ℝ) (h : Vec3.dot v v = 0) : v = Vec3.zero := by
  unfold Vec3.dot at h
  have hx : v.x = 0 := by nlinarith [mul_self_nonneg v.x, mul_self_nonneg v.y, mul_self_nonneg v.z]
  have hy : v.y = 0 := by nlinarith [mul_self_nonneg v.x, mul_self_nonneg v.y, mul_self_nonneg v.z]
  have hz : v.z = 0 := by nlinarith [mul_self_nonneg v.x, mul_self_nonneg v.y, mul_self_nonneg v.z]
  cases v
  simp only [Vec3.zero, Vec3.mk.injEq]
  exact ⟨hx, hy, hz⟩

theorem length_normalize (v : Vec3 ℝ) (h : v ≠ Vec3.zero) :
    Vec3.length Real.sqrt (Vec3.normalize Real.sqrt v) = 1 := by
  have hd : 0 < Vec3.dot v v := by
    rcases (dot_self_nonneg v).lt_or_eq with hlt | heq
    · exact hlt
    · exact absurd (dot_self_eq_zero v heq.symm) h
  have hs : 0 < Real.sqrt (Vec3.dot v v) := Real.sqrt_pos.mpr hd
  have hss : Real.sqrt (Vec3.dot v v) * Real.sqrt (Vec3.dot v v) = Vec3.dot v v :=
    Real.mul_self_sqrt (le_of_lt hd)
  have hdot : Vec3.dot (Vec3.normalize Real.sqrt v) (Vec3.normalize Real.sqrt v) = 1 := by
    have e : Vec3.dot (Vec3.normalize Real.sqrt v) (Vec3.normalize Real.sqrt v)
        = Vec3.dot v v * ((Real.sqrt (Vec3.dot v v))⁻¹ * (Real.sqrt (Vec3.dot v v))⁻¹) := by
      simp only [Vec3.normalize, Vec3.scale, Vec3.dot]
      ring
    rw [e, ← mul_inv, hss]
    exact mul_inv_cancel₀ (ne_of_gt hd)
  unfold Vec3.length
  rw [hdot, Real.sqrt_one]

theorem face_after_face_normals [Field F] (sqrt : F → F) (normalize : Bool) (m : ObjMesh F)
    (g i : Nat) (group : ObjGroup F) (face : Face F) (c0 c1 c2 : Corner)
    (h : PosInBounds m) (hg : m.mGroups[g]? = some group) (hf : group.mFaces[i]? = some face)
    (hv : face.VertexList = [c0, c1, c2]) :
    ∃ m' group' face' p0 p1 p2,
      ComputeFaceNormals sqrt normalize m = some m'
        ∧ m'.mGroups[g]? = some group' ∧ group'.mFaces[i]? = some face'
        ∧ face'.VertexList = face.VertexList
        ∧ index m.mVertices c0.pos = some p0
        ∧ index m.mVertices c1.pos = some p1
        ∧ index m.mVertices c2.pos = some p2
        ∧ face'.mNormal
            = if normalize then Vec3.normalize sqrt (Vec3.cross (p1.sub p0) (p2.sub p0))
              else Vec3.cross (p1.sub p0) (p2.sub p0) := by
  have hb := h group (List.getElem?_mem hg) face (List.getElem?_mem hf)
  rw [hv] at hb
  obtain ⟨p0, hp0, _⟩ := index_eq_some_of_bounds m.mVertices c0.pos (hb c0 (by simp)).1
    (hb c0 (by simp)).2
  obtain ⟨p1, hp1, _⟩ := index_eq_some_of_bounds m.mVertices c1.pos (hb c1 (by simp)).1
    (hb c1 (by simp)).2
  obtain ⟨p2, hp2, _⟩ := index_eq_some_of_bounds m.mVertices c2.pos (hb c2 (by simp)).1
    (hb c2 (by simp)).2
  refine ⟨_, { group with mFaces := group.mFaces.map (withFaceNormal sqrt normalize m.mVertices) },
    withFaceNormal sqrt normalize m.mVertices face, p0, p1, p2,
    ComputeFaceNormals_eq sqrt normalize m h, by simp [hg], by simp [hf],
    withFaceNormal_VertexList sqrt normalize m.mVertices face, hp0, hp1, hp2, ?_⟩
  simp [withFaceNormal, hv, crossNormal, vertexAt, hp0, hp1, hp2]

/-- C17: over the reals, for a face with exactly three corners `(v0,v1,v2)` of
a mesh with position indices in range, the normal `n` that
`ComputeFaceNormals(false)` caches is `cross(e1, e2)` with
`e1 = positions[v1] - positions[v0]`, `e2 = positions[v2] - positions[v0]`; it
satisfies `|n|^2 = |e1|^2 |e2|^2 - (e1.e2)^2`, the square of twice the
triangle's area, and is orthogonal to `e1` and to `e2`. -/
theorem ComputeFaceNormals_false_area (m : ObjMesh ℝ) (g i : Nat) (group : ObjGroup ℝ)
    (face : Face ℝ) (c0 c1 c2 : Corner)
    (h : PosInBounds m) (hg : m.mGroups[g]? = some group) (hf : group.mFaces[i]? = some face)
    (hv : face.VertexList = [c0, c1, c2]) :
    ∃ m' group' face' p0 p1 p2,
      ComputeFaceNormals Real.sqrt false m = some m'
        ∧ m'.mGroups[g]? = some group' ∧ group'.mFaces[i]? = some face'
        ∧ index m.mVertices c0.pos = some p0
        ∧ index m.mVertices c1.pos = some p1
        ∧ index m.mVertices c2.pos = some p2
        ∧ face'.mNormal = Vec3.cross (p1.sub p0) (p2.sub p0)
        ∧ Vec3.length Real.sqrt face'.mNormal ^ 2
            = Vec3.length Real.sqrt (p1.sub p0) ^ 2 * Vec3.length Real.sqrt (p2.sub p0) ^ 2
              - Vec3.dot (p1.sub p0) (p2.sub p0) ^ 2
        ∧ Vec3.dot face'.mNormal (p1.sub p0) = 0
        ∧ Vec3.dot face'.mNormal (p2.sub p0) = 0 := by
  obtain ⟨m', group', face', p0, p1, p2, hm', hg', hf', _, hp0, hp1, hp2, hn⟩ :=
    face_after_face_normals Real.sqrt false m g i group face c0 c1 c2 h hg hf hv
  simp only [Bool.false_eq_true, if_false] at hn
  refine ⟨m', group', face', p0, p1, p2, hm', hg', hf', hp0, hp1, hp2, hn, ?_, ?_, ?_⟩
  · rw [hn, length_sq, length_sq, length_sq, cross_dot_self]
  · rw [hn, cross_dot_left]
  · rw [hn, cross_dot_right]

/-- Witness for C17: the sample triangle over the reals. -/
theorem ComputeFaceNormals_false_area_witness :
    ∃ m' group' face',
      ComputeFaceNormals Real.sqrt false (sampleTriangle ℝ) = some m'
        ∧ m'.mGroups[0]? = some group' ∧ group'.mFaces[0]? = some face' := by
  obtain ⟨m', group', face', _, _, _, h1, h2, h3, _⟩ :=
    ComputeFaceNormals_false_area (sampleTriangle ℝ) 0 0
      ⟨"g", [⟨[⟨0, -1, -1⟩, ⟨1, -1, -1⟩, ⟨2, -1, -1⟩], Vec3.zero⟩]⟩
      ⟨[⟨0, -1, -1⟩, ⟨1, -1, -1⟩, ⟨2, -1, -1⟩], Vec3.zero⟩
      ⟨0, -1, -1⟩ ⟨1, -1, -1⟩ ⟨2, -1, -1⟩
      (sampleTriangle_bounds ℝ) (by simp [sampleTriangle]) (by simp) rfl
  exact ⟨m', group', face', h1, h2, h3⟩

/-- C14 (as amended): over the reals, for a face with exactly three corners of
a mesh with position indices in range whose cross product
`cross(p1 - p0, p2 - p0)` is not the zero vector (a non-degenerate triangle),
the normal cached by `ComputeFaceNormals(true)` has length 1. -/
theorem ComputeFaceNormals_true_unit (m : ObjMesh ℝ) (g i : Nat) (group : ObjGroup ℝ)
    (face : Face ℝ) (c0 c1 c2 : Corner)
    (h : PosInBounds m) (hg : m.mGroups[g]? = some group) (hf : group.mFaces[i]? = some face)
    (hv : face.VertexList = [c0, c1, c2])
    (hnd : Vec3.cross ((vertexAt m.mVertices c1.pos).sub (vertexAt m.mVertices c0.pos))
      ((vertexAt m.mVertices c2.pos).sub (vertexAt m.mVertices c0.pos)) ≠ Vec3.zero) :
    ∃ m' group' face',
      ComputeFaceNormals Real.sqrt true m = some m'
        ∧ m'.mGroups[g]? = some group' ∧ group'.mFaces[i]? = some face'
        ∧ Vec3.length Real.sqrt face'.mNormal = 1 := by
  obtain ⟨m', group', face', p0, p1, p2, hm', hg', hf', _, hp0, hp1, hp2, hn⟩ :=
    face_after_face_normals Real.sqrt true m g i group face c0 c1 c2 h hg hf hv
  simp only [if_true] at hn
  rw [vertexAt_of_index _ _ _ hp0, vertexAt_of_index _ _ _ hp1, vertexAt_of_index _ _ _ hp2]
    at hnd
  refine ⟨m', group', face', hm', hg', hf', ?_⟩
  rw [hn]
  exact length_normalize _ hnd

/-- Witness for C14 (as amended): the sample triangle over the reals, whose
cross product is `(0, 0, 2)`. -/
theorem ComputeFaceNormals_true_unit_witness :
    ∃ m' group' face',
      ComputeFaceNormals Real.sqrt true (sampleTriangle ℝ) = some m'
        ∧ m'.mGroups[0]? = some group' ∧ group'.mFaces[0]? = some face'
        ∧ Vec3.length Real.sqrt face'.mNormal = 1 :=
  ComputeFaceNormals_true_unit (sampleTriangle ℝ) 0 0
    ⟨"g", [⟨[⟨0, -1, -1⟩, ⟨1, -1, -1⟩, ⟨2, -1, -1⟩], Vec3.zero⟩]⟩
    ⟨[⟨0, -1, -1⟩, ⟨1, -1, -1⟩, ⟨2, -1, -1⟩], Vec3.zero⟩
    ⟨0, -1, -1⟩ ⟨1, -1, -1⟩ ⟨2, -1, -1⟩
    (sampleTriangle_bounds ℝ) (by simp [sampleTriangle]) (by simp) rfl
    (by simp [vertexAt, index, sampleTriangle, Vec3.cross, Vec3.sub, Vec3.zero])

/-- Counterexample to C14 as stated: a triangle whose corners lie on one line.
Its position indices are in range and it has three corners, its cross product
is the zero vector, and the normal `ComputeFaceNormals(true)` caches (the zero
vector times the reciprocal of a zero length) has length 0, not 1. -/
theorem ComputeFaceNormals_true_degenerate :
    PosInBounds (sampleDegenerate ℝ)
      ∧ Triangulated (sampleDegenerate ℝ)
      ∧ ∃ m', ComputeFaceNormals Real.sqrt true (sampleDegenerate ℝ) = some m'
          ∧ m'.mGroups.map (fun group => group.mFaces.map Face.mNormal) = [[⟨0, 0, 0⟩]]
          ∧ Vec3.length Real.sqrt (⟨0, 0, 0⟩ : Vec3 ℝ) = 0
          ∧ Vec3.length Real.sqrt (⟨0, 0, 0⟩ : Vec3 ℝ) ≠ 1 := by
  have hb : PosInBounds (sampleDegenerate ℝ) := by
    simp [PosInBounds, sampleDegenerate]
  have hlen : Vec3.length Real.sqrt (⟨0, 0, 0⟩ : Vec3 ℝ) = 0 := by
    simp [Vec3.length, Vec3.dot]
  refine ⟨hb, by simp [Triangulated, sampleDegenerate], _,
    ComputeFaceNormals_eq Real.sqrt true (sampleDegenerate ℝ) hb, ?_, hlen, ?_⟩
  · simp [sampleDegenerate, withFaceNormal, crossNormal, vertexAt, index, Vec3.cross, Vec3.sub,
      Vec3.normalize, Vec3.scale]
  · rw [hlen]
    norm_num

end gloo

namespace gloo
variable {F : Type}

/-! ### The divisions of the vertex loop -/

theorem faces_weight_fold [Field F] (sqrt : F → F) (faces : List (Face F)) :
    faces.foldl (fun (t : F) face => t + Vec3.length sqrt face.mNormal) 0
      = (faces.map (fun face => Vec3.length sqrt face.mNormal)).sum := by
  have h := total_weight_eq_sum sqrt (faces.map Face.mNormal) 0
  rw [List.foldl_map, zero_add, List.map_map] at h
  exact h

theorem divisors_fold {α : Type} (t : F) (l : List α) :
    ∀ init : List F,
      l.foldl (fun (ds : List F) _ => ds ++ [t]) init = init ++ List.replicate l.length t := by
  induction l with
  | nil => intro init; simp
  | cons a rest ih =>
    intro init
    rw [List.foldl_cons, ih, List.length_cons, List.replicate_succ, List.append_assoc]
    rfl

theorem vertexNormalDivisors_eq [Field F] (sqrt : F → F) (st : ObjMesh F) (k : Nat) :
    vertexNormalDivisors sqrt st (k, adjacentPtrs st.mGroups k)
      = some (vertexDivisors sqrt st.mGroups k) := by
  have h1 := foldlM_deref (deref st.mGroups)
    (fun (t : F) face => t + Vec3.length sqrt face.mNormal)
    (adjacentPtrs st.mGroups k) (adjacentFaces st.mGroups k) 0
    (adjacentPtrs_map_deref st.mGroups k)
  have h2 := foldlM_deref (deref st.mGroups)
    (fun (ds : List F) (_ : Face F) => ds ++
      [List.foldl (fun (t : F) face => t + Vec3.length sqrt face.mNormal) 0
        (adjacentFaces st.mGroups k)])
    (adjacentPtrs st.mGroups k) (adjacentFaces st.mGroups k) []
    (adjacentPtrs_map_deref st.mGroups k)
  unfold vertexNormalDivisors
  simp only [Option.bind_eq_bind] at h1 h2 ⊢
  rw [h1]
  simp only [Option.some_bind]
  rw [h2, divisors_fold, List.nil_append, faces_weight_fold]
  rfl

theorem vertexDivisors_mapFaces [Field F] (sqrt : F → F) (f : Face F → Face F)
    (groups : List (ObjGroup F)) (v : Nat)
    (hpos : ∀ face, (f face).VertexList.map Corner.pos = face.VertexList.map Corner.pos)
    (hnor : ∀ face, (f face).mNormal = face.mNormal) :
    vertexDivisors sqrt (mapFaces f groups) v = vertexDivisors sqrt groups v := by
  unfold vertexDivisors totalWeight
  rw [adjacentFaces_mapFaces f groups v hpos, List.length_map, List.map_map]
  congr 2
  apply List.map_congr_left
  intro face _
  simp only [Function.comp, hnor]

theorem traced_loop_upto [Field F] (sqrt : F → F) (normalize : Bool) (m1 : ObjMesh F) :
    ∀ k : Nat,
      ((List.range k).map (fun v => (v, adjacentPtrs m1.mGroups v))).foldlM
          (fun (acc : ObjMesh F × List (List F)) ia => do
            let divisors ← vertexNormalDivisors sqrt acc.1 ia
            let m ← vertexNormalStep sqrt normalize acc.1 ia
            pure (m, acc.2 ++ [divisors]))
          (m1, [])
        = some ({ m1 with
            mNormals := m1.mNormals
              ++ (List.range k).map (vertexNormal sqrt normalize m1.mGroups)
            mGroups := mapFaces (retargetBelow k) m1.mGroups },
            (List.range k).map (vertexDivisors sqrt m1.mGroups)) := by
  intro k
  induction k with
  | zero =>
    have h0 : mapFaces (retargetBelow 0) m1.mGroups = m1.mGroups := by
      rw [mapFaces_congr (retargetBelow 0) (fun face => face) m1.mGroups
        (fun _ _ face _ => retargetBelow_zero face), mapFaces_id]
    simp [h0]
  | succ k ih =>
    rw [List.range_succ, List.map_append, List.foldlM_append, ih]
    simp only [List.map_cons, List.map_nil, List.foldlM_cons, List.foldlM_nil,
      Option.bind_eq_bind, Option.some_bind]
    have hptr : adjacentPtrs m1.mGroups k
        = adjacentPtrs (mapFaces (retargetBelow k) m1.mGroups) k :=
      (adjacentPtrs_mapFaces (retargetBelow k) m1.mGroups k (retargetBelow_pos k)).symm
    rw [hptr]
    have hdiv := vertexNormalDivisors_eq sqrt
      { m1 with
        mNormals := m1.mNormals ++ (List.range k).map (vertexNormal sqrt normalize m1.mGroups)
        mGroups := mapFaces (retargetBelow k) m1.mGroups } k
    have hstep := vertexNormalStep_eq sqrt normalize
      { m1 with
        mNormals := m1.mNormals ++ (List.range k).map (vertexNormal sqrt normalize m1.mGroups)
        mGroups := mapFaces (retargetBelow k) m1.mGroups } k
    simp only at hdiv hstep
    rw [hdiv]
    simp only [Option.some_bind]
    rw [hstep]
    simp only [Option.some_bind, Option.pure_def, Option.some.injEq]
    have hvn : vertexNormal sqrt normalize (mapFaces (retargetBelow k) m1.mGroups) k
        = vertexNormal sqrt normalize m1.mGroups k := by
      unfold vertexNormal
      rw [adjacentFaces_mapFaces (retargetBelow k) m1.mGroups k (retargetBelow_pos k),
        List.map_map]
      rfl
    have hmf : mapFaces (fun face => retarget k (retargetBelow k face)) m1.mGroups
        = mapFaces (retargetBelow (k + 1)) m1.mGroups :=
      mapFaces_congr _ _ _ (fun _ _ face _ => retarget_retargetBelow k face)
    rw [hvn, mapFaces_mapFaces, hmf,
      vertexDivisors_mapFaces sqrt (retargetBelow k) m1.mGroups k (retargetBelow_pos k)
        (fun _ => rfl)]
    simp [List.append_assoc]

theorem ComputeVertexNormalsDivisors_eq [Field F] (sqrt : F → F) (normalize : Bool)
    (m : ObjMesh F) (h : PosInBounds m) :
    ComputeVertexNormalsDivisors sqrt normalize m
      = some ((List.range m.mVertices.length).map
          (vertexDivisors sqrt (mapFaces (withFaceNormal sqrt false m.mVertices) m.mGroups))) := by
  unfold ComputeVertexNormalsDivisors
  rw [buildVertexFaces_eq m h, ComputeFaceNormals_eq sqrt false m h]
  simp only [Option.bind_eq_bind, Option.some_bind]
  rw [enum_range_map]
  have hptr : (fun v => (v, adjacentPtrs m.mGroups v))
      = (fun v => (v, adjacentPtrs
          (mapFaces (withFaceNormal sqrt false m.mVertices) m.mGroups) v)) := by
    funext v
    rw [adjacentPtrs_mapFaces (withFaceNormal sqrt false m.mVertices) m.mGroups v
      (fun face => by rw [withFaceNormal_VertexList])]
  rw [hptr]
  have hloop := traced_loop_upto sqrt normalize
    { m with mGroups := mapFaces (withFaceNormal sqrt false m.mVertices) m.mGroups }
    m.mVertices.length
  simp only [Option.bind_eq_bind] at hloop
  have hm1 : ({ m with mGroups := m.mGroups.map (fun group =>
      { group with mFaces := group.mFaces.map (withFaceNormal sqrt false m.mVertices) }) }
        : ObjMesh F)
      = { m with mGroups := mapFaces (withFaceNormal sqrt false m.mVertices) m.mGroups } := rfl
  rw [hm1, hloop]
  rfl

end gloo

namespace gloo
variable {F : Type}

/-! ### Vertices without adjacent faces, and division by a zero total weight -/

theorem adjacentFaces_of_unreferenced (groups : List (ObjGroup F)) (v : Nat)
    (h : ∀ group ∈ groups, ∀ face ∈ group.mFaces, ∀ corner ∈ face.VertexList,
      corner.pos ≠ (v : Int)) :
    adjacentFaces groups v = [] := by
  unfold adjacentFaces
  rw [List.flatMap_eq_nil_iff]
  intro group hgroup
  rw [List.flatMap_eq_nil_iff]
  intro face hface
  rw [List.map_eq_nil_iff, List.filter_eq_nil_iff]
  intro corner hcorner
  simpa using h group hgroup face hface corner hcorner

theorem adjacentPtrs_of_unreferenced (groups : List (ObjGroup F)) (v : Nat)
    (h : ∀ group ∈ groups, ∀ face ∈ group.mFaces, ∀ corner ∈ face.VertexList,
      corner.pos ≠ (v : Int)) :
    adjacentPtrs groups v = [] := by
  have hlen : ((adjacentPtrs groups v).map (deref groups)).length = 0 := by
    rw [adjacentPtrs_map_deref, adjacentFaces_of_unreferenced groups v h]
    rfl
  rw [List.length_map] at hlen
  exact List.length_eq_zero.mp hlen

theorem vertexNormalStep_no_adjacent [Field F] (sqrt : F → F) (st : ObjMesh F) (i : Nat) :
    vertexNormalStep sqrt false st (i, [])
      = some { st with mNormals := st.mNormals ++ [Vec3.zero] } := by
  unfold vertexNormalStep
  simp

theorem sum_zero_of_nonneg (l : List ℝ) (hnn : ∀ x ∈ l, 0 ≤ x) (hsum : l.sum = 0) :
    ∀ x ∈ l, x = 0 := by
  induction l with
  | nil =>
    intro x hx
    cases hx
  | cons a rest ih =>
    have ha : 0 ≤ a := hnn a (by simp)
    have hrest : 0 ≤ rest.sum := List.sum_nonneg (fun x hx => hnn x (List.mem_cons_of_mem a hx))
    rw [List.sum_cons] at hsum
    have ha0 : a = 0 := by linarith
    have hr0 : rest.sum = 0 := by linarith
    intro x hx
    rcases List.mem_cons.mp hx with rfl | hmem
    · exact ha0
    · exact ih (fun y hy => hnn y (List.mem_cons_of_mem a hy)) hr0 x hmem

theorem zero_divisor (groups : List (ObjGroup ℝ)) (v : Nat)
    (h : (0 : ℝ) ∈ vertexDivisors Real.sqrt groups v) :
    adjacentFaces groups v ≠ []
      ∧ ∀ face ∈ adjacentFaces groups v, Vec3.length Real.sqrt face.mNormal = 0 := by
  unfold vertexDivisors at h
  obtain ⟨hlen, hT⟩ := List.mem_replicate.mp h
  refine ⟨fun hnil => hlen (by rw [hnil]; rfl), ?_⟩
  intro face hface
  unfold totalWeight at hT
  apply sum_zero_of_nonneg _ _ hT.symm
  · exact List.mem_map.mpr ⟨face, hface, rfl⟩
  · intro x hx
    obtain ⟨f, _, rfl⟩ := List.mem_map.mp hx
    exact Real.sqrt_nonneg _

/-- C20: over the reals, on a mesh with position indices in range and for a
vertex index `i` of the positions array, `ComputeVertexNormals(false)` returns
and the divisions of iteration `i` are recorded in `ds`.  If no face corner
references `i`, then `mVertexFaces[i]` is empty, the iteration divides nowhere
(`ds = []`), the normal appended for `i` is the zero vector, and the iteration
changes nothing but the normals array, whatever the mesh state.  A division by
zero (`0 ∈ ds`) happens only for a vertex that has an adjacent face and whose
adjacent faces all have a cached normal of length 0. -/
theorem ComputeVertexNormals_false_divisions (m : ObjMesh ℝ) (i : Nat)
    (h : PosInBounds m) (hi : i < m.mVertices.length) :
    ∃ m' adj record ds,
      ComputeVertexNormals Real.sqrt false m = some m'
        ∧ buildVertexFaces m = some adj
        ∧ ComputeVertexNormalsDivisors Real.sqrt false m = some record
        ∧ record[i]? = some ds
        ∧ ((∀ group ∈ m.mGroups, ∀ face ∈ group.mFaces, ∀ corner ∈ face.VertexList,
              corner.pos ≠ (i : Int)) →
            adj[i]? = some [] ∧ ds = []
              ∧ m'.mNormals[m.mNormals.length + i]? = some Vec3.zero
              ∧ ∀ st : ObjMesh ℝ, vertexNormalStep Real.sqrt false st (i, [])
                  = some { st with mNormals := st.mNormals ++ [Vec3.zero] })
        ∧ ((0 : ℝ) ∈ ds →
            adjacentFaces m.mGroups i ≠ []
              ∧ ∀ face ∈ adjacentFaces
                    (mapFaces (withFaceNormal Real.sqrt false m.mVertices) m.mGroups) i,
                  Vec3.length Real.sqrt face.mNormal = 0) := by
  have hadj : adjacentFaces (mapFaces (withFaceNormal Real.sqrt false m.mVertices) m.mGroups) i
      = (adjacentFaces m.mGroups i).map (withFaceNormal Real.sqrt false m.mVertices) :=
    adjacentFaces_mapFaces _ _ i (fun face => by rw [withFaceNormal_VertexList])
  obtain ⟨m', hm', hget⟩ := appended_normal Real.sqrt false m h i hi
  refine ⟨m', _, _,
    vertexDivisors Real.sqrt (mapFaces (withFaceNormal Real.sqrt false m.mVertices) m.mGroups) i,
    hm', buildVertexFaces_eq m h, ComputeVertexNormalsDivisors_eq Real.sqrt false m h, ?_, ?_, ?_⟩
  · rw [List.getElem?_map, List.getElem?_range hi]
    rfl
  · intro hun
    have hnil := adjacentFaces_of_unreferenced m.mGroups i hun
    refine ⟨?_, ?_, ?_, fun st => vertexNormalStep_no_adjacent Real.sqrt st i⟩
    · rw [List.getElem?_map, List.getElem?_range hi, Option.map_some',
        adjacentPtrs_of_unreferenced m.mGroups i hun]
    · unfold vertexDivisors
      rw [hadj, hnil]
      rfl
    · rw [hget]
      unfold vertexNormal
      rw [hadj, hnil]
      rfl
  · intro hzero
    obtain ⟨hne, hall⟩ := zero_divisor _ i hzero
    refine ⟨?_, hall⟩
    intro hnil
    apply hne
    rw [hadj, hnil]
    rfl

/-- Witness for C20: the sample triangle with a fourth, unreferenced
position. -/
theorem ComputeVertexNormals_false_divisions_witness :
    ∃ m' record ds,
      ComputeVertexNormals Real.sqrt false (sampleIsolated ℝ) = some m'
        ∧ ComputeVertexNormalsDivisors Real.sqrt false (sampleIsolated ℝ) = some record
        ∧ record[3]? = some ds ∧ ds = []
        ∧ m'.mNormals[(sampleIsolated ℝ).mNormals.length + 3]? = some Vec3.zero := by
  obtain ⟨m', _, record, ds, h1, _, h3, h4, h5, _⟩ :=
    ComputeVertexNormals_false_divisions (sampleIsolated ℝ) 3
      (by simp [PosInBounds, sampleIsolated, sampleTriangle])
      (by simp [sampleIsolated])
  obtain ⟨_, h6, h7, _⟩ := h5 (by simp [sampleIsolated, sampleTriangle])
  exact ⟨m', record, ds, h1, h3, h4, h6, h7⟩

end gloo

namespace gloo
variable {F : Type}

/-! ### The vertex normal of two coplanar triangles -/

theorem length_scale (v : Vec3 ℝ) (k : ℝ) (hk : 0 ≤ k) :
    Vec3.length Real.sqrt (Vec3.scale v k) = k * Vec3.length Real.sqrt v := by
  unfold Vec3.length
  have e : Vec3.dot (Vec3.scale v k) (Vec3.scale v k) = k * k * Vec3.dot v v := by
    simp only [Vec3.dot, Vec3.scale]
    ring
  rw [e, Real.sqrt_mul (mul_self_nonneg k), Real.sqrt_mul_self hk]

theorem normalize_scale (v : Vec3 ℝ) (k : ℝ) (hk : 0 < k) :
    Vec3.normalize Real.sqrt (Vec3.scale v k) = Vec3.normalize Real.sqrt v := by
  have hlen := length_scale v k (le_of_lt hk)
  unfold Vec3.length at hlen
  unfold Vec3.normalize
  rw [hlen, mul_inv]
  have hk0 : k ≠ 0 := ne_of_gt hk
  simp only [Vec3.scale, Vec3.mk.injEq]
  refine ⟨?_, ?_, ?_⟩
  · rw [mul_assoc, ← mul_assoc k, mul_inv_cancel₀ hk0, one_mul]
  · rw [mul_assoc, ← mul_assoc k, mul_inv_cancel₀ hk0, one_mul]
  · rw [mul_assoc, ← mul_assoc k, mul_inv_cancel₀ hk0, one_mul]

theorem length_pos_of_ne_zero (v : Vec3 ℝ) (h : v ≠ Vec3.zero) :
    0 < Vec3.length Real.sqrt v := by
  unfold Vec3.length
  apply Real.sqrt_pos.mpr
  rcases (dot_self_nonneg v).lt_or_eq with hlt | heq
  · exact hlt
  · exact absurd (dot_self_eq_zero v heq.symm) h

theorem weightedAverage_parallel (v : Vec3 ℝ) (c : ℝ) (hv : v ≠ Vec3.zero) (hc : 0 < c) :
    weightedAverage Real.sqrt [v, Vec3.scale v c]
      = Vec3.scale v ((1 + c * c) / (1 + c)) := by
  have ha : 0 < Vec3.length Real.sqrt v := length_pos_of_ne_zero v hv
  have ha0 : Vec3.length Real.sqrt v ≠ 0 := ne_of_gt ha
  have hc1 : (1 : ℝ) + c ≠ 0 := by linarith
  unfold weightedAverage
  simp only [List.foldl_cons, List.foldl_nil, length_scale v c (le_of_lt hc), zero_add]
  simp only [Vec3.add, Vec3.scale, Vec3.zero, Vec3.mk.injEq, zero_add]
  refine ⟨?_, ?_, ?_⟩ <;> field_simp <;> ring

theorem appended_normal_of_two [Field F] (sqrt : F → F) (normalize : Bool) (m : ObjMesh F)
    (i : Nat) (f1 f2 : Face F) (h : PosInBounds m) (hi : i < m.mVertices.length)
    (hadj : adjacentFaces m.mGroups i = [f1, f2])
    (h1 : f1.VertexList.length = 3) (h2 : f2.VertexList.length = 3) :
    ∃ m', ComputeVertexNormals sqrt normalize m = some m'
      ∧ m'.mNormals[m.mNormals.length + i]?
          = some (if normalize then
              Vec3.normalize sqrt (weightedAverage sqrt
                [crossNormal m.mVertices f1, crossNormal m.mVertices f2])
            else weightedAverage sqrt
                [crossNormal m.mVertices f1, crossNormal m.mVertices f2]) := by
  obtain ⟨m', hm', hget⟩ := appended_normal sqrt normalize m h i hi
  refine ⟨m', hm', ?_⟩
  rw [hget]
  unfold vertexNormal
  rw [adjacentFaces_mapFaces _ _ i (fun face => by rw [withFaceNormal_VertexList]), hadj]
  simp [withFaceNormal, h1, h2]

/-- C15: over the reals, on a mesh with position indices in range, let the
adjacency of vertex `i` consist of exactly two triangles `f1`, `f2` whose
cross-product normals are non-zero and positive multiples of one another
(the triangles share the vertex, so this says that they are non-degenerate,
coplanar and equally oriented).  Then the normal `ComputeVertexNormals(true)`
appends for `i` is the unit normal of `f1`, which is also the unit normal of
`f2`, and it has length 1. -/
theorem ComputeVertexNormals_true_coplanar (m : ObjMesh ℝ) (i : Nat) (f1 f2 : Face ℝ) (c : ℝ)
    (h : PosInBounds m) (hi : i < m.mVertices.length)
    (hadj : adjacentFaces m.mGroups i = [f1, f2])
    (h1 : f1.VertexList.length = 3) (h2 : f2.VertexList.length = 3)
    (hnd : crossNormal m.mVertices f1 ≠ Vec3.zero) (hc : 0 < c)
    (hco : crossNormal m.mVertices f2 = Vec3.scale (crossNormal m.mVertices f1) c) :
    ∃ m', ComputeVertexNormals Real.sqrt true m = some m'
      ∧ m'.mNormals[m.mNormals.length + i]?
          = some (Vec3.normalize Real.sqrt (crossNormal m.mVertices f1))
      ∧ Vec3.normalize Real.sqrt (crossNormal m.mVertices f2)
          = Vec3.normalize Real.sqrt (crossNormal m.mVertices f1)
      ∧ Vec3.length Real.sqrt (Vec3.normalize Real.sqrt (crossNormal m.mVertices f1)) = 1 := by
  obtain ⟨m', hm', hget⟩ := appended_normal_of_two Real.sqrt true m i f1 f2 h hi hadj h1 h2
  have hk : 0 < (1 + c * c) / (1 + c) := by
    apply div_pos
    · nlinarith [mul_self_nonneg c]
    · linarith
  refine ⟨m', hm', ?_, ?_, length_normalize _ hnd⟩
  · rw [hget, hco, weightedAverage_parallel _ c hnd hc]
    simp only [if_true]
    rw [normalize_scale _ _ hk]
  · rw [hco, normalize_scale _ c hc]

theorem sampleQuadSplit_adjacent (fresh : Vec3 ℝ) :
    adjacentFaces (sampleQuadSplit ℝ fresh).mGroups 0
      = [⟨[⟨0, -1, -1⟩, ⟨1, -1, -1⟩, ⟨2, -1, -1⟩], Vec3.zero⟩,
          ⟨[⟨0, -1, -1⟩, ⟨2, -1, -1⟩, ⟨3, -1, -1⟩], fresh⟩] := by
  simp [adjacentFaces, sampleQuadSplit, List.filter_cons]

/-- Witness for C15: vertex 0 of the triangulated unit square, shared by its
two triangles, both with cross product `(0, 1, 0)`. -/
theorem ComputeVertexNormals_true_coplanar_witness :
    ∃ m', ComputeVertexNormals Real.sqrt true (sampleQuadSplit ℝ Vec3.zero) = some m'
      ∧ m'.mNormals[(sampleQuadSplit ℝ Vec3.zero).mNormals.length + 0]?
          = some (Vec3.normalize Real.sqrt (crossNormal (sampleQuadSplit ℝ Vec3.zero).mVertices
              ⟨[⟨0, -1, -1⟩, ⟨1, -1, -1⟩, ⟨2, -1, -1⟩], Vec3.zero⟩)) := by
  have hc1 : crossNormal (sampleQuadSplit ℝ Vec3.zero).mVertices
      (⟨[⟨0, -1, -1⟩, ⟨1, -1, -1⟩, ⟨2, -1, -1⟩], Vec3.zero⟩ : Face ℝ) = ⟨0, 1, 0⟩ := by
    simp [crossNormal, vertexAt, index, sampleQuadSplit, Vec3.cross, Vec3.sub]
  have hc2 : crossNormal (sampleQuadSplit ℝ Vec3.zero).mVertices
      (⟨[⟨0, -1, -1⟩, ⟨2, -1, -1⟩, ⟨3, -1, -1⟩], Vec3.zero⟩ : Face ℝ) = ⟨0, 1, 0⟩ := by
    simp [crossNormal, vertexAt, index, sampleQuadSplit, Vec3.cross, Vec3.sub]
  obtain ⟨m', hm', hget, _⟩ :=
    ComputeVertexNormals_true_coplanar (sampleQuadSplit ℝ Vec3.zero) 0
      ⟨[⟨0, -1, -1⟩, ⟨1, -1, -1⟩, ⟨2, -1, -1⟩], Vec3.zero⟩
      ⟨[⟨0, -1, -1⟩, ⟨2, -1, -1⟩, ⟨3, -1, -1⟩], Vec3.zero⟩ 1
      (by simp [PosInBounds, sampleQuadSplit]) (by simp [sampleQuadSplit])
      (sampleQuadSplit_adjacent Vec3.zero) rfl rfl
      (by rw [hc1]; simp [Vec3.zero])
      (by norm_num)
      (by rw [hc1, hc2]; simp [Vec3.scale])
  exact ⟨m', hm', hget⟩

end gloo

namespace gloo
variable {F : Type}

/-! ### Flat export does not read vertex normals -/

theorem export_flat_unfold [Field F] (Load : MeshGroup F → Bool) (sqrt : F → F) (m : ObjMesh F)
    (g : Int) :
    (ExportToMeshGroup Load sqrt m g false).map Prod.snd
      = if g < 0 ∧ toSizeT g > m.mGroups.length then some none
        else (index m.mGroups g).bind (fun _ =>
          (ComputeFaceNormals sqrt true m).bind (fun m' =>
            (index m'.mGroups g).bind (fun objGroup =>
              (exportFaces false (decide (m.mUVs.length > 0)) m' objGroup.mFaces).bind
                (fun bufs =>
                  some (delivered Load (decide (m.mUVs.length > 0))
                    objGroup.mFaces.length bufs))))) := by
  unfold ExportToMeshGroup
  by_cases hguard : g < 0 ∧ toSizeT g > m.mGroups.length
  · rw [if_pos hguard, if_pos hguard]
    rfl
  · rw [if_neg hguard, if_neg hguard]
    cases hidx : index m.mGroups g with
    | none => rfl
    | some group0 =>
      simp only []
      rw [derive_eq_derivedMesh]
      have hd : derivedMesh sqrt m false = ComputeFaceNormals sqrt true m := rfl
      rw [hd]
      cases hcfn : ComputeFaceNormals sqrt true m with
      | none => rfl
      | some m' =>
        simp only [Option.bind_eq_bind, Option.some_bind, GetNumFacesOnGroup]
        cases hidx' : index m'.mGroups g with
        | none => rfl
        | some objGroup =>
          simp only [Option.some_bind, Option.pure_def]
          cases hexp : exportFaces false (decide (m.mUVs.length > 0)) m' objGroup.mFaces with
          | none => rfl
          | some bufs =>
            simp only [Option.some_bind, delivered]
            cases Load _ <;> simp

theorem mapM_map_map {α β : Type} (a : α → α) (b : β → β) (f : α → Option β) (l : List α)
    (h : ∀ x, f (a x) = (f x).map b) :
    (l.map a).mapM f = (l.mapM f).map (List.map b) := by
  induction l with
  | nil => rfl
  | cons x rest ih =>
    rw [List.map_cons, List.mapM_cons, List.mapM_cons, h x, ih]
    cases f x with
    | none => rfl
    | some y =>
      cases List.mapM f rest with
      | none => rfl
      | some ys => rfl

theorem faceNormalStep_forget [Field F] (sqrt : F → F) (normalize : Bool)
    (mVertices : List (Vec3 F)) (face : Face F) :
    faceNormalStep sqrt normalize mVertices (forgetFace face)
      = (faceNormalStep sqrt normalize mVertices face).map forgetIndices := by
  unfold faceNormalStep
  have hlen : (forgetFace face).VertexList.length = face.VertexList.length := by
    simp [forgetFace]
  rw [hlen]
  by_cases h3 : face.VertexList.length = 3
  · rw [if_pos h3, if_pos h3]
    match hv : face.VertexList, h3 with
    | [a, b, c], _ =>
      have hf : (forgetFace face).VertexList = [forgetCorner a, forgetCorner b, forgetCorner c] := by
        simp [forgetFace, hv]
      rw [hf]
      simp only [List.getElem?_cons_zero, List.getElem?_cons_succ, Option.bind_eq_bind,
        Option.some_bind, forgetCorner]
      cases index mVertices a.pos with
      | none => rfl
      | some v0 =>
        cases index mVertices b.pos with
        | none => rfl
        | some v1 =>
          cases index mVertices c.pos with
          | none => rfl
          | some v2 =>
            simp [Face.SetNormal, forgetIndices, forgetFace, hv, forgetCorner]
  · rw [if_neg h3, if_neg h3]
    simp [forgetIndices, forgetFace, h3]

theorem ComputeFaceNormals_forget [Field F] (sqrt : F → F) (normalize : Bool) (m : ObjMesh F) :
    ComputeFaceNormals sqrt normalize (forgetNormals m)
      = (ComputeFaceNormals sqrt normalize m).map
          (fun m' => { m' with mNormals := [], mGroups := mapFaces forgetIndices m'.mGroups }) := by
  unfold ComputeFaceNormals
  have hgroups : (forgetNormals m).mGroups
      = m.mGroups.map (fun group => { group with mFaces := group.mFaces.map forgetFace }) := rfl
  have hverts : (forgetNormals m).mVertices = m.mVertices := rfl
  rw [hgroups, hverts]
  have hstep : ∀ group : ObjGroup F,
      (fun group : ObjGroup F => do
          let faces ← group.mFaces.mapM (faceNormalStep sqrt normalize m.mVertices)
          pure { group with mFaces := faces })
        ((fun group : ObjGroup F => { group with mFaces := group.mFaces.map forgetFace }) group)
      = Option.map (fun group : ObjGroup F =>
            { group with mFaces := group.mFaces.map forgetIndices })
          ((fun group : ObjGroup F => do
            let faces ← group.mFaces.mapM (faceNormalStep sqrt normalize m.mVertices)
            pure { group with mFaces := faces }) group) := by
    intro group
    simp only
    rw [mapM_map_map forgetFace forgetIndices _ group.mFaces
      (faceNormalStep_forget sqrt normalize m.mVertices)]
    cases List.mapM (faceNormalStep sqrt normalize m.mVertices) group.mFaces with
    | none => rfl
    | some faces => rfl
  rw [mapM_map_map _ _ _ m.mGroups hstep]
  cases List.mapM
      (fun group : ObjGroup F => do
        let faces ← group.mFaces.mapM (faceNormalStep sqrt normalize m.mVertices)
        pure { group with mFaces := faces })
      m.mGroups with
  | none => rfl
  | some groups => rfl

end gloo

namespace gloo
variable {F : Type}

theorem exportCorner_forget [Field F] (hasUVs : Bool) (m m0 : ObjMesh F) (face : Face F)
    (bufs : GroupBuffers F) (vtx : Nat)
    (hv : m0.mVertices = m.mVertices) (hu : m0.mUVs = m.mUVs) :
    exportCorner false hasUVs m0 (forgetIndices face) bufs vtx
      = exportCorner false hasUVs m face bufs vtx := by
  unfold exportCorner
  have hget : (forgetIndices face).VertexList[vtx]? = (face.VertexList[vtx]?).map forgetCorner := by
    simp [forgetIndices]
  rw [hget, hv, hu]
  cases face.VertexList[vtx]? with
  | none => rfl
  | some corner => rfl

theorem exportFaces_forget [Field F] (hasUVs : Bool) (m m0 : ObjMesh F) (faces : List (Face F))
    (hv : m0.mVertices = m.mVertices) (hu : m0.mUVs = m.mUVs) :
    exportFaces false hasUVs m0 (faces.map forgetIndices)
      = exportFaces false hasUVs m faces := by
  unfold exportFaces
  rw [List.foldlM_map]
  congr 1
  funext bufs face
  simp only [List.foldlM_cons, List.foldlM_nil,
    exportCorner_forget hasUVs m m0 face _ _ hv hu]

theorem export_flat_forget [Field F] (Load : MeshGroup F → Bool) (sqrt : F → F) (m : ObjMesh F)
    (g : Int) :
    (ExportToMeshGroup Load sqrt (forgetNormals m) g false).map Prod.snd
      = (ExportToMeshGroup Load sqrt m g false).map Prod.snd := by
  rw [export_flat_unfold, export_flat_unfold]
  have hlen : (forgetNormals m).mGroups.length = m.mGroups.length := by
    simp [forgetNormals, mapFaces]
  have huv : (forgetNormals m).mUVs = m.mUVs := rfl
  rw [hlen, huv]
  by_cases hguard : g < 0 ∧ toSizeT g > m.mGroups.length
  · rw [if_pos hguard, if_pos hguard]
  · rw [if_neg hguard, if_neg hguard]
    have hidx : index (forgetNormals m).mGroups g
        = (index m.mGroups g).map
            (fun group => { group with mFaces := group.mFaces.map forgetFace }) :=
      index_mapFaces forgetFace m.mGroups g
    rw [hidx, ComputeFaceNormals_forget]
    cases index m.mGroups g with
    | none => rfl
    | some group0 =>
      simp only [Option.map_some', Option.some_bind]
      cases ComputeFaceNormals sqrt true m with
      | none => rfl
      | some m' =>
        simp only [Option.map_some', Option.some_bind]
        rw [index_mapFaces]
        cases index m'.mGroups g with
        | none => rfl
        | some objGroup =>
          simp only [Option.map_some', Option.some_bind, List.length_map]
          rw [exportFaces_forget _ m'
            { m' with mNormals := [], mGroups := mapFaces forgetIndices m'.mGroups }
            objGroup.mFaces rfl rfl]

theorem forgetFace_after_vertex_normals [Field F] (sqrt : F → F) (mVertices : List (Vec3 F))
    (face : Face F) :
    forgetFace (pointAtOwnVertex (withFaceNormal sqrt false mVertices face)) = forgetFace face := by
  unfold forgetFace pointAtOwnVertex
  simp only [withFaceNormal_VertexList, List.map_map, List.length_map]
  have hcorners : face.VertexList.map
      (forgetCorner ∘ fun corner => { corner with nor := corner.pos })
      = face.VertexList.map forgetCorner := by
    apply List.map_congr_left
    intro corner _
    rfl
  rw [hcorners]
  by_cases h3 : face.VertexList.length = 3
  · simp [h3]
  · simp [h3, withFaceNormal]

theorem flatAgree_after_vertex_normals [Field F] (sqrt : F → F) (normalize : Bool)
    (m m' : ObjMesh F) (h : ComputeVertexNormals sqrt normalize m = some m') :
    FlatAgree m' m := by
  have hb := ComputeVertexNormals_some sqrt normalize m m' h
  rw [ComputeVertexNormals_eq sqrt normalize m hb] at h
  rw [← Option.some.inj h]
  unfold FlatAgree forgetNormals
  simp only [mapFaces_mapFaces]
  congr 1
  apply mapFaces_congr
  intro group _ face _
  exact forgetFace_after_vertex_normals sqrt m.mVertices face

theorem export_flat_agree [Field F] (Load : MeshGroup F → Bool) (sqrt : F → F)
    (m1 m2 : ObjMesh F) (g : Int) (h : FlatAgree m1 m2) :
    (ExportToMeshGroup Load sqrt m1 g false).map Prod.snd
      = (ExportToMeshGroup Load sqrt m2 g false).map Prod.snd := by
  rw [← export_flat_forget Load sqrt m1 g, ← export_flat_forget Load sqrt m2 g]
  unfold FlatAgree at h
  rw [h]

end gloo

namespace gloo
variable {F : Type}

theorem flatAgree_rewriteNormals [Field F] (N : List (Vec3 F)) (ν : Corner → Int)
    (η : Face F → Vec3 F) (m : ObjMesh F) : FlatAgree (rewriteNormals N ν η m) m := by
  unfold FlatAgree forgetNormals rewriteNormals
  simp only [mapFaces_mapFaces]
  congr 1
  apply mapFaces_congr
  intro group _ face _
  unfold forgetFace
  simp only [List.map_map, List.length_map]
  have hcorners : face.VertexList.map
      (forgetCorner ∘ fun corner => { corner with nor := ν corner })
      = face.VertexList.map forgetCorner := by
    apply List.map_congr_left
    intro corner _
    rfl
  rw [hcorners]
  by_cases h3 : face.VertexList.length = 3
  · simp [h3]
  · simp [h3]

/-- C19: a flat export does not depend on vertex normals.  For two meshes that
agree on positions, uvs, groups and every corner's position and uv index (and
on the cached normals of the faces that are not triangles), the pointer
returned by `ExportToMeshGroup(g, false)`, hence the vertex count, attribute
sizes and position, normal and UV buffers handed to `Load`, is the same,
out-of-range accesses included.  Any change of the normals array, of the
normal indices and of the cached normals of triangles gives such a pair, and
so does a preceding `ComputeVertexNormals`.  On a mesh ready for the export the
common result is the group built from the per-face normalized cross
products. -/
theorem ExportToMeshGroup_flat_independent [Field F] (Load : MeshGroup F → Bool)
    (sqrt : F → F) (m1 m2 : ObjMesh F) (g : Int) (h : FlatAgree m1 m2) :
    (ExportToMeshGroup Load sqrt m1 g false).map Prod.snd
        = (ExportToMeshGroup Load sqrt m2 g false).map Prod.snd
      ∧ (∀ (N : List (Vec3 F)) (ν : Corner → Int) (η : Face F → Vec3 F),
          FlatAgree (rewriteNormals N ν η m1) m1
            ∧ (ExportToMeshGroup Load sqrt (rewriteNormals N ν η m1) g false).map Prod.snd
                = (ExportToMeshGroup Load sqrt m1 g false).map Prod.snd)
      ∧ (∀ (normalize : Bool) (m' : ObjMesh F),
          ComputeVertexNormals sqrt normalize m1 = some m' →
            (ExportToMeshGroup Load sqrt m' g false).map Prod.snd
              = (ExportToMeshGroup Load sqrt m1 g false).map Prod.snd)
      ∧ (∀ group : ObjGroup F, index m1.mGroups g = some group →
          ExportReady m1 group false →
            (ExportToMeshGroup Load sqrt m2 g false).map Prod.snd
              = some
                (if Load (flatMeshGroup false (decide (m1.mUVs.length > 0))
                    (derivedState sqrt m1 false)
                    (group.mFaces.map (derivedFace sqrt m1 false)))
                then some (flatMeshGroup false (decide (m1.mUVs.length > 0))
                    (derivedState sqrt m1 false)
                    (group.mFaces.map (derivedFace sqrt m1 false)))
                else none)) := by
  refine ⟨export_flat_agree Load sqrt m1 m2 g h, ?_, ?_, ?_⟩
  · intro N ν η
    exact ⟨flatAgree_rewriteNormals N ν η m1,
      export_flat_agree Load sqrt _ m1 g (flatAgree_rewriteNormals N ν η m1)⟩
  · intro normalize m' hm'
    exact export_flat_agree Load sqrt m' m1 g
      (flatAgree_after_vertex_normals sqrt normalize m1 m' hm')
  · intro group hgrp hr
    rw [← export_flat_agree Load sqrt m1 m2 g h, export_ready Load sqrt m1 g false group hgrp hr]
    rfl

/-- Witness for C19: the sample triangle with and without a normals array. -/
theorem ExportToMeshGroup_flat_independent_witness :
    (ExportToMeshGroup (fun _ => true) (fun x : ℚ => x) (sampleTriangle ℚ) 0 false).map Prod.snd
      = (ExportToMeshGroup (fun _ => true) (fun x : ℚ => x) (sampleWithNormal ℚ) 0 false).map
          Prod.snd :=
  (ExportToMeshGroup_flat_independent (fun _ => true) (fun x : ℚ => x) (sampleTriangle ℚ)
    (sampleWithNormal ℚ) 0 rfl).1

end gloo
